import Mathlib

/-!
Typed expressions (`lib/evaluate/expression.cc`) and the character buffer
(`lib/parser/char-buffer.cc`).

A shallow embedding of `IntegerExpr<KIND>::Fold`, `CharacterExpr<KIND>::LEN`, the `Dump`
functions of every expression category and of the precision-erased wrappers, and of
`CharBuffer::FreeSpace`, `Claim` and `Put`, together with the numeric and diagnostic
interfaces they consume.

* machine integers are bit patterns `raw < 2 ^ bits`, every operation reduces
  explicitly modulo `2 ^ bits`;
* the in-place mutation of the tree and the writes through the nullable
  `parser::Messages *` are explicit state passing: a `Fold` whose behaviour is defined
  returns the rewritten tree together with the state of the sink (for the sink, `none` is
  the null pointer), and a `Fold` whose behaviour is undefined returns no result;
* a `std::ostream` is the text written to it so far, and a `Dump` returns the stream with
  more text at its end;
* the expression types refer to each other; each is modelled with the operand types of
  the other categories as type parameters, and their `Dump`s as function parameters;
* the state of a `CharBuffer` is passed explicitly, and the loop of `Put` carries a bound
  on its iterations that is proved to be sufficient.
-/

namespace Fortran

namespace parser

/-- Modelled from the spec: `parser::CharBlock` (declared in `char-block.h`, not part of
the sources at hand), the source location handed to `Fold`.  The folding code only passes
it through to the diagnostic sink. -/
structure CharBlock where
  start : Nat
  size : Nat
deriving DecidableEq, Repr

/-- Modelled from the spec: one diagnostic as recorded by the sink (`message.h` is not part
of the sources at hand): the location and the message text. -/
structure Message where
  location : CharBlock
  text : String
deriving DecidableEq, Repr

/-- Modelled from the spec: `parser::Messages` (declared in `message.h`, not part of the
sources at hand), the diagnostic sink: the diagnostics said so far, oldest first. -/
abbrev Messages := List Message

/-- Modelled from the spec: `Messages::Say(at, text)` records one diagnostic. -/
def Messages.Say (messages : Messages) (loc : CharBlock) (text : String) : Messages :=
  messages ++ [Message.mk loc text]

end parser

namespace evaluate

open parser

/-! ## The numeric contract consumed by `Fold` -/

/-- Modelled from the spec: `Integer<bits>` (declared in `integer.h`, not part of the
sources at hand), a fixed-width integer held as its two's-complement bit pattern. -/
structure Integer (bits : Nat) where
  raw : Nat
  inRange : raw < 2 ^ bits
deriving DecidableEq, Repr

namespace Integer

variable {bits : Nat}

/-- The low `bits` bits of a natural number. -/
def ofNat (bits n : Nat) : Integer bits :=
  ⟨n % 2 ^ bits, Nat.mod_lt _ (Nat.two_pow_pos bits)⟩

/-- The two's-complement bit pattern of a mathematical integer, truncated to `bits` bits. -/
def ofInt (bits : Nat) (i : Int) : Integer bits :=
  ofNat bits (i % ((2 ^ bits : Nat) : Int)).toNat

/-- The sign bit. -/
def IsNegative (x : Integer bits) : Bool :=
  decide (2 ^ (bits - 1) ≤ x.raw)

/-- The signed value of a bit pattern. -/
def ToInt (x : Integer bits) : Int :=
  if x.IsNegative then (x.raw : Int) - ((2 ^ bits : Nat) : Int) else (x.raw : Int)

/-- Membership in the signed range `[-2^(bits-1), 2^(bits-1)-1]`. -/
def Representable (bits : Nat) (i : Int) : Bool :=
  decide (-((2 ^ (bits - 1) : Nat) : Int) ≤ i ∧ i ≤ ((2 ^ (bits - 1) : Nat) : Int) - 1)

/-- Modelled from the spec: the result type of `Negate` and `AddSigned` (`integer.h`,
absent): a value plus an overflow indicator. -/
structure ValueWithOverflow (bits : Nat) where
  value : Integer bits
  overflow : Bool
deriving DecidableEq, Repr

/-- Modelled from the spec: `Integer::Negate()` of `integer.h` (absent).  The value is the
wrapped negation; the flag says that the signed result is not representable. -/
def Negate (x : Integer bits) : ValueWithOverflow bits :=
  ⟨ofInt bits (-x.ToInt), !Representable bits (-x.ToInt)⟩

/-- Modelled from the spec: `Integer::AddSigned(y)` of `integer.h` (absent).  The value is
the wrapped sum; the flag says that the signed sum is not representable. -/
def AddSigned (x y : Integer bits) : ValueWithOverflow bits :=
  ⟨ofInt bits (x.ToInt + y.ToInt), !Representable bits (x.ToInt + y.ToInt)⟩

/-- Modelled from the spec: the result type of `MultiplySigned` (`integer.h`, absent): the
two halves of the full-width product. -/
structure Product (bits : Nat) where
  upper : Integer bits
  lower : Integer bits
deriving DecidableEq, Repr

/-- The full-width (`2 * bits`) bit pattern held by a product. -/
def Product.full (p : Product bits) : Nat :=
  p.upper.raw * 2 ^ bits + p.lower.raw

/-- The signed value of the full-width bit pattern held by a product. -/
def Product.ToInt (p : Product bits) : Int :=
  (ofNat (2 * bits) p.full).ToInt

/-- Modelled from the spec: `Product::SignedMultiplicationOverflowed()` of `integer.h`
(absent), the predicate on the full-width product saying that its signed value is not
representable in `bits` bits. -/
def Product.SignedMultiplicationOverflowed (p : Product bits) : Bool :=
  !Representable bits p.ToInt

/-- Modelled from the spec: `Integer::MultiplySigned(y)` of `integer.h` (absent): the
full-width two's-complement product of the signed values, split into its halves. -/
def MultiplySigned (x y : Integer bits) : Product bits :=
  let full := ofInt (2 * bits) (x.ToInt * y.ToInt)
  ⟨ofNat bits (full.raw / 2 ^ bits), ofNat bits full.raw⟩

end Integer

/-- Reference function, independent of the bit patterns: the signed integer congruent to `i`
modulo `2 ^ bits` that lies in `[-2^(bits-1), 2^(bits-1)-1]`. -/
def wrapSigned (bits : Nat) (i : Int) : Int :=
  (i + ((2 ^ (bits - 1) : Nat) : Int)) % ((2 ^ bits : Nat) : Int) - ((2 ^ (bits - 1) : Nat) : Int)

/-! ## Integer expression trees -/

/-- Modelled from the spec: the variant `IntegerExpr<KIND>::u` (declared in `expression.h`,
which is not part of the sources at hand).  Its nine alternatives are the ones visited by
`IntegerExpr<KIND>::Dump`.  `KIND` is the precision in bytes, so constants have `8 * KIND`
bits.  `C` is the operand type of `Convert` (`AnyIntegerOrRealExpr`, also declared in
`expression.h`); the operand of every other operator is an integer expression of the same
kind. -/
inductive IntegerExpr (KIND : Nat) (C : Type) where
  | Constant (c : Integer (8 * KIND))
  | Convert (x : C)
  | Parentheses (x : IntegerExpr KIND C)
  | Negate (x : IntegerExpr KIND C)
  | Add (x y : IntegerExpr KIND C)
  | Subtract (x y : IntegerExpr KIND C)
  | Multiply (x y : IntegerExpr KIND C)
  | Divide (x y : IntegerExpr KIND C)
  | Power (x y : IntegerExpr KIND C)
deriving DecidableEq, Repr

/-- The guarded report `if (overflow && messages != nullptr) messages->Say(at, text)`. -/
def sayIfOverflow (overflow : Bool) (messages : Option Messages) (loc : CharBlock)
    (text : String) : Option Messages :=
  if overflow && messages.isSome then
    messages.map (fun ms => Messages.Say ms loc text)
  else messages

namespace IntegerExpr

variable {KIND : Nat} {C : Type}

/-- The function `IntegerExpr<KIND>::Fold(at, messages)`.

The in-place mutation is state passing: the result of a call is `some` of the rewritten tree
and the state of the sink (for the sink, `none` is `messages == nullptr`), and the result
`none` says that the call has undefined behaviour, so that the program fixes neither the
tree nor the sink.

Undefined behaviour arises in the `Parentheses` case.  There `c` points to the constant held
by the operand `p.x`, which the `Parentheses` alternative of `u` owns, and `u = *c` assigns
to the variant `u` a value of another alternative.  That assignment first destroys the
alternative `u` holds, and with it the operand and the constant `*c`, and only then copies
from `*c`: it reads storage that has been freed.  The cases `Negate`, `Add` and `Multiply`
copy their result into a local (`negated`, `sum`, `product`) before they assign, so they
have no such read.  A call whose operand has undefined behaviour has undefined behaviour.

The visitor handed to `std::visit` has six overloads: `const Parentheses &`,
`const Negate &`, `const Add &`, `const Multiply &`, `const Bin &` and the generic
`const auto &`.  The first four are exact matches for their alternatives and are selected
for them.  `Dump` visits the same variant with separate overloads for `Add`, `Subtract`,
`Multiply`, `Divide` and `Power`, so these are pairwise distinct alternative types, each a
binary node over `Bin`, and an argument of type `Subtract`, `Divide` or `Power` reaches
`const Bin &` only through a derived-to-base conversion.  C++ overload resolution ranks
the generic overload (an exact match after deduction) above an overload that needs a
conversion, so for the alternatives `Subtract`, `Divide` and `Power`, as for `Constant`
and `Convert`, the selected overload is the empty catch-all, and the body written for
`const Bin &`, which folds both operands, is never run.  The last equation below is that
catch-all. -/
def Fold (loc : CharBlock) :
    IntegerExpr KIND C → Option Messages → Option (IntegerExpr KIND C × Option Messages)
  | Parentheses x, messages =>
    match Fold loc x messages with
    | none => none
    | some r =>
      match r.1 with
      | Constant _ => none
      | x1 => some (Parentheses x1, r.2)
  | Negate x, messages =>
    match Fold loc x messages with
    | none => none
    | some r =>
      match r.1 with
      | Constant c =>
        let negated := c.Negate
        some (Constant negated.value,
          sayIfOverflow negated.overflow r.2 loc "integer negation overflowed")
      | x1 => some (Negate x1, r.2)
  | Add x y, messages =>
    match Fold loc x messages with
    | none => none
    | some rx =>
      match Fold loc y rx.2 with
      | none => none
      | some ry =>
        match rx.1, ry.1 with
        | Constant xc, Constant yc =>
          let sum := xc.AddSigned yc
          some (Constant sum.value,
            sayIfOverflow sum.overflow ry.2 loc "integer addition overflowed")
        | x1, y1 => some (Add x1 y1, ry.2)
  | Multiply x y, messages =>
    match Fold loc x messages with
    | none => none
    | some rx =>
      match Fold loc y rx.2 with
      | none => none
      | some ry =>
        match rx.1, ry.1 with
        | Constant xc, Constant yc =>
          let product := xc.MultiplySigned yc
          some (Constant product.lower,
            sayIfOverflow product.SignedMultiplicationOverflowed ry.2 loc
              "integer multiplication overflowed")
        | x1, y1 => some (Multiply x1 y1, ry.2)
  | e, messages => some (e, messages)

/-- Every leaf of the tree is a `Constant`: no `Convert` occurs in it. -/
def AllLeavesConstant : IntegerExpr KIND C → Bool
  | Constant _ => true
  | Convert _ => false
  | Parentheses x => AllLeavesConstant x
  | Negate x => AllLeavesConstant x
  | Add x y => AllLeavesConstant x && AllLeavesConstant y
  | Subtract x y => AllLeavesConstant x && AllLeavesConstant y
  | Multiply x y => AllLeavesConstant x && AllLeavesConstant y
  | Divide x y => AllLeavesConstant x && AllLeavesConstant y
  | Power x y => AllLeavesConstant x && AllLeavesConstant y

/-- The root of the tree is an `Add`, `Multiply` or `Negate` node. -/
def RootIsAddMultiplyNegate : IntegerExpr KIND C → Bool
  | Add _ _ => true
  | Multiply _ _ => true
  | Negate _ => true
  | _ => false

/-- Every node of the tree is a `Constant`, `Parentheses`, `Negate`, `Add` or `Multiply`. -/
def OnlyFoldedOperators : IntegerExpr KIND C → Bool
  | Constant _ => true
  | Parentheses x => OnlyFoldedOperators x
  | Negate x => OnlyFoldedOperators x
  | Add x y => OnlyFoldedOperators x && OnlyFoldedOperators y
  | Multiply x y => OnlyFoldedOperators x && OnlyFoldedOperators y
  | _ => false

/-- Every node of the tree is a `Constant`, `Negate`, `Add` or `Multiply`. -/
def OnlyNegateAddMultiply : IntegerExpr KIND C → Bool
  | Constant _ => true
  | Negate x => OnlyNegateAddMultiply x
  | Add x y => OnlyNegateAddMultiply x && OnlyNegateAddMultiply y
  | Multiply x y => OnlyNegateAddMultiply x && OnlyNegateAddMultiply y
  | _ => false

/-- The exact value of a tree over the unbounded integers, for the operators whose
arithmetic the folding code defines (negation, sum, product, parentheses as identity);
`none` for a tree that contains any other node. -/
def exactValue : IntegerExpr KIND C → Option Int
  | Constant c => some c.ToInt
  | Parentheses x => exactValue x
  | Negate x => (exactValue x).map (fun v => -v)
  | Add x y =>
    match exactValue x, exactValue y with
    | some a, some b => some (a + b)
    | _, _ => none
  | Multiply x y =>
    match exactValue x, exactValue y with
    | some a, some b => some (a * b)
    | _, _ => none
  | _ => none

/-- The value of a tree under two's-complement wrapped evaluation at the width of the
tree: negation, sum and product are each reduced into the signed range, `Parentheses` is
the identity; `none` for a tree that contains any other operator. -/
def wrappedValue : IntegerExpr KIND C → Option Int
  | Constant c => some c.ToInt
  | Parentheses x => wrappedValue x
  | Negate x => (wrappedValue x).map (fun v => wrapSigned (8 * KIND) (-v))
  | Add x y =>
    match wrappedValue x, wrappedValue y with
    | some a, some b => some (wrapSigned (8 * KIND) (a + b))
    | _, _ => none
  | Multiply x y =>
    match wrappedValue x, wrappedValue y with
    | some a, some b => some (wrapSigned (8 * KIND) (a * b))
    | _, _ => none
  | _ => none

/-- The number of `Negate`, `Add` and `Multiply` nodes of a tree (nodes inside the operand
of a `Convert` are not part of the integer tree). -/
def countFoldingNodes : IntegerExpr KIND C → Nat
  | Constant _ => 0
  | Convert _ => 0
  | Parentheses x => countFoldingNodes x
  | Negate x => countFoldingNodes x + 1
  | Add x y => countFoldingNodes x + countFoldingNodes y + 1
  | Subtract x y => countFoldingNodes x + countFoldingNodes y
  | Multiply x y => countFoldingNodes x + countFoldingNodes y + 1
  | Divide x y => countFoldingNodes x + countFoldingNodes y
  | Power x y => countFoldingNodes x + countFoldingNodes y

end IntegerExpr

/-! ## Character expressions -/

/-- Modelled from the spec: the variant `CharacterExpr<KIND>::u` (declared in
`expression.h`, absent), with the two alternatives visited by `LEN` and `Dump`: a literal
(`std::string`, one `Char` standing for each element) or the concatenation of two character
expressions. -/
inductive CharacterExpr (KIND : Nat) where
  | Constant (s : String)
  | Concat (x y : CharacterExpr KIND)
deriving DecidableEq, Repr

namespace CharacterExpr

variable {KIND : Nat}

/-- The function `CharacterExpr<KIND>::LEN()`.  Its result type `LengthExpr` is an integer
expression whose kind is fixed in `expression.h` (not part of the sources at hand) and is
taken as the parameter `LK`; `LengthExpr{str.size()}` is the constant holding the size in
`8 * LK` bits. -/
def LEN (LK : Nat) (C : Type) : CharacterExpr KIND → IntegerExpr LK C
  | Constant str => IntegerExpr.Constant (Integer.ofNat (8 * LK) str.length)
  | Concat x y => IntegerExpr.Add (LEN LK C x) (LEN LK C y)

/-- The total number of elements of all literals of a character expression. -/
def totalLength : CharacterExpr KIND → Nat
  | Constant str => str.length
  | Concat x y => totalLength x + totalLength y

end CharacterExpr

/-! ## The dump engine

`std::ostream` is an append-only text sink: a stream is the text written to it so far, and
every `Dump` takes the stream and returns it with more text at its end. -/

/-- Modelled from the spec: `Integer::SignedDecimal()` of `integer.h` (absent): the signed
decimal text of the value. -/
def Integer.SignedDecimal {bits : Nat} (x : Integer bits) : String :=
  if x.ToInt < 0 then "-" ++ Nat.repr x.ToInt.natAbs else Nat.repr x.ToInt.natAbs

/-- An operand whose own `Dump` writes the text `text a` at the end of the stream. -/
def appendText {A : Type} (text : A → String) : A → String → String :=
  fun a o => o ++ text a

/-- A sample operand type with one value, whose `Dump` writes the text `(x)`. -/
def sampleOperand : Unit → String → String :=
  appendText (fun _ => "(x)")

/-- A sample type tag: the precision in decimal. -/
def sampleTypeDump : Category → Nat → String :=
  fun _ k => Nat.repr k

/-- The function `Unary<A>::Dump(o, opr)`: `x->Dump(o << opr) << ')'`; `x` is the `Dump` of
the operand. -/
def Unary.Dump (x : String → String) (o : String) (opr : String) : String :=
  x (o ++ opr) ++ ")"

/-- The function `Binary<A, B>::Dump(o, opr)`: `y->Dump(x->Dump(o << '(') << opr) << ')'`;
`x` and `y` are the `Dump`s of the operands. -/
def Binary.Dump (x y : String → String) (o : String) (opr : String) : String :=
  y (x (o ++ "(") ++ opr) ++ ")"

/-- The function `IntegerExpr<KIND>::Dump(o)`; `dumpC` is the `Dump` of the operand type of
`Convert`. -/
def IntegerExpr.Dump {KIND : Nat} {C : Type} (dumpC : C → String → String) :
    IntegerExpr KIND C → String → String
  | .Constant n, o => o ++ n.SignedDecimal
  | .Convert c, o => dumpC c o
  | .Parentheses x, o => Unary.Dump (Dump dumpC x) o "("
  | .Negate x, o => Unary.Dump (Dump dumpC x) o "(-"
  | .Add x y, o => Binary.Dump (Dump dumpC x) (Dump dumpC y) o "+"
  | .Subtract x y, o => Binary.Dump (Dump dumpC x) (Dump dumpC y) o "-"
  | .Multiply x y, o => Binary.Dump (Dump dumpC x) (Dump dumpC y) o "*"
  | .Divide x y, o => Binary.Dump (Dump dumpC x) (Dump dumpC y) o "/"
  | .Power x y, o => Binary.Dump (Dump dumpC x) (Dump dumpC y) o "**"

/-- The reference rendering of an integer expression, by recursion on the tree: a constant
is its signed decimal text, a unary node is its operator text, the rendering of the operand
and a closing parenthesis, a binary node is an opening parenthesis, the left rendering, the
operator text, the right rendering and a closing parenthesis.  No operator text is given for
`Convert`: there the rendering is the text `textC` of the operand itself. -/
def IntegerExpr.referenceRendering {KIND : Nat} {C : Type} (textC : C → String) :
    IntegerExpr KIND C → String
  | .Constant n => n.SignedDecimal
  | .Convert c => textC c
  | .Parentheses x => "(" ++ referenceRendering textC x ++ ")"
  | .Negate x => "(-" ++ referenceRendering textC x ++ ")"
  | .Add x y => "(" ++ referenceRendering textC x ++ "+" ++ referenceRendering textC y ++ ")"
  | .Subtract x y => "(" ++ referenceRendering textC x ++ "-" ++ referenceRendering textC y ++ ")"
  | .Multiply x y => "(" ++ referenceRendering textC x ++ "*" ++ referenceRendering textC y ++ ")"
  | .Divide x y => "(" ++ referenceRendering textC x ++ "/" ++ referenceRendering textC y ++ ")"
  | .Power x y => "(" ++ referenceRendering textC x ++ "**" ++ referenceRendering textC y ++ ")"

/-- Modelled from the spec: the categories of `Type<Category, KIND>` (`type.h`, absent). -/
inductive Category where
  | Integer
  | Real
  | Complex
  | Character
  | Logical
deriving DecidableEq, Repr

/-- The function `DumpExprWithType(o, x)`: `x.Dump(o << '(' << Ty::Dump() << ' ') << ')'`.
`tag` is the text of `Ty::Dump()` for the result type of `x` (`type.h`, absent) and `x` is
the `Dump` of the wrapped tree. -/
def DumpExprWithType (tag : String) (x : String → String) (o : String) : String :=
  x (o ++ "(" ++ tag ++ " ") ++ ")"

/-- Modelled from the spec: a variant with one alternative `F k` for each supported
precision `k` of the closed set `kinds` (the wrappers are declared in `expression.h`,
absent). -/
structure KindVariant (kinds : List Nat) (F : Nat → Type) where
  kind : Nat
  supported : kind ∈ kinds
  x : F kind

/-- Modelled from the spec: `AnyIntegerExpr`, the variant over the integer trees of the
instantiated precisions 1, 2, 4, 8 and 16. -/
abbrev AnyIntegerExpr (C : Type) : Type :=
  KindVariant [1, 2, 4, 8, 16] (fun k => IntegerExpr k C)

/-- The function `AnyIntegerExpr::Dump(o)`; `TypeDump` gives the text of `Ty::Dump()`. -/
def AnyIntegerExpr.Dump {C : Type} (TypeDump : Category → Nat → String)
    (dumpC : C → String → String) (u : AnyIntegerExpr C) (o : String) : String :=
  DumpExprWithType (TypeDump Category.Integer u.kind) (IntegerExpr.Dump dumpC u.x) o

/-- Modelled from the spec: the variant `RealExpr<KIND>::u` (declared in `expression.h`,
absent), with the twelve alternatives visited by `RealExpr<KIND>::Dump`.  `V` is the type of
the constants, `C` the operand type of `Convert`, `AI` the type of the integer exponent of
`IntPower` and `Z` the complex operand type of `RealPart` and `AIMAG`. -/
inductive RealExpr (KIND : Nat) (V C AI Z : Type) where
  | Constant (n : V)
  | Convert (x : C)
  | Parentheses (x : RealExpr KIND V C AI Z)
  | Negate (x : RealExpr KIND V C AI Z)
  | Add (x y : RealExpr KIND V C AI Z)
  | Subtract (x y : RealExpr KIND V C AI Z)
  | Multiply (x y : RealExpr KIND V C AI Z)
  | Divide (x y : RealExpr KIND V C AI Z)
  | Power (x y : RealExpr KIND V C AI Z)
  | IntPower (x : RealExpr KIND V C AI Z) (y : AI)
  | RealPart (x : Z)
  | AIMAG (x : Z)

/-- The function `RealExpr<KIND>::Dump(o)`; `DumpHexadecimal` is the text of a constant
(`real.h`, absent) and `dumpC`, `dumpAI`, `dumpZ` are the `Dump`s of the operand types. -/
def RealExpr.Dump {KIND : Nat} {V C AI Z : Type} (DumpHexadecimal : V → String)
    (dumpC : C → String → String) (dumpAI : AI → String → String)
    (dumpZ : Z → String → String) : RealExpr KIND V C AI Z → String → String
  | .Constant n, o => o ++ DumpHexadecimal n
  | .Convert c, o => dumpC c o
  | .Parentheses x, o => Unary.Dump (Dump DumpHexadecimal dumpC dumpAI dumpZ x) o "("
  | .Negate x, o => Unary.Dump (Dump DumpHexadecimal dumpC dumpAI dumpZ x) o "(-"
  | .Add x y, o =>
    Binary.Dump (Dump DumpHexadecimal dumpC dumpAI dumpZ x)
      (Dump DumpHexadecimal dumpC dumpAI dumpZ y) o "+"
  | .Subtract x y, o =>
    Binary.Dump (Dump DumpHexadecimal dumpC dumpAI dumpZ x)
      (Dump DumpHexadecimal dumpC dumpAI dumpZ y) o "-"
  | .Multiply x y, o =>
    Binary.Dump (Dump DumpHexadecimal dumpC dumpAI dumpZ x)
      (Dump DumpHexadecimal dumpC dumpAI dumpZ y) o "*"
  | .Divide x y, o =>
    Binary.Dump (Dump DumpHexadecimal dumpC dumpAI dumpZ x)
      (Dump DumpHexadecimal dumpC dumpAI dumpZ y) o "/"
  | .Power x y, o =>
    Binary.Dump (Dump DumpHexadecimal dumpC dumpAI dumpZ x)
      (Dump DumpHexadecimal dumpC dumpAI dumpZ y) o "**"
  | .IntPower x y, o =>
    Binary.Dump (Dump DumpHexadecimal dumpC dumpAI dumpZ x) (dumpAI y) o "**"
  | .RealPart z, o => Unary.Dump (dumpZ z) o "REAL("
  | .AIMAG z, o => Unary.Dump (dumpZ z) o "AIMAG("

/-- Modelled from the spec: the variant `ComplexExpr<KIND>::u` (declared in `expression.h`,
absent), with the ten alternatives visited by `ComplexExpr<KIND>::Dump`.  `V` is the type of
the constants, `AI` the type of the integer exponent of `IntPower` and `R` the real operand
type of `CMPLX`. -/
inductive ComplexExpr (KIND : Nat) (V AI R : Type) where
  | Constant (n : V)
  | Parentheses (x : ComplexExpr KIND V AI R)
  | Negate (x : ComplexExpr KIND V AI R)
  | Add (x y : ComplexExpr KIND V AI R)
  | Subtract (x y : ComplexExpr KIND V AI R)
  | Multiply (x y : ComplexExpr KIND V AI R)
  | Divide (x y : ComplexExpr KIND V AI R)
  | Power (x y : ComplexExpr KIND V AI R)
  | IntPower (x : ComplexExpr KIND V AI R) (y : AI)
  | CMPLX (x y : R)

/-- The function `ComplexExpr<KIND>::Dump(o)`. -/
def ComplexExpr.Dump {KIND : Nat} {V AI R : Type} (DumpHexadecimal : V → String)
    (dumpAI : AI → String → String) (dumpR : R → String → String) :
    ComplexExpr KIND V AI R → String → String
  | .Constant n, o => o ++ DumpHexadecimal n
  | .Parentheses x, o => Unary.Dump (Dump DumpHexadecimal dumpAI dumpR x) o "("
  | .Negate x, o => Unary.Dump (Dump DumpHexadecimal dumpAI dumpR x) o "(-"
  | .Add x y, o =>
    Binary.Dump (Dump DumpHexadecimal dumpAI dumpR x) (Dump DumpHexadecimal dumpAI dumpR y) o "+"
  | .Subtract x y, o =>
    Binary.Dump (Dump DumpHexadecimal dumpAI dumpR x) (Dump DumpHexadecimal dumpAI dumpR y) o "-"
  | .Multiply x y, o =>
    Binary.Dump (Dump DumpHexadecimal dumpAI dumpR x) (Dump DumpHexadecimal dumpAI dumpR y) o "*"
  | .Divide x y, o =>
    Binary.Dump (Dump DumpHexadecimal dumpAI dumpR x) (Dump DumpHexadecimal dumpAI dumpR y) o "/"
  | .Power x y, o =>
    Binary.Dump (Dump DumpHexadecimal dumpAI dumpR x) (Dump DumpHexadecimal dumpAI dumpR y) o "**"
  | .IntPower x y, o => Binary.Dump (Dump DumpHexadecimal dumpAI dumpR x) (dumpAI y) o "**"
  | .CMPLX x y, o => Binary.Dump (dumpR x) (dumpR y) o ","

/-- The double quote character written around a character literal. -/
def quote : String := String.singleton (Char.ofNat 34)

/-- The function `CharacterExpr<KIND>::Dump(o)`. -/
def CharacterExpr.Dump {KIND : Nat} : CharacterExpr KIND → String → String
  | .Constant s, o => o ++ quote ++ s ++ quote
  | .Concat x y, o => Dump y (Dump x o ++ "//")

/-- Modelled from the spec: `AnyRealExpr`, the variant over the real trees of the
instantiated precisions 2, 4, 8, 10 and 16. -/
abbrev AnyRealExpr (V C AI Z : Type) : Type :=
  KindVariant [2, 4, 8, 10, 16] (fun k => RealExpr k V C AI Z)

/-- The function `AnyRealExpr::Dump(o)`. -/
def AnyRealExpr.Dump {V C AI Z : Type} (TypeDump : Category → Nat → String)
    (DumpHexadecimal : V → String) (dumpC : C → String → String)
    (dumpAI : AI → String → String) (dumpZ : Z → String → String)
    (u : AnyRealExpr V C AI Z) (o : String) : String :=
  DumpExprWithType (TypeDump Category.Real u.kind)
    (RealExpr.Dump DumpHexadecimal dumpC dumpAI dumpZ u.x) o

/-- Modelled from the spec: `AnyCharacterExpr`, the variant over the character trees of the
one instantiated precision 1. -/
abbrev AnyCharacterExpr : Type :=
  KindVariant [1] (fun k => CharacterExpr k)

/-- The function `AnyCharacterExpr::Dump(o)`: the visitor calls `x.Dump(o)`. -/
def AnyCharacterExpr.Dump (u : AnyCharacterExpr) (o : String) : String :=
  CharacterExpr.Dump u.x o

/-- Modelled from the spec: `AnyIntegerOrRealExpr`, the variant that holds a
precision-erased integer wrapper `I` or a precision-erased real wrapper `R`. -/
inductive AnyIntegerOrRealExpr (I R : Type) where
  | integer (x : I)
  | real (x : R)

/-- The function `AnyIntegerOrRealExpr::Dump(o)`: the visitor calls `x.Dump(o)` of the
wrapper held. -/
def AnyIntegerOrRealExpr.Dump {I R : Type} (dumpI : I → String → String)
    (dumpR : R → String → String) : AnyIntegerOrRealExpr I R → String → String
  | .integer x, o => dumpI x o
  | .real x, o => dumpR x o

/-- Modelled from the spec: the variant `Comparison<T>::u` (declared in `expression.h`,
absent), with the six alternatives visited by `Comparison<T>::Dump`. -/
inductive Comparison (T : Type) where
  | LT (x y : T)
  | LE (x y : T)
  | EQ (x y : T)
  | NE (x y : T)
  | GE (x y : T)
  | GT (x y : T)

/-- The left operand `x` of a comparison. -/
def Comparison.x {T : Type} : Comparison T → T
  | .LT x _ => x
  | .LE x _ => x
  | .EQ x _ => x
  | .NE x _ => x
  | .GE x _ => x
  | .GT x _ => x

/-- The right operand `y` of a comparison. -/
def Comparison.y {T : Type} : Comparison T → T
  | .LT _ y => y
  | .LE _ y => y
  | .EQ _ y => y
  | .NE _ y => y
  | .GE _ y => y
  | .GT _ y => y

/-- The function `Comparison<T>::Dump(o)`. -/
def Comparison.Dump {T : Type} (dumpT : T → String → String) : Comparison T → String → String
  | .LT x y, o => Binary.Dump (dumpT x) (dumpT y) o ".LT."
  | .LE x y, o => Binary.Dump (dumpT x) (dumpT y) o ".LE."
  | .EQ x y, o => Binary.Dump (dumpT x) (dumpT y) o ".EQ."
  | .NE x y, o => Binary.Dump (dumpT x) (dumpT y) o ".NE."
  | .GE x y, o => Binary.Dump (dumpT x) (dumpT y) o ".GE."
  | .GT x y, o => Binary.Dump (dumpT x) (dumpT y) o ".GT."

/-- Modelled from the spec: the variant of the specialization
`Comparison<ComplexExpr<KIND>>` (declared in `expression.h`, absent), with the two
alternatives visited by its `Dump`. -/
inductive ComparisonOfComplex (T : Type) where
  | EQ (x y : T)
  | NE (x y : T)

/-- The function `Comparison<ComplexExpr<KIND>>::Dump(o)`. -/
def ComparisonOfComplex.Dump {T : Type} (dumpT : T → String → String) :
    ComparisonOfComplex T → String → String
  | .EQ x y, o => Binary.Dump (dumpT x) (dumpT y) o ".EQ."
  | .NE x y, o => Binary.Dump (dumpT x) (dumpT y) o ".NE."

/-- Modelled from the spec: `IntegerComparison`, the variant over the comparisons of
integer trees of each instantiated precision. -/
abbrev IntegerComparison (C : Type) : Type :=
  KindVariant [1, 2, 4, 8, 16] (fun k => Comparison (IntegerExpr k C))

/-- The function `IntegerComparison::Dump(o)`: the visitor calls `c.Dump(o)`. -/
def IntegerComparison.Dump {C : Type} (dumpC : C → String → String)
    (u : IntegerComparison C) (o : String) : String :=
  Comparison.Dump (IntegerExpr.Dump dumpC) u.x o

/-- Modelled from the spec: `RealComparison`, the variant over the comparisons of real
trees of each instantiated precision. -/
abbrev RealComparison (V C AI Z : Type) : Type :=
  KindVariant [2, 4, 8, 10, 16] (fun k => Comparison (RealExpr k V C AI Z))

/-- The function `RealComparison::Dump(o)`. -/
def RealComparison.Dump {V C AI Z : Type} (DumpHexadecimal : V → String)
    (dumpC : C → String → String) (dumpAI : AI → String → String)
    (dumpZ : Z → String → String) (u : RealComparison V C AI Z) (o : String) : String :=
  Comparison.Dump (RealExpr.Dump DumpHexadecimal dumpC dumpAI dumpZ) u.x o

/-- Modelled from the spec: `ComplexComparison`, the variant over the comparisons of
complex trees of each instantiated precision. -/
abbrev ComplexComparison (V AI R : Type) : Type :=
  KindVariant [2, 4, 8, 10, 16] (fun k => ComparisonOfComplex (ComplexExpr k V AI R))

/-- The function `ComplexComparison::Dump(o)`. -/
def ComplexComparison.Dump {V AI R : Type} (DumpHexadecimal : V → String)
    (dumpAI : AI → String → String) (dumpR : R → String → String)
    (u : ComplexComparison V AI R) (o : String) : String :=
  ComparisonOfComplex.Dump (ComplexExpr.Dump DumpHexadecimal dumpAI dumpR) u.x o

/-- Modelled from the spec: `CharacterComparison`, the variant over the comparisons of
character trees of the one instantiated precision. -/
abbrev CharacterComparison : Type :=
  KindVariant [1] (fun k => Comparison (CharacterExpr k))

/-- The function `CharacterComparison::Dump(o)`. -/
def CharacterComparison.Dump (u : CharacterComparison) (o : String) : String :=
  Comparison.Dump CharacterExpr.Dump u.x o

/-- Modelled from the spec: the variant `LogicalExpr::u` (declared in `expression.h`,
absent): the alternatives named by `LogicalExpr::Dump` and, for its generic overload, the
four comparison variants `IC`, `RC`, `ZC` and `CC`. -/
inductive LogicalExpr (IC RC ZC CC : Type) where
  | Constant (tf : Bool)
  | Not (x : LogicalExpr IC RC ZC CC)
  | And (x y : LogicalExpr IC RC ZC CC)
  | Or (x y : LogicalExpr IC RC ZC CC)
  | Eqv (x y : LogicalExpr IC RC ZC CC)
  | Neqv (x y : LogicalExpr IC RC ZC CC)
  | IntegerComparison (c : IC)
  | RealComparison (c : RC)
  | ComplexComparison (c : ZC)
  | CharacterComparison (c : CC)

/-- The function `LogicalExpr::Dump(o)`; the last four equations are the generic overload
`comparison.Dump(o)`. -/
def LogicalExpr.Dump {IC RC ZC CC : Type} (dumpIC : IC → String → String)
    (dumpRC : RC → String → String) (dumpZC : ZC → String → String)
    (dumpCC : CC → String → String) : LogicalExpr IC RC ZC CC → String → String
  | .Constant tf, o => o ++ (if tf then ".T." else ".F.")
  | .Not x, o => Unary.Dump (Dump dumpIC dumpRC dumpZC dumpCC x) o "(.NOT."
  | .And x y, o =>
    Binary.Dump (Dump dumpIC dumpRC dumpZC dumpCC x) (Dump dumpIC dumpRC dumpZC dumpCC y) o ".AND."
  | .Or x y, o =>
    Binary.Dump (Dump dumpIC dumpRC dumpZC dumpCC x) (Dump dumpIC dumpRC dumpZC dumpCC y) o ".OR."
  | .Eqv x y, o =>
    Binary.Dump (Dump dumpIC dumpRC dumpZC dumpCC x) (Dump dumpIC dumpRC dumpZC dumpCC y) o ".EQV."
  | .Neqv x y, o =>
    Binary.Dump (Dump dumpIC dumpRC dumpZC dumpCC x) (Dump dumpIC dumpRC dumpZC dumpCC y) o ".NEQV."
  | .IntegerComparison c, o => dumpIC c o
  | .RealComparison c, o => dumpRC c o
  | .ComplexComparison c, o => dumpZC c o
  | .CharacterComparison c, o => dumpCC c o

/-- A text is balanced: it has exactly as many opening as closing parentheses, and no
prefix of it has more closing than opening parentheses. -/
def Balanced (text : List Char) : Prop :=
  text.count '(' = text.count ')' ∧
    ∀ n ∈ List.range (text.length + 1), (text.take n).count ')' ≤ (text.take n).count '('

instance Balanced.decidable (text : List Char) : Decidable (Balanced text) := by
  unfold Balanced
  exact inferInstance

/-- An opening text, such as the operator text of a unary node: it has exactly one more
opening than closing parenthesis, and no prefix of it has more closing than opening
parentheses. -/
def Opening (text : List Char) : Prop :=
  text.count '(' = text.count ')' + 1 ∧
    ∀ n ∈ List.range (text.length + 1), (text.take n).count ')' ≤ (text.take n).count '('

instance Opening.decidable (text : List Char) : Decidable (Opening text) := by
  unfold Opening
  exact inferInstance

/-- A `Dump` writes a balanced text: it leaves the stream it is given as it is and puts
at its end one text, the same for every stream, and that text is balanced. -/
def WritesBalanced (dump : String → String) : Prop :=
  (∀ o : String, dump o = o ++ dump "") ∧ Balanced (dump "").data

/-- Every literal of a character expression is a balanced text. -/
def CharacterExpr.LiteralsBalanced {KIND : Nat} : CharacterExpr KIND → Bool
  | .Constant s => decide (Balanced s.data)
  | .Concat x y => LiteralsBalanced x && LiteralsBalanced y

end evaluate

/-! ## The character buffer (`lib/parser/char-buffer.cc`) -/

namespace parser

/-- Modelled from the spec: the data members of `CharBuffer` (the class is declared in
`char-buffer.h`, which is not part of the sources at hand), as the functions of
`char-buffer.cc` use them.  `blocks_` is the list of blocks, each an array of
`Block::capacity` bytes; `last_` is the position in that list of the block the iterator
`last_` designates; `bytes_` counts the claimed bytes. -/
structure CharBuffer where
  blocks_ : List (List Char)
  last_ : Nat
  bytes_ : Nat
  lastBlockEmpty_ : Bool
deriving DecidableEq, Repr

namespace CharBuffer

/-- The buffer as constructed: no block, no byte. -/
def empty : CharBuffer :=
  CharBuffer.mk [] 0 0 false

/-- A fresh block (`Block` of `char-buffer.h`, absent): `capacity` bytes, here zero. -/
def newBlock (capacity : Nat) : List Char :=
  List.replicate capacity (Char.ofNat 0)

/-- Modelled from the spec: `CharBuffer::LastBlockOffset()` of `char-buffer.h` (absent):
the number of claimed bytes modulo the capacity of a block. -/
def LastBlockOffset (capacity : Nat) (b : CharBuffer) : Nat :=
  b.bytes_ % capacity

/-- What `FreeSpace` hands back: the buffer after the call, the returned pointer
`last_->data + offset` as the position of the block and the offset in it, and the size
written to `*n`. -/
structure FreeSpaceResult where
  buffer : CharBuffer
  block : Nat
  offset : Nat
  n : Nat
deriving DecidableEq, Repr

/-- The function `CharBuffer::FreeSpace(n)`; `capacity` is `Block::capacity`. -/
def FreeSpace (capacity : Nat) (b : CharBuffer) : FreeSpaceResult :=
  let offset := b.LastBlockOffset capacity
  let b1 : CharBuffer :=
    if b.blocks_.isEmpty then
      CharBuffer.mk [newBlock capacity] 0 b.bytes_ true
    else if offset == 0 && !b.lastBlockEmpty_ then
      CharBuffer.mk
        (b.blocks_.take (b.last_ + 1) ++ newBlock capacity :: b.blocks_.drop (b.last_ + 1))
        (b.last_ + 1) b.bytes_ true
    else b
  FreeSpaceResult.mk b1 b1.last_ offset (capacity - offset)

/-- The function `CharBuffer::Claim(n)`. -/
def Claim (b : CharBuffer) (n : Nat) : CharBuffer :=
  if n > 0 then CharBuffer.mk b.blocks_ b.last_ (b.bytes_ + n) false else b

/-- The bytes of a block after `src` is copied to its offset `offset`; nothing is written
past the end of the block. -/
def writeBlock (blk : List Char) (offset : Nat) (src : List Char) : List Char :=
  (blk.take offset ++ src ++ blk.drop (offset + src.length)).take blk.length

/-- The call `std::memcpy(to, src, src.length)` for a pointer `to` into the blocks of the
buffer, given as the position of the block and the offset in it. -/
def memcpy (b : CharBuffer) (block offset : Nat) (src : List Char) : CharBuffer :=
  CharBuffer.mk (b.blocks_.set block (writeBlock (b.blocks_.getD block []) offset src))
    b.last_ b.bytes_ b.lastBlockEmpty_

/-- The loop of `CharBuffer::Put(data, n)`, started at `at`; `fuel` bounds the number of
iterations, and `none` means that the bound was reached before the loop ended. -/
def PutLoop (capacity : Nat) (data : List Char) (n : Nat) : Nat → Nat → CharBuffer →
    Option CharBuffer
  | 0, pos, b => if pos < n then none else some b
  | fuel + 1, pos, b =>
    if pos < n then
      let r := FreeSpace capacity b
      let chunk := min (n - pos) r.n
      let b2 := Claim r.buffer chunk
      let b3 := memcpy b2 r.block r.offset ((data.drop pos).take chunk)
      PutLoop capacity data n fuel (pos + chunk) b3
    else some b

/-- The function `CharBuffer::Put(data, n)`, with `n` iterations allowed. -/
def Put (capacity : Nat) (b : CharBuffer) (data : List Char) (n : Nat) : Option CharBuffer :=
  PutLoop capacity data n n 0 b

/-- The contents of the buffer: the first `bytes_` bytes of its blocks, read in list
order. -/
def contents (b : CharBuffer) : List Char :=
  b.blocks_.flatten.take b.bytes_

/-- The states reachable from the empty buffer by calls of `FreeSpace`, by calls of
`Claim(k)` that follow a `FreeSpace` which reported at least `k` free bytes, by calls of
`Put`, and by the caller writing into the free space that `FreeSpace` returned. -/
inductive Reachable (capacity : Nat) : CharBuffer → Prop
  | empty : Reachable capacity CharBuffer.empty
  | freeSpace {b : CharBuffer} :
    Reachable capacity b → Reachable capacity (FreeSpace capacity b).buffer
  | claim {b : CharBuffer} (k : Nat) :
    Reachable capacity b → k ≤ (FreeSpace capacity b).n →
      Reachable capacity (Claim (FreeSpace capacity b).buffer k)
  | write {b : CharBuffer} (src : List Char) :
    Reachable capacity b → src.length ≤ (FreeSpace capacity b).n →
      Reachable capacity (memcpy (FreeSpace capacity b).buffer (FreeSpace capacity b).block
        (FreeSpace capacity b).offset src)
  | put {b b1 : CharBuffer} (data : List Char) :
    Reachable capacity b → Put capacity b data data.length = some b1 → Reachable capacity b1

/-- A sample state with blocks of four bytes: the buffer after `Put` of the four bytes
`hell` into the empty buffer; its one block is full. -/
def sampleFull : CharBuffer :=
  CharBuffer.mk [['h', 'e', 'l', 'l']] 0 4 false

/-- The invariant of the reachable states: every block has `capacity` bytes; without a
block no byte is claimed; otherwise `last_` designates the last block, and the claimed
bytes fill the blocks before it and, unless the last block is empty, a part of it that is
not empty. -/
def Inv (capacity : Nat) (b : CharBuffer) : Prop :=
  (∀ blk ∈ b.blocks_, blk.length = capacity) ∧
  (b.blocks_ = [] → b.bytes_ = 0) ∧
  (b.blocks_ ≠ [] → b.last_ + 1 = b.blocks_.length ∧
    (b.lastBlockEmpty_ = true → b.bytes_ = b.last_ * capacity) ∧
    (b.lastBlockEmpty_ = false →
      b.last_ * capacity < b.bytes_ ∧ b.bytes_ ≤ b.last_ * capacity + capacity))

end CharBuffer

end parser

end Fortran


namespace Fortran.evaluate

open parser

namespace Integer

variable {bits : Nat}

theorem two_pow_split (h : 0 < bits) : 2 ^ bits = 2 * 2 ^ (bits - 1) := by
  obtain ⟨k, rfl⟩ : ∃ k, bits = k + 1 := ⟨bits - 1, by omega⟩
  simp [pow_succ, Nat.mul_comm]

theorem two_pow_split_int (h : 0 < bits) :
    ((2 ^ bits : Nat) : Int) = 2 * ((2 ^ (bits - 1) : Nat) : Int) := by
  exact_mod_cast two_pow_split h

theorem ToInt_cases (x : Integer bits) :
    (2 ^ (bits - 1) ≤ x.raw ∧ x.ToInt = (x.raw : Int) - ((2 ^ bits : Nat) : Int)) ∨
    (x.raw < 2 ^ (bits - 1) ∧ x.ToInt = (x.raw : Int)) := by
  unfold ToInt IsNegative
  by_cases hc : 2 ^ (bits - 1) ≤ x.raw
  · left; exact ⟨hc, by simp [hc]⟩
  · right; exact ⟨by omega, by simp [hc]⟩

theorem ToInt_lower (h : 0 < bits) (x : Integer bits) :
    -((2 ^ (bits - 1) : Nat) : Int) ≤ x.ToInt := by
  have hx := x.inRange
  have hP := two_pow_split h
  have hPi := @two_pow_split_int bits h
  rcases ToInt_cases x with ⟨h1, h2⟩ | ⟨h1, h2⟩ <;> omega

theorem ToInt_upper (h : 0 < bits) (x : Integer bits) :
    x.ToInt < ((2 ^ (bits - 1) : Nat) : Int) := by
  have hx := x.inRange
  have hP := two_pow_split h
  have hPi := @two_pow_split_int bits h
  rcases ToInt_cases x with ⟨h1, h2⟩ | ⟨h1, h2⟩ <;> omega

theorem ToInt_emod (x : Integer bits) :
    x.ToInt % ((2 ^ bits : Nat) : Int) = (x.raw : Int) := by
  have hx := x.inRange
  rcases ToInt_cases x with ⟨_, h2⟩ | ⟨_, h2⟩ <;> rw [h2]
  · rw [Int.sub_emod, Int.emod_self, sub_zero, Int.emod_emod_of_dvd _ (dvd_refl _)]
    exact Int.emod_eq_of_lt (by omega) (by omega)
  · exact Int.emod_eq_of_lt (by omega) (by omega)

theorem ofInt_raw (i : Int) :
    ((ofInt bits i).raw : Int) = i % ((2 ^ bits : Nat) : Int) := by
  have hpos : (0 : Int) < ((2 ^ bits : Nat) : Int) := by exact_mod_cast Nat.two_pow_pos bits
  have h0 := Int.emod_nonneg i hpos.ne'
  have h1 := Int.emod_lt_of_pos i hpos
  unfold ofInt ofNat
  simp only
  have : (i % ((2 ^ bits : Nat) : Int)).toNat < 2 ^ bits := by omega
  rw [Nat.mod_eq_of_lt this]
  omega

theorem ext_raw {x y : Integer bits} (h : x.raw = y.raw) : x = y := by
  cases x; cases y; simp_all

theorem ofInt_congr {i j : Int}
    (h : i % ((2 ^ bits : Nat) : Int) = j % ((2 ^ bits : Nat) : Int)) :
    ofInt bits i = ofInt bits j := by
  apply ext_raw
  have hi := @ofInt_raw bits i
  have hj := @ofInt_raw bits j
  omega

theorem ofInt_ToInt (x : Integer bits) : ofInt bits x.ToInt = x := by
  apply ext_raw
  have := @ofInt_raw bits x.ToInt
  rw [ToInt_emod] at this
  exact_mod_cast this

/-- Two integers of the signed range that are congruent modulo `2 ^ bits` are equal. -/
theorem eq_of_emod_eq (h : 0 < bits) {v w : Int}
    (hv1 : -((2 ^ (bits - 1) : Nat) : Int) ≤ v) (hv2 : v < ((2 ^ (bits - 1) : Nat) : Int))
    (hw1 : -((2 ^ (bits - 1) : Nat) : Int) ≤ w) (hw2 : w < ((2 ^ (bits - 1) : Nat) : Int))
    (hc : v % ((2 ^ bits : Nat) : Int) = w % ((2 ^ bits : Nat) : Int)) : v = w := by
  have hPi := @two_pow_split_int bits h
  have hd : (((2 ^ bits : Nat) : Int)) ∣ v - w :=
    Int.dvd_of_emod_eq_zero (Int.emod_eq_emod_iff_emod_sub_eq_zero.mp hc)
  obtain ⟨k, hk⟩ := hd
  have hk0 : k = 0 := by
    by_contra hne
    rcases lt_or_gt_of_ne hne with hlt | hgt
    · have : ((2 ^ bits : Nat) : Int) * k ≤ -((2 ^ bits : Nat) : Int) := by nlinarith
      omega
    · have : ((2 ^ bits : Nat) : Int) ≤ ((2 ^ bits : Nat) : Int) * k := by nlinarith
      omega
  rw [hk0, mul_zero] at hk
  omega

end Integer

theorem wrapSigned_lower (bits : Nat) (i : Int) :
    -((2 ^ (bits - 1) : Nat) : Int) ≤ wrapSigned bits i := by
  have hpos : (0 : Int) < ((2 ^ bits : Nat) : Int) := by exact_mod_cast Nat.two_pow_pos bits
  have := Int.emod_nonneg (i + ((2 ^ (bits - 1) : Nat) : Int)) hpos.ne'
  unfold wrapSigned
  omega

theorem wrapSigned_upper {bits : Nat} (h : 0 < bits) (i : Int) :
    wrapSigned bits i < ((2 ^ (bits - 1) : Nat) : Int) := by
  have hpos : (0 : Int) < ((2 ^ bits : Nat) : Int) := by exact_mod_cast Nat.two_pow_pos bits
  have hPi := @Integer.two_pow_split_int bits h
  have := Int.emod_lt_of_pos (i + ((2 ^ (bits - 1) : Nat) : Int)) hpos
  unfold wrapSigned
  omega

theorem wrapSigned_emod (bits : Nat) (i : Int) :
    wrapSigned bits i % ((2 ^ bits : Nat) : Int) = i % ((2 ^ bits : Nat) : Int) := by
  unfold wrapSigned
  rw [Int.emod_def (i + ((2 ^ (bits - 1) : Nat) : Int))]
  have : i + ((2 ^ (bits - 1) : Nat) : Int)
      - ((2 ^ bits : Nat) : Int) * ((i + ((2 ^ (bits - 1) : Nat) : Int)) / ((2 ^ bits : Nat) : Int))
      - ((2 ^ (bits - 1) : Nat) : Int)
      = i + ((2 ^ bits : Nat) : Int) * (-((i + ((2 ^ (bits - 1) : Nat) : Int)) / ((2 ^ bits : Nat) : Int))) := by
    ring
  rw [this, Int.add_mul_emod_self_left]

/-- Inside the signed range, wrapping changes nothing. -/
theorem wrapSigned_of_representable {bits : Nat} (h : 0 < bits) {i : Int}
    (hi : Integer.Representable bits i = true) : wrapSigned bits i = i := by
  unfold Integer.Representable at hi
  simp only [decide_eq_true_eq] at hi
  exact Integer.eq_of_emod_eq h (wrapSigned_lower bits i) (wrapSigned_upper h i) hi.1
    (by omega) (wrapSigned_emod bits i)

/-- Outside the signed range, wrapping changes the value. -/
theorem wrapSigned_ne_of_not_representable {bits : Nat} (h : 0 < bits) {i : Int}
    (hi : Integer.Representable bits i = false) : wrapSigned bits i ≠ i := by
  unfold Integer.Representable at hi
  simp only [decide_eq_false_iff_not] at hi
  intro heq
  have h1 := wrapSigned_lower bits i
  have h2 := wrapSigned_upper h i
  rw [heq] at h1 h2
  exact hi ⟨h1, by omega⟩

namespace Integer

variable {bits : Nat}

/-- The signed value of a truncated integer is the wrapped integer. -/
theorem ToInt_ofInt (h : 0 < bits) (i : Int) : (ofInt bits i).ToInt = wrapSigned bits i := by
  apply eq_of_emod_eq h (ToInt_lower h _) (ToInt_upper h _) (wrapSigned_lower bits i)
    (wrapSigned_upper h i)
  rw [ToInt_emod, ofInt_raw, wrapSigned_emod]

theorem ToInt_injective {x y : Integer bits} (hxy : x.ToInt = y.ToInt) :
    x = y := by
  rw [← ofInt_ToInt x, ← ofInt_ToInt y, hxy]

theorem Representable_ToInt (h : 0 < bits) (x : Integer bits) :
    Representable bits x.ToInt = true := by
  have h1 := ToInt_lower h x
  have h2 := ToInt_upper h x
  unfold Representable
  simp only [decide_eq_true_eq]
  omega

end Integer

namespace Integer

variable {bits : Nat}

theorem Representable_iff (bits : Nat) (i : Int) :
    Representable bits i = true ↔
      (-(2 : Int) ^ (bits - 1) ≤ i ∧ i ≤ (2 : Int) ^ (bits - 1) - 1) := by
  unfold Representable
  simp only [decide_eq_true_eq]
  push_cast
  exact Iff.rfl

theorem two_pow_double (h : 0 < bits) :
    2 ^ (2 * bits - 1) = 2 * (2 ^ (bits - 1) * 2 ^ (bits - 1)) := by
  obtain ⟨k, rfl⟩ : ∃ k, bits = k + 1 := ⟨bits - 1, by omega⟩
  have : 2 * (k + 1) - 1 = k + k + 1 := by omega
  rw [this]
  simp only [Nat.add_sub_cancel]
  ring

/-- The full-width product of two signed values is representable in `2 * bits` bits. -/
theorem Representable_mul (h : 0 < bits) (x y : Integer bits) :
    Representable (2 * bits) (x.ToInt * y.ToInt) = true := by
  have hx1 := ToInt_lower h x
  have hx2 := ToInt_upper h x
  have hy1 := ToInt_lower h y
  have hy2 := ToInt_upper h y
  have hd : ((2 ^ (2 * bits - 1) : Nat) : Int)
      = 2 * (((2 ^ (bits - 1) : Nat) : Int) * ((2 ^ (bits - 1) : Nat) : Int)) := by
    exact_mod_cast two_pow_double h
  have hH : (0 : Int) < ((2 ^ (bits - 1) : Nat) : Int) := by
    exact_mod_cast Nat.two_pow_pos (bits - 1)
  unfold Representable
  simp only [decide_eq_true_eq]
  rw [hd]
  constructor <;> nlinarith

theorem MultiplySigned_lower (x y : Integer bits) :
    (x.MultiplySigned y).lower = ofInt bits (x.ToInt * y.ToInt) := by
  apply ext_raw
  have h1 := @ofInt_raw (2 * bits) (x.ToInt * y.ToInt)
  have h2 := @ofInt_raw bits (x.ToInt * y.ToInt)
  have hd : ((2 ^ bits : Nat) : Int) ∣ ((2 ^ (2 * bits) : Nat) : Int) := by
    refine ⟨((2 ^ bits : Nat) : Int), ?_⟩
    have : 2 ^ (2 * bits) = 2 ^ bits * 2 ^ bits := by rw [two_mul, pow_add]
    exact_mod_cast this
  have h3 := Int.emod_emod_of_dvd (x.ToInt * y.ToInt) hd
  rw [← h1, ← h2] at h3
  have h4 : (((ofInt (2 * bits) (x.ToInt * y.ToInt)).raw % 2 ^ bits : Nat) : Int)
      = ((ofInt bits (x.ToInt * y.ToInt)).raw : Int) := by
    rw [← h3]; push_cast; rfl
  show (ofInt (2 * bits) (x.ToInt * y.ToInt)).raw % 2 ^ bits = _
  exact_mod_cast h4

theorem MultiplySigned_ToInt (h : 0 < bits) (x y : Integer bits) :
    (x.MultiplySigned y).ToInt = x.ToInt * y.ToInt := by
  have hlt := (ofInt (2 * bits) (x.ToInt * y.ToInt)).inRange
  have hsq : 2 ^ (2 * bits) = 2 ^ bits * 2 ^ bits := by rw [two_mul, pow_add]
  have hdiv : (ofInt (2 * bits) (x.ToInt * y.ToInt)).raw / 2 ^ bits < 2 ^ bits := by
    apply Nat.div_lt_of_lt_mul
    rw [← hsq]; exact hlt
  have hfull : (x.MultiplySigned y).full = (ofInt (2 * bits) (x.ToInt * y.ToInt)).raw := by
    show (ofInt (2 * bits) (x.ToInt * y.ToInt)).raw / 2 ^ bits % 2 ^ bits * 2 ^ bits
      + (ofInt (2 * bits) (x.ToInt * y.ToInt)).raw % 2 ^ bits = _
    rw [Nat.mod_eq_of_lt hdiv]
    exact Nat.div_add_mod' _ _
  have hof : ofNat (2 * bits) (x.MultiplySigned y).full = ofInt (2 * bits) (x.ToInt * y.ToInt) := by
    apply ext_raw
    show (x.MultiplySigned y).full % 2 ^ (2 * bits) = _
    rw [hfull, Nat.mod_eq_of_lt hlt]
  unfold Product.ToInt
  rw [hof, ToInt_ofInt (by omega)]
  exact wrapSigned_of_representable (by omega) (Representable_mul h x y)

theorem ofNat_raw_of_lt {n : Nat} (h : n < 2 ^ bits) : (ofNat bits n).raw = n :=
  Nat.mod_eq_of_lt h

theorem ToInt_ofNat_of_lt {n : Nat} (h : n < 2 ^ (bits - 1)) (hb : 0 < bits) :
    (ofNat bits n).ToInt = (n : Int) := by
  have hP := two_pow_split hb
  have hr : (ofNat bits n).raw = n := ofNat_raw_of_lt (by omega)
  rcases ToInt_cases (ofNat bits n) with ⟨h1, _⟩ | ⟨_, h2⟩
  · omega
  · rw [h2, hr]

end Integer

namespace IntegerExpr

variable {KIND : Nat} {C : Type}

theorem sayIfOverflow_some (overflow : Bool) (ms : Messages) (loc : CharBlock) (text : String) :
    sayIfOverflow overflow (some ms) loc text =
      some (if overflow = true then ms ++ [Message.mk loc text] else ms) := by
  cases overflow <;> simp [sayIfOverflow, Messages.Say]

theorem sayIfOverflow_none (overflow : Bool) (loc : CharBlock) (text : String) :
    sayIfOverflow overflow none loc text = none := by
  cases overflow <;> simp [sayIfOverflow]

theorem Fold_Add_Constant_eq (loc : CharBlock) (x y : Integer (8 * KIND))
    (messages : Option Messages) :
    Fold loc (Add (Constant x) (Constant y) : IntegerExpr KIND C) messages =
      some (Constant (x.AddSigned y).value,
        sayIfOverflow (x.AddSigned y).overflow messages loc "integer addition overflowed") := by
  simp [Fold]

theorem Fold_Multiply_Constant_eq (loc : CharBlock) (x y : Integer (8 * KIND))
    (messages : Option Messages) :
    Fold loc (Multiply (Constant x) (Constant y) : IntegerExpr KIND C) messages =
      some (Constant (x.MultiplySigned y).lower,
        sayIfOverflow (x.MultiplySigned y).SignedMultiplicationOverflowed messages loc
          "integer multiplication overflowed") := by
  simp [Fold]

theorem Fold_Negate_Constant_eq (loc : CharBlock) (x : Integer (8 * KIND))
    (messages : Option Messages) :
    Fold loc (Negate (Constant x) : IntegerExpr KIND C) messages =
      some (Constant x.Negate.value,
        sayIfOverflow x.Negate.overflow messages loc "integer negation overflowed") := by
  simp [Fold]

end IntegerExpr

/-! ## Folding of operators applied to constants -/

open IntegerExpr in
/-- C1: at every width `8 * KIND` with `KIND > 0` (so at 8, 16, 32, 64 and 128 bits), folding
`Add(Constant x, Constant y)` with a diagnostic sink rewrites the node to the constant whose
signed value is `x + y` wrapped into the two's-complement range (and is `x + y` itself when
that lies in the range), appends exactly the one diagnostic "integer addition overflowed" at
the given location when the true sum lies outside `[-2^(w-1), 2^(w-1)-1]` and leaves the sink
as it was when it lies inside; `Add(Constant 5, Constant 3)` becomes `Constant 8` with no
diagnostic. -/
theorem Fold_Add_constants (KIND : Nat) (C : Type) (h : 0 < KIND) (loc : CharBlock)
    (ms : Messages) (x y : Integer (8 * KIND)) :
    (∃ c : Integer (8 * KIND),
      c.ToInt = wrapSigned (8 * KIND) (x.ToInt + y.ToInt) ∧
      Fold loc (Add (Constant x) (Constant y) : IntegerExpr KIND C) (some ms) =
        some (Constant c,
          some (if -(2 : Int) ^ (8 * KIND - 1) ≤ x.ToInt + y.ToInt ∧
                  x.ToInt + y.ToInt ≤ (2 : Int) ^ (8 * KIND - 1) - 1
                then ms else ms ++ [Message.mk loc "integer addition overflowed"])) ∧
      ((-(2 : Int) ^ (8 * KIND - 1) ≤ x.ToInt + y.ToInt ∧
          x.ToInt + y.ToInt ≤ (2 : Int) ^ (8 * KIND - 1) - 1) → c.ToInt = x.ToInt + y.ToInt)) ∧
    Fold loc (Add (Constant (Integer.ofNat (8 * KIND) 5)) (Constant (Integer.ofNat (8 * KIND) 3))
        : IntegerExpr KIND C) (some ms) = some (Constant (Integer.ofNat (8 * KIND) 8), some ms) := by
  have hb : 0 < 8 * KIND := by omega
  have key : ∀ a b : Integer (8 * KIND),
      Fold loc (Add (Constant a) (Constant b) : IntegerExpr KIND C) (some ms) =
        some (Constant (Integer.ofInt (8 * KIND) (a.ToInt + b.ToInt)),
          some (if -(2 : Int) ^ (8 * KIND - 1) ≤ a.ToInt + b.ToInt ∧
                  a.ToInt + b.ToInt ≤ (2 : Int) ^ (8 * KIND - 1) - 1
                then ms else ms ++ [Message.mk loc "integer addition overflowed"])) := by
    intro a b
    rw [Fold_Add_Constant_eq, sayIfOverflow_some]
    simp only [Integer.AddSigned, Bool.not_eq_true', ← Integer.Representable_iff]
    cases Integer.Representable (8 * KIND) (a.ToInt + b.ToInt) <;> simp
  refine ⟨⟨Integer.ofInt (8 * KIND) (x.ToInt + y.ToInt), Integer.ToInt_ofInt hb _, key x y, ?_⟩, ?_⟩
  · intro hr
    rw [Integer.ToInt_ofInt hb]
    exact wrapSigned_of_representable hb ((Integer.Representable_iff _ _).mpr hr)
  · have h128 : 2 ^ 7 ≤ 2 ^ (8 * KIND - 1) := Nat.pow_le_pow_right (by decide) (by omega)
    have h5 : (Integer.ofNat (8 * KIND) 5).ToInt = 5 := by
      have := @Integer.ToInt_ofNat_of_lt (8 * KIND) 5 (by omega) hb
      simpa using this
    have h3 : (Integer.ofNat (8 * KIND) 3).ToInt = 3 := by
      have := @Integer.ToInt_ofNat_of_lt (8 * KIND) 3 (by omega) hb
      simpa using this
    have h8 : (Integer.ofNat (8 * KIND) 8).ToInt = 8 := by
      have := @Integer.ToInt_ofNat_of_lt (8 * KIND) 8 (by omega) hb
      simpa using this
    have hrep : Integer.Representable (8 * KIND) (5 + 3) = true := by
      have := Integer.Representable_ToInt hb (Integer.ofNat (8 * KIND) 8)
      rw [h8] at this
      exact this
    rw [key, h5, h3, if_pos ((Integer.Representable_iff _ _).mp hrep)]
    congr 3
    apply Integer.ToInt_injective
    rw [Integer.ToInt_ofInt hb, wrapSigned_of_representable hb hrep, h8]
    rfl

open IntegerExpr in
/-- Instance of C1 at one byte: `100 + 100` overflows the 8-bit signed range. -/
theorem Fold_Add_constants_witness :
    0 < 1 ∧
    ((∃ c : Integer (8 * 1),
      c.ToInt = wrapSigned (8 * 1) ((Integer.ofNat (8 * 1) 100).ToInt + (Integer.ofNat (8 * 1) 100).ToInt) ∧
      Fold (CharBlock.mk 0 1) (Add (Constant (Integer.ofNat (8 * 1) 100))
          (Constant (Integer.ofNat (8 * 1) 100)) : IntegerExpr 1 Unit) (some []) =
        some (Constant c,
          some (if -(2 : Int) ^ (8 * 1 - 1) ≤
                    (Integer.ofNat (8 * 1) 100).ToInt + (Integer.ofNat (8 * 1) 100).ToInt ∧
                  (Integer.ofNat (8 * 1) 100).ToInt + (Integer.ofNat (8 * 1) 100).ToInt
                    ≤ (2 : Int) ^ (8 * 1 - 1) - 1
                then [] else [] ++ [Message.mk (CharBlock.mk 0 1) "integer addition overflowed"])) ∧
      ((-(2 : Int) ^ (8 * 1 - 1) ≤
            (Integer.ofNat (8 * 1) 100).ToInt + (Integer.ofNat (8 * 1) 100).ToInt ∧
          (Integer.ofNat (8 * 1) 100).ToInt + (Integer.ofNat (8 * 1) 100).ToInt
            ≤ (2 : Int) ^ (8 * 1 - 1) - 1) →
        c.ToInt = (Integer.ofNat (8 * 1) 100).ToInt + (Integer.ofNat (8 * 1) 100).ToInt)) ∧
    Fold (CharBlock.mk 0 1) (Add (Constant (Integer.ofNat (8 * 1) 5))
        (Constant (Integer.ofNat (8 * 1) 3)) : IntegerExpr 1 Unit) (some []) =
      some (Constant (Integer.ofNat (8 * 1) 8), some [])) :=
  ⟨by decide, Fold_Add_constants 1 Unit (by decide) (CharBlock.mk 0 1) []
    (Integer.ofNat (8 * 1) 100) (Integer.ofNat (8 * 1) 100)⟩

open IntegerExpr in
/-- C2: at every width `8 * KIND` with `KIND > 0`, folding `Multiply(Constant x, Constant y)`
with a diagnostic sink rewrites the node to the constant holding the low `8 * KIND` bits of
the full-width signed product (its signed value is the wrapped product), whether or not the
product overflows, appends exactly the one diagnostic "integer multiplication overflowed"
when the true product lies outside `[-2^(w-1), 2^(w-1)-1]` and none when it lies inside; at
one byte `Multiply(Constant 200, Constant 200)` reports the overflow and stores the low
8 bits of 40000. -/
theorem Fold_Multiply_constants (KIND : Nat) (C : Type) (h : 0 < KIND) (loc : CharBlock)
    (ms : Messages) (x y : Integer (8 * KIND)) :
    (∃ c : Integer (8 * KIND),
      (c.raw : Int) = (x.ToInt * y.ToInt) % (2 : Int) ^ (8 * KIND) ∧
      c.ToInt = wrapSigned (8 * KIND) (x.ToInt * y.ToInt) ∧
      Fold loc (Multiply (Constant x) (Constant y) : IntegerExpr KIND C) (some ms) =
        some (Constant c,
          some (if -(2 : Int) ^ (8 * KIND - 1) ≤ x.ToInt * y.ToInt ∧
                  x.ToInt * y.ToInt ≤ (2 : Int) ^ (8 * KIND - 1) - 1
                then ms else ms ++ [Message.mk loc "integer multiplication overflowed"]))) ∧
    Fold loc (Multiply (Constant (Integer.ofNat (8 * 1) 200)) (Constant (Integer.ofNat (8 * 1) 200))
        : IntegerExpr 1 C) (some ms) =
      some (Constant (Integer.ofNat (8 * 1) 40000),
        some (ms ++ [Message.mk loc "integer multiplication overflowed"])) := by
  have hb : 0 < 8 * KIND := by omega
  refine ⟨⟨Integer.ofInt (8 * KIND) (x.ToInt * y.ToInt), ?_, Integer.ToInt_ofInt hb _, ?_⟩, ?_⟩
  · rw [Integer.ofInt_raw]
    push_cast
    rfl
  · rw [Fold_Multiply_Constant_eq, sayIfOverflow_some, Integer.MultiplySigned_lower]
    simp only [Integer.Product.SignedMultiplicationOverflowed, Integer.MultiplySigned_ToInt hb,
      Bool.not_eq_true', ← Integer.Representable_iff]
    cases Integer.Representable (8 * KIND) (x.ToInt * y.ToInt) <;> simp
  · rw [Fold_Multiply_Constant_eq, sayIfOverflow_some]
    have h1 : ((Integer.ofNat (8 * 1) 200).MultiplySigned (Integer.ofNat (8 * 1) 200)).lower
        = Integer.ofNat (8 * 1) 40000 := by decide
    have h2 : ((Integer.ofNat (8 * 1) 200).MultiplySigned
        (Integer.ofNat (8 * 1) 200)).SignedMultiplicationOverflowed = true := by decide
    rw [h1, h2, if_pos rfl]

open IntegerExpr in
/-- Instance of C2 at one byte: `(-7) * 20 = -140` overflows the 8-bit signed range. -/
theorem Fold_Multiply_constants_witness :
    0 < 1 ∧
    ((∃ c : Integer (8 * 1),
      (c.raw : Int) = ((Integer.ofInt (8 * 1) (-7)).ToInt * (Integer.ofNat (8 * 1) 20).ToInt)
        % (2 : Int) ^ (8 * 1) ∧
      c.ToInt = wrapSigned (8 * 1)
        ((Integer.ofInt (8 * 1) (-7)).ToInt * (Integer.ofNat (8 * 1) 20).ToInt) ∧
      Fold (CharBlock.mk 0 1) (Multiply (Constant (Integer.ofInt (8 * 1) (-7)))
          (Constant (Integer.ofNat (8 * 1) 20)) : IntegerExpr 1 Unit) (some []) =
        some (Constant c,
          some (if -(2 : Int) ^ (8 * 1 - 1) ≤
                    (Integer.ofInt (8 * 1) (-7)).ToInt * (Integer.ofNat (8 * 1) 20).ToInt ∧
                  (Integer.ofInt (8 * 1) (-7)).ToInt * (Integer.ofNat (8 * 1) 20).ToInt
                    ≤ (2 : Int) ^ (8 * 1 - 1) - 1
                then []
                else [] ++ [Message.mk (CharBlock.mk 0 1) "integer multiplication overflowed"]))) ∧
    Fold (CharBlock.mk 0 1) (Multiply (Constant (Integer.ofNat (8 * 1) 200))
        (Constant (Integer.ofNat (8 * 1) 200)) : IntegerExpr 1 Unit) (some []) =
      some (Constant (Integer.ofNat (8 * 1) 40000),
        some ([] ++ [Message.mk (CharBlock.mk 0 1) "integer multiplication overflowed"]))) :=
  ⟨by decide, Fold_Multiply_constants 1 Unit (by decide) (CharBlock.mk 0 1) []
    (Integer.ofInt (8 * 1) (-7)) (Integer.ofNat (8 * 1) 20)⟩

open IntegerExpr in
/-- C3: at every width `8 * KIND` with `KIND > 0`, folding `Negate(Constant x)` with a
diagnostic sink rewrites the node to the constant whose signed value is `-x` wrapped to the
width, and appends exactly the one diagnostic "integer negation overflowed" if and only if
`x` is the minimum representable value `-2^(w-1)`, in which case the stored constant is `x`
itself; for every other `x` no diagnostic is emitted and the constant is exactly `-x`.  At
one byte `Negate(Constant(-128))` becomes `Constant(-128)` with exactly one diagnostic. -/
theorem Fold_Negate_constant (KIND : Nat) (C : Type) (h : 0 < KIND) (loc : CharBlock)
    (ms : Messages) (x : Integer (8 * KIND)) :
    (∃ c : Integer (8 * KIND),
      c.ToInt = wrapSigned (8 * KIND) (-x.ToInt) ∧
      Fold loc (Negate (Constant x) : IntegerExpr KIND C) (some ms) =
        some (Constant c,
          some (if x.ToInt = -(2 : Int) ^ (8 * KIND - 1)
                then ms ++ [Message.mk loc "integer negation overflowed"] else ms)) ∧
      (x.ToInt = -(2 : Int) ^ (8 * KIND - 1) → c = x) ∧
      (x.ToInt ≠ -(2 : Int) ^ (8 * KIND - 1) → c.ToInt = -x.ToInt)) ∧
    Fold loc (Negate (Constant (Integer.ofInt (8 * 1) (-128))) : IntegerExpr 1 C) (some ms) =
      some (Constant (Integer.ofInt (8 * 1) (-128)),
        some (ms ++ [Message.mk loc "integer negation overflowed"])) := by
  have hb : 0 < 8 * KIND := by omega
  have h1 := Integer.ToInt_lower hb x
  have h2 := Integer.ToInt_upper hb x
  have hcast : ((2 ^ (8 * KIND - 1) : Nat) : Int) = (2 : Int) ^ (8 * KIND - 1) := by push_cast; rfl
  have hrep : Integer.Representable (8 * KIND) (-x.ToInt) = true ↔
      x.ToInt ≠ -(2 : Int) ^ (8 * KIND - 1) := by
    rw [Integer.Representable_iff]
    rw [hcast] at h1 h2
    constructor
    · intro hr; omega
    · intro hne; omega
  refine ⟨⟨Integer.ofInt (8 * KIND) (-x.ToInt), Integer.ToInt_ofInt hb _, ?_, ?_, ?_⟩, ?_⟩
  · rw [Fold_Negate_Constant_eq, sayIfOverflow_some]
    simp only [Integer.Negate, Bool.not_eq_true']
    by_cases hmin : x.ToInt = -(2 : Int) ^ (8 * KIND - 1)
    · have : Integer.Representable (8 * KIND) (-x.ToInt) = false := by
        rw [← Bool.not_eq_true, hrep]; simpa using hmin
      rw [this, if_pos rfl, if_pos hmin]
    · rw [hrep.mpr hmin, if_neg hmin]; simp
  · intro hmin
    have hP := @Integer.two_pow_split_int (8 * KIND) hb
    have hc : Integer.ofInt (8 * KIND) (-x.ToInt) = Integer.ofInt (8 * KIND) x.ToInt := by
      apply Integer.ofInt_congr
      have : -x.ToInt = x.ToInt + ((2 ^ (8 * KIND) : Nat) : Int) := by
        rw [hmin, hP, hcast]; ring
      rw [this, Int.add_emod_self]
    rw [hc, Integer.ofInt_ToInt]
  · intro hne
    rw [Integer.ToInt_ofInt hb]
    exact wrapSigned_of_representable hb (hrep.mpr hne)
  · rw [Fold_Negate_Constant_eq, sayIfOverflow_some]
    have h1 : (Integer.ofInt (8 * 1) (-128)).Negate.value = Integer.ofInt (8 * 1) (-128) := by
      decide
    have h2 : (Integer.ofInt (8 * 1) (-128)).Negate.overflow = true := by decide
    rw [h1, h2, if_pos rfl]

open IntegerExpr in
/-- Instance of C3 at one byte: `-(5)` is `-5`, without a diagnostic. -/
theorem Fold_Negate_constant_witness :
    0 < 1 ∧
    ((∃ c : Integer (8 * 1),
      c.ToInt = wrapSigned (8 * 1) (-(Integer.ofNat (8 * 1) 5).ToInt) ∧
      Fold (CharBlock.mk 0 1) (Negate (Constant (Integer.ofNat (8 * 1) 5)) : IntegerExpr 1 Unit)
          (some []) =
        some (Constant c,
          some (if (Integer.ofNat (8 * 1) 5).ToInt = -(2 : Int) ^ (8 * 1 - 1)
                then [] ++ [Message.mk (CharBlock.mk 0 1) "integer negation overflowed"]
                else [])) ∧
      ((Integer.ofNat (8 * 1) 5).ToInt = -(2 : Int) ^ (8 * 1 - 1) → c = Integer.ofNat (8 * 1) 5) ∧
      ((Integer.ofNat (8 * 1) 5).ToInt ≠ -(2 : Int) ^ (8 * 1 - 1) →
        c.ToInt = -(Integer.ofNat (8 * 1) 5).ToInt)) ∧
    Fold (CharBlock.mk 0 1) (Negate (Constant (Integer.ofInt (8 * 1) (-128))) : IntegerExpr 1 Unit)
        (some []) =
      some (Constant (Integer.ofInt (8 * 1) (-128)),
        some ([] ++ [Message.mk (CharBlock.mk 0 1) "integer negation overflowed"]))) :=
  ⟨by decide, Fold_Negate_constant 1 Unit (by decide) (CharBlock.mk 0 1) []
    (Integer.ofNat (8 * 1) 5)⟩

/-! ## Structure of `Fold` -/

namespace IntegerExpr

variable {KIND : Nat} {C : Type}

/-- When folding `Parentheses x` has a defined result: the folded operand is not a
`Constant`, and the node stays a `Parentheses` over it. -/
theorem Fold_Parentheses_some (loc : CharBlock) (x : IntegerExpr KIND C) (m : Option Messages)
    (r : IntegerExpr KIND C × Option Messages) :
    Fold loc (Parentheses x) m = some r ↔
      ∃ rx, Fold loc x m = some rx ∧ (∀ c, rx.1 ≠ Constant c) ∧ r = (Parentheses rx.1, rx.2) := by
  simp only [Fold]
  cases hx : Fold loc x m with
  | none => simp
  | some rx =>
    simp only [Option.some.injEq, exists_eq_left']
    split
    · rename_i c hc
      simp [hc]
    · rename_i hne
      simp only [Option.some.injEq]
      constructor
      · intro h
        exact ⟨fun c hc => hne c hc, h.symm⟩
      · intro h
        exact h.2.symm

/-- When folding `Negate x` has a defined result, and what it is. -/
theorem Fold_Negate_some (loc : CharBlock) (x : IntegerExpr KIND C) (m : Option Messages)
    (r : IntegerExpr KIND C × Option Messages) :
    Fold loc (Negate x) m = some r ↔
      ∃ rx, Fold loc x m = some rx ∧
        ((∃ c, rx.1 = Constant c ∧ r = (Constant c.Negate.value,
            sayIfOverflow c.Negate.overflow rx.2 loc "integer negation overflowed")) ∨
          ((∀ c, rx.1 ≠ Constant c) ∧ r = (Negate rx.1, rx.2))) := by
  simp only [Fold]
  cases hx : Fold loc x m with
  | none => simp
  | some rx =>
    simp only [Option.some.injEq, exists_eq_left']
    split
    · rename_i c hc
      simp [hc, eq_comm]
    · rename_i hne
      simp only [Option.some.injEq]
      constructor
      · intro h
        exact Or.inr ⟨fun c hc => hne c hc, h.symm⟩
      · rintro (⟨c, hc, _⟩ | ⟨_, h⟩)
        · exact absurd hc (hne c)
        · exact h.symm

/-- When folding `Add x y` has a defined result, and what it is. -/
theorem Fold_Add_some (loc : CharBlock) (x y : IntegerExpr KIND C) (m : Option Messages)
    (r : IntegerExpr KIND C × Option Messages) :
    Fold loc (Add x y) m = some r ↔
      ∃ rx ry, Fold loc x m = some rx ∧ Fold loc y rx.2 = some ry ∧
        ((∃ xc yc, rx.1 = Constant xc ∧ ry.1 = Constant yc ∧
            r = (Constant (xc.AddSigned yc).value,
              sayIfOverflow (xc.AddSigned yc).overflow ry.2 loc "integer addition overflowed")) ∨
          ((∀ xc yc, rx.1 = Constant xc → ry.1 ≠ Constant yc) ∧ r = (Add rx.1 ry.1, ry.2))) := by
  simp only [Fold]
  cases hx : Fold loc x m with
  | none => simp
  | some rx =>
    dsimp only
    cases hy : Fold loc y rx.2 with
    | none => simp [hy]
    | some ry =>
      dsimp only
      constructor
      · intro h
        refine ⟨rx, ry, rfl, hy, ?_⟩
        split at h
        · rename_i xc yc hxc hyc
          exact Or.inl ⟨xc, yc, hxc, hyc, (Option.some.inj h).symm⟩
        · rename_i hne
          exact Or.inr ⟨fun xc yc h1 h2 => hne xc yc h1 h2, (Option.some.inj h).symm⟩
      · rintro ⟨rx1, ry1, h1, h2, h3⟩
        cases Option.some.inj h1
        rw [hy] at h2
        cases Option.some.inj h2
        rcases h3 with ⟨xc, yc, hxc, hyc, hr⟩ | ⟨hne, hr⟩
        · rw [hxc, hyc, hr]
        · split
          · rename_i xc yc hxc hyc
            exact absurd hyc (hne xc yc hxc)
          · rw [hr]

/-- When folding `Multiply x y` has a defined result, and what it is. -/
theorem Fold_Multiply_some (loc : CharBlock) (x y : IntegerExpr KIND C) (m : Option Messages)
    (r : IntegerExpr KIND C × Option Messages) :
    Fold loc (Multiply x y) m = some r ↔
      ∃ rx ry, Fold loc x m = some rx ∧ Fold loc y rx.2 = some ry ∧
        ((∃ xc yc, rx.1 = Constant xc ∧ ry.1 = Constant yc ∧
            r = (Constant (xc.MultiplySigned yc).lower,
              sayIfOverflow (xc.MultiplySigned yc).SignedMultiplicationOverflowed ry.2 loc
                "integer multiplication overflowed")) ∨
          ((∀ xc yc, rx.1 = Constant xc → ry.1 ≠ Constant yc) ∧
            r = (Multiply rx.1 ry.1, ry.2))) := by
  simp only [Fold]
  cases hx : Fold loc x m with
  | none => simp
  | some rx =>
    dsimp only
    cases hy : Fold loc y rx.2 with
    | none => simp [hy]
    | some ry =>
      dsimp only
      constructor
      · intro h
        refine ⟨rx, ry, rfl, hy, ?_⟩
        split at h
        · rename_i xc yc hxc hyc
          exact Or.inl ⟨xc, yc, hxc, hyc, (Option.some.inj h).symm⟩
        · rename_i hne
          exact Or.inr ⟨fun xc yc h1 h2 => hne xc yc h1 h2, (Option.some.inj h).symm⟩
      · rintro ⟨rx1, ry1, h1, h2, h3⟩
        cases Option.some.inj h1
        rw [hy] at h2
        cases Option.some.inj h2
        rcases h3 with ⟨xc, yc, hxc, hyc, hr⟩ | ⟨hne, hr⟩
        · rw [hxc, hyc, hr]
        · split
          · rename_i xc yc hxc hyc
            exact absurd hyc (hne xc yc hxc)
          · rw [hr]

/-- Folding `Parentheses x` is undefined as soon as folding `x` is undefined or yields a
`Constant`. -/
theorem Fold_Parentheses_none (loc : CharBlock) (x : IntegerExpr KIND C) (m : Option Messages) :
    Fold loc (Parentheses x) m = none ↔
      Fold loc x m = none ∨ ∃ c m1, Fold loc x m = some (Constant c, m1) := by
  simp only [Fold]
  cases hx : Fold loc x m with
  | none => simp
  | some rx =>
    dsimp only
    split
    · rename_i c hc
      simp only [true_iff]
      exact Or.inr ⟨c, rx.2, by rw [← hc]⟩
    · rename_i hne
      constructor
      · intro h
        exact Option.noConfusion h
      · rintro (h | ⟨c, m1, h⟩)
        · exact Option.noConfusion h
        · exact absurd (congrArg Prod.fst (Option.some.inj h)) (hne c)

/-- Whether `Fold` has a defined result, and the tree it yields, do not depend on the state
of the sink. -/
theorem Fold_some_indep (loc : CharBlock) (e : IntegerExpr KIND C) (m m1 : Option Messages)
    (r : IntegerExpr KIND C × Option Messages) (h : Fold loc e m = some r) :
    ∃ m2, Fold loc e m1 = some (r.1, m2) := by
  induction e generalizing m m1 r with
  | Constant c =>
    simp only [Fold, Option.some.injEq] at h
    exact ⟨m1, by simp [Fold, ← h]⟩
  | Convert x =>
    simp only [Fold, Option.some.injEq] at h
    exact ⟨m1, by simp [Fold, ← h]⟩
  | Parentheses x ih =>
    obtain ⟨rx, hx, hne, hr⟩ := (Fold_Parentheses_some loc x m r).1 h
    obtain ⟨m2, h2⟩ := ih m m1 rx hx
    exact ⟨m2, (Fold_Parentheses_some loc x m1 _).2 ⟨(rx.1, m2), h2, hne, by rw [hr]⟩⟩
  | Negate x ih =>
    obtain ⟨rx, hx, hcase⟩ := (Fold_Negate_some loc x m r).1 h
    obtain ⟨m2, h2⟩ := ih m m1 rx hx
    rcases hcase with ⟨c, hc, hr⟩ | ⟨hne, hr⟩
    · exact ⟨_, (Fold_Negate_some loc x m1 _).2 ⟨(rx.1, m2), h2, Or.inl ⟨c, hc, by rw [hr]⟩⟩⟩
    · exact ⟨m2, (Fold_Negate_some loc x m1 _).2 ⟨(rx.1, m2), h2, Or.inr ⟨hne, by rw [hr]⟩⟩⟩
  | Add x y ihx ihy =>
    obtain ⟨rx, ry, hx, hy, hcase⟩ := (Fold_Add_some loc x y m r).1 h
    obtain ⟨mx, h2x⟩ := ihx m m1 rx hx
    obtain ⟨my, h2y⟩ := ihy rx.2 mx ry hy
    rcases hcase with ⟨xc, yc, hxc, hyc, hr⟩ | ⟨hne, hr⟩
    · exact ⟨_, (Fold_Add_some loc x y m1 _).2
        ⟨(rx.1, mx), (ry.1, my), h2x, h2y, Or.inl ⟨xc, yc, hxc, hyc, by rw [hr]⟩⟩⟩
    · exact ⟨my, (Fold_Add_some loc x y m1 _).2
        ⟨(rx.1, mx), (ry.1, my), h2x, h2y, Or.inr ⟨hne, by rw [hr]⟩⟩⟩
  | Multiply x y ihx ihy =>
    obtain ⟨rx, ry, hx, hy, hcase⟩ := (Fold_Multiply_some loc x y m r).1 h
    obtain ⟨mx, h2x⟩ := ihx m m1 rx hx
    obtain ⟨my, h2y⟩ := ihy rx.2 mx ry hy
    rcases hcase with ⟨xc, yc, hxc, hyc, hr⟩ | ⟨hne, hr⟩
    · exact ⟨_, (Fold_Multiply_some loc x y m1 _).2
        ⟨(rx.1, mx), (ry.1, my), h2x, h2y, Or.inl ⟨xc, yc, hxc, hyc, by rw [hr]⟩⟩⟩
    · exact ⟨my, (Fold_Multiply_some loc x y m1 _).2
        ⟨(rx.1, mx), (ry.1, my), h2x, h2y, Or.inr ⟨hne, by rw [hr]⟩⟩⟩
  | Subtract x y _ _ =>
    simp only [Fold, Option.some.injEq] at h
    exact ⟨m1, by simp [Fold, ← h]⟩
  | Divide x y _ _ =>
    simp only [Fold, Option.some.injEq] at h
    exact ⟨m1, by simp [Fold, ← h]⟩
  | Power x y _ _ =>
    simp only [Fold, Option.some.injEq] at h
    exact ⟨m1, by simp [Fold, ← h]⟩

/-- Whether `Fold` has a defined result, and the tree it yields, do not depend on the state
of the sink: the same, as one equation. -/
theorem Fold_tree_indep (loc : CharBlock) (e : IntegerExpr KIND C) (m m1 : Option Messages) :
    (Fold loc e m).map Prod.fst = (Fold loc e m1).map Prod.fst := by
  cases h : Fold loc e m with
  | none =>
    cases h1 : Fold loc e m1 with
    | none => rfl
    | some r1 =>
      obtain ⟨m2, h2⟩ := Fold_some_indep loc e m1 m r1 h1
      rw [h] at h2
      exact Option.noConfusion h2
  | some r =>
    obtain ⟨m2, h2⟩ := Fold_some_indep loc e m m1 r h
    rw [h2]
    rfl

/-- Without a sink nothing is recorded. -/
theorem Fold_sink_none (loc : CharBlock) (e : IntegerExpr KIND C)
    (r : IntegerExpr KIND C × Option Messages) (h : Fold loc e none = some r) :
    r.2 = none := by
  induction e generalizing r with
  | Constant c =>
    simp only [Fold, Option.some.injEq] at h
    rw [← h]
  | Convert x =>
    simp only [Fold, Option.some.injEq] at h
    rw [← h]
  | Parentheses x ih =>
    obtain ⟨rx, hx, _, hr⟩ := (Fold_Parentheses_some loc x none r).1 h
    rw [hr]
    exact ih rx hx
  | Negate x ih =>
    obtain ⟨rx, hx, hcase⟩ := (Fold_Negate_some loc x none r).1 h
    have h2 := ih rx hx
    rcases hcase with ⟨c, _, hr⟩ | ⟨_, hr⟩
    · rw [hr]
      show sayIfOverflow _ rx.2 _ _ = none
      rw [h2, sayIfOverflow_none]
    · rw [hr]
      exact h2
  | Add x y ihx ihy =>
    obtain ⟨rx, ry, hx, hy, hcase⟩ := (Fold_Add_some loc x y none r).1 h
    have h2x := ihx rx hx
    rw [h2x] at hy
    have h2y := ihy ry hy
    rcases hcase with ⟨xc, yc, _, _, hr⟩ | ⟨_, hr⟩
    · rw [hr]
      show sayIfOverflow _ ry.2 _ _ = none
      rw [h2y, sayIfOverflow_none]
    · rw [hr]
      exact h2y
  | Multiply x y ihx ihy =>
    obtain ⟨rx, ry, hx, hy, hcase⟩ := (Fold_Multiply_some loc x y none r).1 h
    have h2x := ihx rx hx
    rw [h2x] at hy
    have h2y := ihy ry hy
    rcases hcase with ⟨xc, yc, _, _, hr⟩ | ⟨_, hr⟩
    · rw [hr]
      show sayIfOverflow _ ry.2 _ _ = none
      rw [h2y, sayIfOverflow_none]
    · rw [hr]
      exact h2y
  | Subtract x y _ _ =>
    simp only [Fold, Option.some.injEq] at h
    rw [← h]
  | Divide x y _ _ =>
    simp only [Fold, Option.some.injEq] at h
    rw [← h]
  | Power x y _ _ =>
    simp only [Fold, Option.some.injEq] at h
    rw [← h]

/-- Folding an already folded tree has a defined result and leaves the tree and the sink
as they are. -/
theorem Fold_Fold_eq (loc loc1 : CharBlock) (e : IntegerExpr KIND C) (m m1 : Option Messages)
    (r : IntegerExpr KIND C × Option Messages) (h : Fold loc e m = some r) :
    Fold loc1 r.1 m1 = some (r.1, m1) := by
  induction e generalizing m m1 r with
  | Constant c =>
    simp only [Fold, Option.some.injEq] at h
    simp [Fold, ← h]
  | Convert x =>
    simp only [Fold, Option.some.injEq] at h
    simp [Fold, ← h]
  | Parentheses x ih =>
    obtain ⟨rx, hx, hne, hr⟩ := (Fold_Parentheses_some loc x m r).1 h
    rw [hr]
    exact (Fold_Parentheses_some loc1 rx.1 m1 _).2 ⟨(rx.1, m1), ih m m1 rx hx, hne, rfl⟩
  | Negate x ih =>
    obtain ⟨rx, hx, hcase⟩ := (Fold_Negate_some loc x m r).1 h
    rcases hcase with ⟨c, _, hr⟩ | ⟨hne, hr⟩
    · rw [hr]
      simp [Fold]
    · rw [hr]
      exact (Fold_Negate_some loc1 rx.1 m1 _).2
        ⟨(rx.1, m1), ih m m1 rx hx, Or.inr ⟨hne, rfl⟩⟩
  | Add x y ihx ihy =>
    obtain ⟨rx, ry, hx, hy, hcase⟩ := (Fold_Add_some loc x y m r).1 h
    rcases hcase with ⟨xc, yc, _, _, hr⟩ | ⟨hne, hr⟩
    · rw [hr]
      simp [Fold]
    · rw [hr]
      exact (Fold_Add_some loc1 rx.1 ry.1 m1 _).2
        ⟨(rx.1, m1), (ry.1, m1), ihx m m1 rx hx, ihy rx.2 m1 ry hy, Or.inr ⟨hne, rfl⟩⟩
  | Multiply x y ihx ihy =>
    obtain ⟨rx, ry, hx, hy, hcase⟩ := (Fold_Multiply_some loc x y m r).1 h
    rcases hcase with ⟨xc, yc, _, _, hr⟩ | ⟨hne, hr⟩
    · rw [hr]
      simp [Fold]
    · rw [hr]
      exact (Fold_Multiply_some loc1 rx.1 ry.1 m1 _).2
        ⟨(rx.1, m1), (ry.1, m1), ihx m m1 rx hx, ihy rx.2 m1 ry hy, Or.inr ⟨hne, rfl⟩⟩
  | Subtract x y _ _ =>
    simp only [Fold, Option.some.injEq] at h
    simp [Fold, ← h]
  | Divide x y _ _ =>
    simp only [Fold, Option.some.injEq] at h
    simp [Fold, ← h]
  | Power x y _ _ =>
    simp only [Fold, Option.some.injEq] at h
    simp [Fold, ← h]

end IntegerExpr

namespace Integer

variable {bits : Nat}

/-- The signed value of a truncated integer is congruent to the integer. -/
theorem ToInt_ofInt_modEq (i : Int) :
    (ofInt bits i).ToInt ≡ i [ZMOD ((2 ^ bits : Nat) : Int)] := by
  show (ofInt bits i).ToInt % _ = i % _
  rw [ToInt_emod, ofInt_raw]

theorem ofInt_congr_modEq {i j : Int} (h : i ≡ j [ZMOD ((2 ^ bits : Nat) : Int)]) :
    ofInt bits i = ofInt bits j :=
  ofInt_congr h

theorem ofInt_natCast (n : Nat) : ofInt bits (n : Int) = ofNat bits n := by
  apply ext_raw
  have h := @ofInt_raw bits (n : Int)
  have h2 : ((n : Int) % ((2 ^ bits : Nat) : Int)) = ((n % 2 ^ bits : Nat) : Int) := by
    push_cast; rfl
  rw [h2] at h
  show _ = n % 2 ^ bits
  exact_mod_cast h

theorem Negate_value_ofInt (v : Int) : (ofInt bits v).Negate.value = ofInt bits (-v) :=
  ofInt_congr_modEq (ToInt_ofInt_modEq v).neg

theorem AddSigned_value_ofInt (a b : Int) :
    ((ofInt bits a).AddSigned (ofInt bits b)).value = ofInt bits (a + b) :=
  ofInt_congr_modEq ((ToInt_ofInt_modEq a).add (ToInt_ofInt_modEq b))

theorem MultiplySigned_lower_ofInt (a b : Int) :
    ((ofInt bits a).MultiplySigned (ofInt bits b)).lower = ofInt bits (a * b) := by
  rw [MultiplySigned_lower]
  exact ofInt_congr_modEq ((ToInt_ofInt_modEq a).mul (ToInt_ofInt_modEq b))

end Integer

namespace IntegerExpr

variable {KIND : Nat} {C : Type}

/-- A tree built from `Constant`, `Negate`, `Add` and `Multiply` alone folds, with a defined
result, to the constant holding its exact value truncated to the width. -/
theorem Fold_of_OnlyNegateAddMultiply (loc : CharBlock) (e : IntegerExpr KIND C)
    (he : OnlyNegateAddMultiply e = true) (m : Option Messages) :
    ∃ (v : Int) (m1 : Option Messages), exactValue e = some v ∧
      Fold loc e m = some (Constant (Integer.ofInt (8 * KIND) v), m1) := by
  induction e generalizing m with
  | Constant c => exact ⟨c.ToInt, m, rfl, by simp [Fold, Integer.ofInt_ToInt]⟩
  | Convert x => simp [OnlyNegateAddMultiply] at he
  | Parentheses x _ => simp [OnlyNegateAddMultiply] at he
  | Negate x ih =>
    obtain ⟨v, m1, hv, hf⟩ := ih (by simpa [OnlyNegateAddMultiply] using he) m
    have h := (Fold_Negate_some loc x m _).2 ⟨_, hf, Or.inl ⟨_, rfl, rfl⟩⟩
    rw [Integer.Negate_value_ofInt] at h
    exact ⟨-v, _, by simp [exactValue, hv], h⟩
  | Add x y ihx ihy =>
    simp only [OnlyNegateAddMultiply, Bool.and_eq_true] at he
    obtain ⟨a, ma, ha, hfa⟩ := ihx he.1 m
    obtain ⟨b, mb, hb, hfb⟩ := ihy he.2 ma
    have h := (Fold_Add_some loc x y m _).2 ⟨_, _, hfa, hfb, Or.inl ⟨_, _, rfl, rfl, rfl⟩⟩
    rw [Integer.AddSigned_value_ofInt] at h
    exact ⟨a + b, _, by simp [exactValue, ha, hb], h⟩
  | Multiply x y ihx ihy =>
    simp only [OnlyNegateAddMultiply, Bool.and_eq_true] at he
    obtain ⟨a, ma, ha, hfa⟩ := ihx he.1 m
    obtain ⟨b, mb, hb, hfb⟩ := ihy he.2 ma
    have h := (Fold_Multiply_some loc x y m _).2 ⟨_, _, hfa, hfb, Or.inl ⟨_, _, rfl, rfl, rfl⟩⟩
    rw [Integer.MultiplySigned_lower_ofInt] at h
    exact ⟨a * b, _, by simp [exactValue, ha, hb], h⟩
  | Subtract x y _ _ => simp [OnlyNegateAddMultiply] at he
  | Divide x y _ _ => simp [OnlyNegateAddMultiply] at he
  | Power x y _ _ => simp [OnlyNegateAddMultiply] at he

end IntegerExpr

/-! ## Properties of `Fold` on whole trees -/

open IntegerExpr in
/-- C4: the code against the claim that `Fold(Fold(T))` is `Fold(T)` for every tree `T`.
`Fold` has no defined result on the one-byte tree `Parentheses(Constant 5)`, whatever the
sink: its `Parentheses` case reads the constant after the assignment has destroyed it, so
on that tree neither side of the equation is fixed by the program.  On every tree on which
`Fold` has a defined result, `Fold` applied to the folded tree has a defined result too,
and it is that same tree, whatever the state of the sink at either application. -/
theorem Fold_idempotent_where_defined (KIND : Nat) (C : Type) (loc : CharBlock)
    (T : IntegerExpr KIND C) (m m1 : Option Messages) :
    Fold loc (Parentheses (Constant (Integer.ofNat (8 * 1) 5)) : IntegerExpr 1 C) m = none ∧
    ∀ r : IntegerExpr KIND C × Option Messages, Fold loc T m = some r →
      (Fold loc r.1 m1).map Prod.fst = some r.1 := by
  refine ⟨by simp [Fold], fun r hr => ?_⟩
  rw [Fold_Fold_eq loc loc T m m1 r hr]
  rfl

open IntegerExpr in
/-- C5, as stated, fails: the one-byte tree `Add(Subtract(Constant 5, Constant 3), Constant 1)`
has an `Add` root and only `Constant` leaves, yet `Fold` leaves it as it is, so its root is
not rewritten to any `Constant`. -/
theorem Fold_Add_over_Subtract_not_constant :
    RootIsAddMultiplyNegate (Add (Subtract (Constant (Integer.ofNat (8 * 1) 5))
        (Constant (Integer.ofNat (8 * 1) 3))) (Constant (Integer.ofNat (8 * 1) 1))
        : IntegerExpr 1 Unit) = true ∧
    AllLeavesConstant (Add (Subtract (Constant (Integer.ofNat (8 * 1) 5))
        (Constant (Integer.ofNat (8 * 1) 3))) (Constant (Integer.ofNat (8 * 1) 1))
        : IntegerExpr 1 Unit) = true ∧
    Fold (CharBlock.mk 0 1) (Add (Subtract (Constant (Integer.ofNat (8 * 1) 5))
        (Constant (Integer.ofNat (8 * 1) 3))) (Constant (Integer.ofNat (8 * 1) 1))
        : IntegerExpr 1 Unit) (some []) =
      some (Add (Subtract (Constant (Integer.ofNat (8 * 1) 5))
        (Constant (Integer.ofNat (8 * 1) 3))) (Constant (Integer.ofNat (8 * 1) 1)), some []) ∧
    ¬ ∃ c m1, Fold (CharBlock.mk 0 1) (Add (Subtract (Constant (Integer.ofNat (8 * 1) 5))
        (Constant (Integer.ofNat (8 * 1) 3))) (Constant (Integer.ofNat (8 * 1) 1))
        : IntegerExpr 1 Unit) (some []) = some (Constant c, m1) := by
  have h : Fold (CharBlock.mk 0 1) (Add (Subtract (Constant (Integer.ofNat (8 * 1) 5))
        (Constant (Integer.ofNat (8 * 1) 3))) (Constant (Integer.ofNat (8 * 1) 1))
        : IntegerExpr 1 Unit) (some []) =
      some (Add (Subtract (Constant (Integer.ofNat (8 * 1) 5))
        (Constant (Integer.ofNat (8 * 1) 3))) (Constant (Integer.ofNat (8 * 1) 1)), some []) := by
    decide
  refine ⟨by decide, by decide, h, ?_⟩
  rintro ⟨c, m1, hc⟩
  rw [h] at hc
  cases hc

open IntegerExpr in
/-- C5, amended: for every tree whose root is an `Add`, `Multiply` or `Negate` node and all
of whose nodes are `Constant`, `Negate`, `Add` or `Multiply`, `Fold` rewrites the root to
the `Constant` whose signed value is the exact value of the whole tree wrapped into the
two's-complement range of the width. -/
theorem Fold_constant_preservation (KIND : Nat) (C : Type) (h : 0 < KIND) (loc : CharBlock)
    (m : Option Messages) (T : IntegerExpr KIND C)
    (_hroot : RootIsAddMultiplyNegate T = true) (hnodes : OnlyNegateAddMultiply T = true) :
    ∃ (v : Int) (c : Integer (8 * KIND)) (m1 : Option Messages),
      exactValue T = some v ∧ Fold loc T m = some (Constant c, m1) ∧
      c.ToInt = wrapSigned (8 * KIND) v := by
  obtain ⟨v, m1, hv, hf⟩ := Fold_of_OnlyNegateAddMultiply loc T hnodes m
  exact ⟨v, Integer.ofInt (8 * KIND) v, m1, hv, hf, Integer.ToInt_ofInt (by omega) v⟩

open IntegerExpr in
/-- Instance of the amended C5 at one byte: `Add(Negate(Constant 100), Multiply(Constant 20,
Constant 10))`, whose product overflows. -/
theorem Fold_constant_preservation_witness :
    0 < 1 ∧
    RootIsAddMultiplyNegate (Add (Negate (Constant (Integer.ofNat (8 * 1) 100)))
      (Multiply (Constant (Integer.ofNat (8 * 1) 20)) (Constant (Integer.ofNat (8 * 1) 10)))
      : IntegerExpr 1 Unit) = true ∧
    OnlyNegateAddMultiply (Add (Negate (Constant (Integer.ofNat (8 * 1) 100)))
      (Multiply (Constant (Integer.ofNat (8 * 1) 20)) (Constant (Integer.ofNat (8 * 1) 10)))
      : IntegerExpr 1 Unit) = true ∧
    ∃ (v : Int) (c : Integer (8 * 1)) (m1 : Option Messages),
      exactValue (Add (Negate (Constant (Integer.ofNat (8 * 1) 100)))
        (Multiply (Constant (Integer.ofNat (8 * 1) 20)) (Constant (Integer.ofNat (8 * 1) 10)))
        : IntegerExpr 1 Unit) = some v ∧
      Fold (CharBlock.mk 0 1) (Add (Negate (Constant (Integer.ofNat (8 * 1) 100)))
        (Multiply (Constant (Integer.ofNat (8 * 1) 20)) (Constant (Integer.ofNat (8 * 1) 10)))
        : IntegerExpr 1 Unit) (some []) = some (Constant c, m1) ∧
      c.ToInt = wrapSigned (8 * 1) v :=
  ⟨by decide, by decide, by decide,
    Fold_constant_preservation 1 Unit (by decide) (CharBlock.mk 0 1) (some []) _
      (by decide) (by decide)⟩

open IntegerExpr in
/-- C6: the code at the claim's own example.  `Fold` leaves every `Subtract`, `Divide` and
`Power` node exactly as it is, operands included, and leaves the sink as it is; so the
one-byte tree `Subtract(Add(Constant 1, Constant 2), Constant 3)` stays as it is, although
folding its left operand alone gives `Constant 3`, and it does not become
`Subtract(Constant 3, Constant 3)`. -/
theorem Fold_Subtract_Divide_Power_operands_untouched (KIND : Nat) (C : Type) (loc : CharBlock)
    (a b : IntegerExpr KIND C) (m : Option Messages) :
    (Fold loc (Subtract a b) m = some (Subtract a b, m) ∧
      Fold loc (Divide a b) m = some (Divide a b, m) ∧
      Fold loc (Power a b) m = some (Power a b, m)) ∧
    Fold loc (Subtract (Add (Constant (Integer.ofNat (8 * 1) 1))
        (Constant (Integer.ofNat (8 * 1) 2))) (Constant (Integer.ofNat (8 * 1) 3))
        : IntegerExpr 1 C) m =
      some (Subtract (Add (Constant (Integer.ofNat (8 * 1) 1))
        (Constant (Integer.ofNat (8 * 1) 2))) (Constant (Integer.ofNat (8 * 1) 3)), m) ∧
    (Fold loc (Add (Constant (Integer.ofNat (8 * 1) 1)) (Constant (Integer.ofNat (8 * 1) 2))
        : IntegerExpr 1 C) m).map Prod.fst = some (Constant (Integer.ofNat (8 * 1) 3)) ∧
    (Fold loc (Subtract (Add (Constant (Integer.ofNat (8 * 1) 1))
        (Constant (Integer.ofNat (8 * 1) 2))) (Constant (Integer.ofNat (8 * 1) 3))
        : IntegerExpr 1 C) m).map Prod.fst ≠
      some (Subtract (Constant (Integer.ofNat (8 * 1) 3))
        (Constant (Integer.ofNat (8 * 1) 3))) := by
  refine ⟨⟨by simp [Fold], by simp [Fold], by simp [Fold]⟩, by simp [Fold], ?_, ?_⟩
  · rw [Fold_Add_Constant_eq]
    have h : ((Integer.ofNat (8 * 1) 1).AddSigned (Integer.ofNat (8 * 1) 2)).value
        = Integer.ofNat (8 * 1) 3 := by decide
    rw [h]
    rfl
  · simp [Fold]

open IntegerExpr in
/-- C7: the code against the claim that folding `Parentheses(e)` yields `Constant c` when
the folded `e` is `Constant c`.  Exactly in that case `Fold` has no defined result: the
assignment `u = *c` destroys the `Parentheses` alternative, and with it the operand that
holds `*c`, before it copies from `*c`; so folding the one-byte tree
`Parentheses(Constant 5)` has no defined result and is not `Constant 5`.  The rest of the
claim holds: when the folded `e` is not a `Constant`, the result is `Parentheses` of the
folded `e` and the sink is left in exactly the state in which folding `e` leaves it; and
when folding `e` has no defined result, neither has folding `Parentheses(e)`. -/
theorem Fold_Parentheses_of_Constant_undefined (KIND : Nat) (C : Type) (loc : CharBlock)
    (e : IntegerExpr KIND C) (m : Option Messages) :
    Fold loc (Parentheses (Constant (Integer.ofNat (8 * 1) 5)) : IntegerExpr 1 C) m = none ∧
    (∀ c m1, Fold loc e m = some (Constant c, m1) → Fold loc (Parentheses e) m = none) ∧
    (∀ folded m1, Fold loc e m = some (folded, m1) → (∀ c, folded ≠ Constant c) →
      Fold loc (Parentheses e) m = some (Parentheses folded, m1)) ∧
    (Fold loc e m = none → Fold loc (Parentheses e) m = none) := by
  refine ⟨by simp [Fold], fun c m1 h => ?_, fun folded m1 h hne => ?_, fun h => ?_⟩
  · exact (Fold_Parentheses_none loc e m).2 (Or.inr ⟨c, m1, h⟩)
  · exact (Fold_Parentheses_some loc e m _).2 ⟨_, h, hne, rfl⟩
  · exact (Fold_Parentheses_none loc e m).2 (Or.inl h)

open IntegerExpr in
/-- C8: the code against the claim that, for every tree, the tree produced without a sink
is the tree produced with a sink.  On the one-byte tree `Parentheses(Constant 5)` `Fold` has
no defined result, neither without a sink nor with one, so the program fixes no tree to
compare.  For every tree, whether `Fold` has a defined result does not depend on the sink,
and where it has one, the tree produced without a sink is the tree produced with a sink and
without a sink nothing is recorded. -/
theorem Fold_without_sink_where_defined (KIND : Nat) (C : Type) (loc : CharBlock)
    (T : IntegerExpr KIND C) (ms : Messages) :
    (Fold loc (Parentheses (Constant (Integer.ofNat (8 * 1) 5)) : IntegerExpr 1 C) none = none ∧
      Fold loc (Parentheses (Constant (Integer.ofNat (8 * 1) 5)) : IntegerExpr 1 C) (some ms)
        = none) ∧
    (Fold loc T none).map Prod.fst = (Fold loc T (some ms)).map Prod.fst ∧
    ∀ r : IntegerExpr KIND C × Option Messages, Fold loc T none = some r → r.2 = none :=
  ⟨⟨by simp [Fold], by simp [Fold]⟩, Fold_tree_indep loc T none (some ms),
    fun r hr => Fold_sink_none loc T r hr⟩

open IntegerExpr in
/-- C9: `Fold` leaves a `Constant` and a `Convert` completely unchanged, whatever the operand
of the `Convert` is, and leaves the sink as it was; so a `Convert` of the two-byte tree
`Add(Constant 1, Constant 2)` keeps that operand unfolded. -/
theorem Fold_Constant_Convert_unchanged (KIND : Nat) (C : Type) (loc : CharBlock)
    (m : Option Messages) (c : Integer (8 * KIND)) (x : C) :
    Fold loc (Constant c : IntegerExpr KIND C) m = some (Constant c, m) ∧
    Fold loc (Convert x : IntegerExpr KIND C) m = some (Convert x, m) ∧
    Fold loc (Convert (Add (Constant (Integer.ofNat (8 * 2) 1))
        (Constant (Integer.ofNat (8 * 2) 2)) : IntegerExpr 2 C)
        : IntegerExpr KIND (IntegerExpr 2 C)) m =
      some (Convert (Add (Constant (Integer.ofNat (8 * 2) 1))
        (Constant (Integer.ofNat (8 * 2) 2))), m) :=
  ⟨by simp [Fold], by simp [Fold], by simp [Fold]⟩

namespace CharacterExpr

variable {KIND : Nat}

/-- The symbolic length of an expression whose total length fits the length type folds to
the constant holding that total, and the sink stays as it was. -/
theorem Fold_LEN_eq (LK : Nat) (C : Type) (h : 0 < LK) (loc : CharBlock)
    (e : CharacterExpr KIND) (hfit : e.totalLength < 2 ^ (8 * LK - 1)) (m : Option Messages) :
    IntegerExpr.Fold loc (LEN LK C e) m =
      some (IntegerExpr.Constant (Integer.ofNat (8 * LK) e.totalLength), m) := by
  have hb : 0 < 8 * LK := by omega
  induction e generalizing m with
  | Constant str => simp [LEN, totalLength, IntegerExpr.Fold]
  | Concat x y ihx ihy =>
    simp only [totalLength] at hfit
    have hx : x.totalLength < 2 ^ (8 * LK - 1) := by omega
    have hy : y.totalLength < 2 ^ (8 * LK - 1) := by omega
    have hsum : (Integer.ofNat (8 * LK) x.totalLength).ToInt
        + (Integer.ofNat (8 * LK) y.totalLength).ToInt
        = ((x.totalLength + y.totalLength : Nat) : Int) := by
      rw [Integer.ToInt_ofNat_of_lt hx hb, Integer.ToInt_ofNat_of_lt hy hb]
      push_cast; rfl
    have hrep : Integer.Representable (8 * LK)
        (((x.totalLength + y.totalLength : Nat) : Int)) = true := by
      have := Integer.Representable_ToInt hb (Integer.ofNat (8 * LK)
        (x.totalLength + y.totalLength))
      rwa [Integer.ToInt_ofNat_of_lt hfit hb] at this
    simp only [LEN, totalLength, IntegerExpr.Fold, ihx hx, ihy hy]
    simp only [Integer.AddSigned, hsum, hrep, Integer.ofInt_natCast]
    cases m <;> simp [sayIfOverflow]

end CharacterExpr

open IntegerExpr CharacterExpr in
/-- C10: `LEN` of a literal of `n` elements is the constant holding `n`, `LEN` of
`Concat(left, right)` is the unevaluated node `Add(LEN(left), LEN(right))`, and whenever
the total number of elements of all literals fits the length type, `Fold` rewrites `LEN(e)`
to the constant whose value is that total and emits no diagnostic; the length of
`Concat("ab", Concat("cd", "e"))` folds to `Constant 5`. -/
theorem Fold_LEN (KIND LK : Nat) (C : Type) (h : 0 < LK) (loc : CharBlock) (ms : Messages)
    (e : CharacterExpr KIND) (hfit : e.totalLength < 2 ^ (8 * LK - 1)) :
    (∀ str : String, LEN LK C (Constant str : CharacterExpr KIND)
        = IntegerExpr.Constant (Integer.ofNat (8 * LK) str.length)) ∧
    (∀ str : String, str.length < 2 ^ (8 * LK - 1) →
        (Integer.ofNat (8 * LK) str.length).ToInt = (str.length : Int)) ∧
    (∀ left right : CharacterExpr KIND, LEN LK C (Concat left right)
        = IntegerExpr.Add (LEN LK C left) (LEN LK C right)) ∧
    (∃ c : Integer (8 * LK), c.ToInt = (e.totalLength : Int) ∧
        Fold loc (LEN LK C e) (some ms) = some (IntegerExpr.Constant c, some ms)) ∧
    Fold loc (LEN LK C (Concat (Constant "ab") (Concat (Constant "cd") (Constant "e"))
        : CharacterExpr KIND)) (some ms)
      = some (IntegerExpr.Constant (Integer.ofNat (8 * LK) 5), some ms) := by
  have hb : 0 < 8 * LK := by omega
  refine ⟨fun _ => rfl, fun str hs => Integer.ToInt_ofNat_of_lt hs hb, fun _ _ => rfl,
    ⟨Integer.ofNat (8 * LK) e.totalLength, Integer.ToInt_ofNat_of_lt hfit hb,
      Fold_LEN_eq LK C h loc e hfit (some ms)⟩, ?_⟩
  have h128 : 2 ^ 7 ≤ 2 ^ (8 * LK - 1) := Nat.pow_le_pow_right (by decide) (by omega)
  have h5 : (Concat (Constant "ab") (Concat (Constant "cd") (Constant "e"))
      : CharacterExpr KIND).totalLength = 5 := rfl
  have := Fold_LEN_eq LK C h loc (Concat (Constant "ab") (Concat (Constant "cd") (Constant "e"))
      : CharacterExpr KIND) (by rw [h5]; omega) (some ms)
  rw [h5] at this
  exact this

open IntegerExpr CharacterExpr in
/-- Instance of C10 with a one-byte length type and the expression `"ab" // ("cd" // "e")`. -/
theorem Fold_LEN_witness :
    0 < 1 ∧
    (Concat (Constant "ab") (Concat (Constant "cd") (Constant "e"))
      : CharacterExpr 1).totalLength < 2 ^ (8 * 1 - 1) ∧
    ((∀ str : String, LEN 1 Unit (Constant str : CharacterExpr 1)
        = IntegerExpr.Constant (Integer.ofNat (8 * 1) str.length)) ∧
    (∀ str : String, str.length < 2 ^ (8 * 1 - 1) →
        (Integer.ofNat (8 * 1) str.length).ToInt = (str.length : Int)) ∧
    (∀ left right : CharacterExpr 1, LEN 1 Unit (Concat left right)
        = IntegerExpr.Add (LEN 1 Unit left) (LEN 1 Unit right)) ∧
    (∃ c : Integer (8 * 1),
        c.ToInt = (((Concat (Constant "ab") (Concat (Constant "cd") (Constant "e"))
          : CharacterExpr 1).totalLength : Nat) : Int) ∧
        Fold (CharBlock.mk 0 1) (LEN 1 Unit (Concat (Constant "ab")
          (Concat (Constant "cd") (Constant "e")) : CharacterExpr 1)) (some [])
          = some (IntegerExpr.Constant c, some [])) ∧
    Fold (CharBlock.mk 0 1) (LEN 1 Unit (Concat (Constant "ab")
        (Concat (Constant "cd") (Constant "e")) : CharacterExpr 1)) (some [])
      = some (IntegerExpr.Constant (Integer.ofNat (8 * 1) 5), some [])) :=
  ⟨by decide, by decide,
    Fold_LEN 1 1 Unit (by decide) (CharBlock.mk 0 1) []
      (Concat (Constant "ab") (Concat (Constant "cd") (Constant "e"))) (by decide)⟩

/-! ## Balanced texts -/

theorem prefix_bound (l : List Char) :
    (∀ n ∈ List.range (l.length + 1), (l.take n).count ')' ≤ (l.take n).count '(') ↔
      ∀ n : Nat, (l.take n).count ')' ≤ (l.take n).count '(' := by
  constructor
  · intro h n
    by_cases hn : n ≤ l.length
    · exact h n (List.mem_range.mpr (by omega))
    · have h1 : l.take n = l.take l.length := by
        rw [List.take_of_length_le (by omega), List.take_of_length_le (le_refl _)]
      rw [h1]
      exact h l.length (List.mem_range.mpr (by omega))
  · intro h n _
    exact h n

theorem prefix_append {a b : List Char}
    (ha : ∀ n : Nat, (a.take n).count ')' ≤ (a.take n).count '(')
    (hb : ∀ n : Nat, (b.take n).count ')' ≤ (b.take n).count '(') (n : Nat) :
    ((a ++ b).take n).count ')' ≤ ((a ++ b).take n).count '(' := by
  rw [List.take_append_eq_append_take, List.count_append, List.count_append]
  have h1 := ha n
  have h2 := hb (n - a.length)
  omega

theorem prefix_close {a : List Char}
    (ha : ∀ n : Nat, (a.take n).count ')' ≤ (a.take n).count '(')
    (hc : a.count ')' + 1 ≤ a.count '(') (n : Nat) :
    ((a ++ [')']).take n).count ')' ≤ ((a ++ [')']).take n).count '(' := by
  by_cases hn : n ≤ a.length
  · rw [List.take_append_of_le_length hn]
    exact ha n
  · rw [List.take_of_length_le (by simp; omega), List.count_append, List.count_append]
    simp
    omega

theorem Balanced_append {a b : List Char} (ha : Balanced a) (hb : Balanced b) :
    Balanced (a ++ b) := by
  refine ⟨?_, (prefix_bound _).mpr (prefix_append ((prefix_bound a).mp ha.2)
    ((prefix_bound b).mp hb.2))⟩
  rw [List.count_append, List.count_append, ha.1, hb.1]

theorem Balanced_unary {p t : List Char} (hp : Opening p) (ht : Balanced t) :
    Balanced (p ++ t ++ [')']) := by
  have hpt := prefix_append ((prefix_bound p).mp hp.2) ((prefix_bound t).mp ht.2)
  refine ⟨?_, (prefix_bound _).mpr (prefix_close hpt ?_)⟩
  · simp only [List.count_append, hp.1, ht.1]
    simp
    omega
  · simp only [List.count_append, hp.1, ht.1]
    omega

theorem Balanced_of_no_parentheses {t : List Char} (h1 : '(' ∉ t) (h2 : ')' ∉ t) :
    Balanced t := by
  refine ⟨by rw [List.count_eq_zero_of_not_mem h1, List.count_eq_zero_of_not_mem h2], ?_⟩
  intro n _
  rw [List.count_eq_zero_of_not_mem (fun hm => h2 (List.mem_of_mem_take hm))]
  exact Nat.zero_le _

theorem toDigitsCore_no_parentheses (fuel : Nat) :
    ∀ (n : Nat) (ds : List Char), (∀ c ∈ ds, c ≠ '(' ∧ c ≠ ')') →
      ∀ c ∈ Nat.toDigitsCore 10 fuel n ds, c ≠ '(' ∧ c ≠ ')' := by
  induction fuel with
  | zero => intro n ds h; simpa [Nat.toDigitsCore] using h
  | succ f ih =>
    intro n ds h
    have hd : Nat.digitChar (n % 10) ≠ '(' ∧ Nat.digitChar (n % 10) ≠ ')' := by
      have hlt : n % 10 < 10 := Nat.mod_lt _ (by decide)
      generalize n % 10 = m at hlt
      interval_cases m <;> decide
    have hcons : ∀ c ∈ Nat.digitChar (n % 10) :: ds, c ≠ '(' ∧ c ≠ ')' := by
      intro c hc
      rcases List.mem_cons.mp hc with rfl | hc
      · exact hd
      · exact h c hc
    unfold Nat.toDigitsCore
    simp only
    split
    · exact hcons
    · exact ih _ _ hcons

theorem Balanced_repr (n : Nat) : Balanced (Nat.repr n).data := by
  have h := toDigitsCore_no_parentheses (n + 1) n [] (by simp)
  have hdata : (Nat.repr n).data = Nat.toDigitsCore 10 (n + 1) n [] := rfl
  rw [hdata]
  exact Balanced_of_no_parentheses (fun hm => (h _ hm).1 rfl) (fun hm => (h _ hm).2 rfl)

theorem Balanced_SignedDecimal {bits : Nat} (x : Integer bits) :
    Balanced x.SignedDecimal.data := by
  unfold Integer.SignedDecimal
  split
  · rw [String.data_append]
    exact Balanced_append (by decide) (Balanced_repr _)
  · exact Balanced_repr _

/-! ## Dumps that write balanced texts -/

theorem WritesBalanced_text {s : String} (h : Balanced s.data) :
    WritesBalanced (fun o => o ++ s) :=
  ⟨fun o => by simp, by simpa using h⟩

theorem WritesBalanced_appendText {A : Type} {text : A → String} (a : A)
    (h : Balanced (text a).data) : WritesBalanced (appendText text a) :=
  WritesBalanced_text h

theorem WritesBalanced_Unary {x : String → String} {opr : String} (ho : Opening opr.data)
    (hx : WritesBalanced x) : WritesBalanced (fun o => Unary.Dump x o opr) := by
  have e : ∀ o, Unary.Dump x o opr = o ++ (opr ++ x "" ++ ")") := by
    intro o
    unfold Unary.Dump
    rw [hx.1 (o ++ opr)]
    simp [String.append_assoc]
  refine ⟨fun o => ?_, ?_⟩
  · show Unary.Dump x o opr = o ++ Unary.Dump x "" opr
    rw [e o, e ""]; simp
  · show Balanced (Unary.Dump x "" opr).data
    rw [e ""]
    simpa using Balanced_unary ho hx.2

theorem WritesBalanced_Binary {x y : String → String} {opr : String}
    (ho : Balanced opr.data) (hx : WritesBalanced x) (hy : WritesBalanced y) :
    WritesBalanced (fun o => Binary.Dump x y o opr) := by
  have e : ∀ o, Binary.Dump x y o opr = o ++ ("(" ++ (x "" ++ opr ++ y "") ++ ")") := by
    intro o
    unfold Binary.Dump
    rw [hy.1, hx.1 (o ++ "(")]
    simp [String.append_assoc]
  refine ⟨fun o => ?_, ?_⟩
  · show Binary.Dump x y o opr = o ++ Binary.Dump x y "" opr
    rw [e o, e ""]; simp
  · show Balanced (Binary.Dump x y "" opr).data
    rw [e ""]
    have hb := Balanced_unary (by decide : Opening "(".data)
      (Balanced_append (Balanced_append hx.2 ho) hy.2)
    simpa using hb

theorem WritesBalanced_DumpExprWithType {x : String → String} {tag : String}
    (ht : Balanced tag.data) (hx : WritesBalanced x) :
    WritesBalanced (DumpExprWithType tag x) := by
  have e : ∀ o, DumpExprWithType tag x o = o ++ ("(" ++ (tag ++ " " ++ x "") ++ ")") := by
    intro o
    unfold DumpExprWithType
    rw [hx.1]
    simp [String.append_assoc]
  refine ⟨fun o => by rw [e o, e ""]; simp, ?_⟩
  rw [e ""]
  have hb := Balanced_unary (by decide : Opening "(".data)
    (Balanced_append (Balanced_append ht (by decide : Balanced " ".data)) hx.2)
  simpa using hb

/-! ## The dump of integer expressions -/

theorem IntegerExpr_Dump_eq_referenceRendering {KIND : Nat} {C : Type} (textC : C → String)
    (e : IntegerExpr KIND C) (o : String) :
    IntegerExpr.Dump (appendText textC) e o = o ++ IntegerExpr.referenceRendering textC e := by
  induction e generalizing o with
  | Constant n => rfl
  | Convert c => rfl
  | Parentheses x ih => simp [IntegerExpr.Dump, IntegerExpr.referenceRendering, Unary.Dump, ih,
      String.append_assoc]
  | Negate x ih => simp [IntegerExpr.Dump, IntegerExpr.referenceRendering, Unary.Dump, ih,
      String.append_assoc]
  | Add x y ihx ihy => simp [IntegerExpr.Dump, IntegerExpr.referenceRendering, Binary.Dump, ihx,
      ihy, String.append_assoc]
  | Subtract x y ihx ihy => simp [IntegerExpr.Dump, IntegerExpr.referenceRendering, Binary.Dump,
      ihx, ihy, String.append_assoc]
  | Multiply x y ihx ihy => simp [IntegerExpr.Dump, IntegerExpr.referenceRendering, Binary.Dump,
      ihx, ihy, String.append_assoc]
  | Divide x y ihx ihy => simp [IntegerExpr.Dump, IntegerExpr.referenceRendering, Binary.Dump,
      ihx, ihy, String.append_assoc]
  | Power x y ihx ihy => simp [IntegerExpr.Dump, IntegerExpr.referenceRendering, Binary.Dump,
      ihx, ihy, String.append_assoc]

theorem SignedDecimal_ofNat_of_lt {bits n : Nat} (h : n < 2 ^ (bits - 1)) (hb : 0 < bits) :
    (Integer.ofNat bits n).SignedDecimal = Nat.repr n := by
  unfold Integer.SignedDecimal
  rw [Integer.ToInt_ofNat_of_lt h hb]
  simp

/-- C11, as stated, fails: the dump of the four-byte tree
`Parentheses(Add(Constant 1, Constant 2))` is the text `((1+2))`, not `(1+2)`. -/
theorem Dump_Parentheses_Add_not_single_pair :
    IntegerExpr.Dump (appendText (fun _ : Unit => ""))
      (IntegerExpr.Parentheses (IntegerExpr.Add (IntegerExpr.Constant (Integer.ofNat (8 * 4) 1))
        (IntegerExpr.Constant (Integer.ofNat (8 * 4) 2))) : IntegerExpr 4 Unit) "" = "((1+2))" ∧
    IntegerExpr.Dump (appendText (fun _ : Unit => ""))
      (IntegerExpr.Parentheses (IntegerExpr.Add (IntegerExpr.Constant (Integer.ofNat (8 * 4) 1))
        (IntegerExpr.Constant (Integer.ofNat (8 * 4) 2))) : IntegerExpr 4 Unit) "" ≠ "(1+2)" := by
  constructor <;> decide

/-- C11, amended: `IntegerExpr::Dump` applied to `Parentheses(Add(Constant 1, Constant 2))`
writes exactly the text `((1+2))`: the `Parentheses` node contributes its own opening and
closing parenthesis around the dump of its operand, and the `Add` node writes its own pair of
parentheses around the operands and the operator symbol, in operand order. -/
theorem Dump_Parentheses_Add (KIND : Nat) (C : Type) (h : 0 < KIND)
    (dumpC : C → String → String) (o : String) :
    IntegerExpr.Dump dumpC
      (IntegerExpr.Parentheses (IntegerExpr.Add (IntegerExpr.Constant (Integer.ofNat (8 * KIND) 1))
        (IntegerExpr.Constant (Integer.ofNat (8 * KIND) 2))) : IntegerExpr KIND C) o
      = o ++ "((1+2))" ∧
    (∀ x : IntegerExpr KIND C, IntegerExpr.Dump dumpC (IntegerExpr.Parentheses x) o
      = IntegerExpr.Dump dumpC x (o ++ "(") ++ ")") ∧
    (∀ x y : IntegerExpr KIND C, IntegerExpr.Dump dumpC (IntegerExpr.Add x y) o
      = IntegerExpr.Dump dumpC y (IntegerExpr.Dump dumpC x (o ++ "(") ++ "+") ++ ")") := by
  have hb : 0 < 8 * KIND := by omega
  have h128 : 2 ^ 7 ≤ 2 ^ (8 * KIND - 1) := Nat.pow_le_pow_right (by decide) (by omega)
  have h1 : (Integer.ofNat (8 * KIND) 1).SignedDecimal = "1" :=
    SignedDecimal_ofNat_of_lt (by omega) hb
  have h2 : (Integer.ofNat (8 * KIND) 2).SignedDecimal = "2" :=
    SignedDecimal_ofNat_of_lt (by omega) hb
  refine ⟨?_, fun _ => rfl, fun _ _ => rfl⟩
  simp only [IntegerExpr.Dump, Unary.Dump, Binary.Dump, h1, h2, String.append_assoc]
  rfl

/-- Instance of the amended C11 at four bytes, on an empty stream. -/
theorem Dump_Parentheses_Add_witness :
    0 < 4 ∧
    (IntegerExpr.Dump (appendText (fun _ : Unit => ""))
      (IntegerExpr.Parentheses (IntegerExpr.Add (IntegerExpr.Constant (Integer.ofNat (8 * 4) 1))
        (IntegerExpr.Constant (Integer.ofNat (8 * 4) 2))) : IntegerExpr 4 Unit) ""
      = "" ++ "((1+2))" ∧
    (∀ x : IntegerExpr 4 Unit,
      IntegerExpr.Dump (appendText (fun _ : Unit => "")) (IntegerExpr.Parentheses x) ""
      = IntegerExpr.Dump (appendText (fun _ : Unit => "")) x ("" ++ "(") ++ ")") ∧
    (∀ x y : IntegerExpr 4 Unit,
      IntegerExpr.Dump (appendText (fun _ : Unit => "")) (IntegerExpr.Add x y) ""
      = IntegerExpr.Dump (appendText (fun _ : Unit => "")) y
          (IntegerExpr.Dump (appendText (fun _ : Unit => "")) x ("" ++ "(") ++ "+") ++ ")")) :=
  ⟨by decide, Dump_Parentheses_Add 4 Unit (by decide) (appendText (fun _ : Unit => "")) ""⟩

/-- C12: for every integer expression tree, `IntegerExpr::Dump` puts at the end of the
stream exactly the reference rendering of the tree: a constant as its signed decimal text,
a unary node as its operator text (`(` for `Parentheses`, `(-` for `Negate`), the operand
and `)`, a binary node as `(`, the left operand, the operator text (`+`, `-`, `*`, `/`,
`**`), the right operand and `)`, left before right; a `Convert`, for which no operator
text exists, is the text of its operand. -/
theorem Dump_refines_referenceRendering (KIND : Nat) (C : Type) (textC : C → String)
    (e : IntegerExpr KIND C) (o : String) :
    IntegerExpr.Dump (appendText textC) e o = o ++ IntegerExpr.referenceRendering textC e :=
  IntegerExpr_Dump_eq_referenceRendering textC e o

/-- C14: for every supported integer precision and every integer tree of that precision,
`AnyIntegerExpr::Dump` of the wrapper holding the tree writes `(`, the type tag of the
tree's precision, one space, exactly the text `IntegerExpr::Dump` writes for the tree, and
`)`; the precision is one of 1, 2, 4, 8, 16, and the tag is the same for all trees of one
precision. -/
theorem AnyIntegerExpr_Dump_tagged (C : Type) (TypeDump : Category → Nat → String)
    (textC : C → String) (u : AnyIntegerExpr C) (o : String) :
    AnyIntegerExpr.Dump TypeDump (appendText textC) u o
      = o ++ "(" ++ TypeDump Category.Integer u.kind ++ " "
          ++ IntegerExpr.Dump (appendText textC) u.x "" ++ ")" ∧
    u.kind ∈ [1, 2, 4, 8, 16] ∧
    (∀ t : IntegerExpr 4 C,
      AnyIntegerExpr.Dump TypeDump (appendText textC) (KindVariant.mk 4 (by decide) t) o
        = o ++ "(" ++ TypeDump Category.Integer 4 ++ " "
            ++ IntegerExpr.Dump (appendText textC) t "" ++ ")") := by
  have key : ∀ w : AnyIntegerExpr C, AnyIntegerExpr.Dump TypeDump (appendText textC) w o
      = o ++ "(" ++ TypeDump Category.Integer w.kind ++ " "
          ++ IntegerExpr.Dump (appendText textC) w.x "" ++ ")" := by
    intro w
    unfold AnyIntegerExpr.Dump DumpExprWithType
    rw [IntegerExpr_Dump_eq_referenceRendering, IntegerExpr_Dump_eq_referenceRendering]
    simp [String.append_assoc]
  exact ⟨key u, u.supported, fun t => key _⟩

/-! ## Balance of the dump of each category -/

theorem IntegerExpr_Dump_WritesBalanced {KIND : Nat} {C : Type} {dumpC : C → String → String}
    (hC : ∀ c, WritesBalanced (dumpC c)) (e : IntegerExpr KIND C) :
    WritesBalanced (IntegerExpr.Dump dumpC e) := by
  induction e with
  | Constant n => exact WritesBalanced_text (Balanced_SignedDecimal n)
  | Convert c => exact hC c
  | Parentheses x ih => exact WritesBalanced_Unary (by decide) ih
  | Negate x ih => exact WritesBalanced_Unary (by decide) ih
  | Add x y ihx ihy => exact WritesBalanced_Binary (by decide) ihx ihy
  | Subtract x y ihx ihy => exact WritesBalanced_Binary (by decide) ihx ihy
  | Multiply x y ihx ihy => exact WritesBalanced_Binary (by decide) ihx ihy
  | Divide x y ihx ihy => exact WritesBalanced_Binary (by decide) ihx ihy
  | Power x y ihx ihy => exact WritesBalanced_Binary (by decide) ihx ihy

theorem RealExpr_Dump_WritesBalanced {KIND : Nat} {V C AI Z : Type} {hex : V → String}
    {dumpC : C → String → String} {dumpAI : AI → String → String}
    {dumpZ : Z → String → String} (hV : ∀ v, Balanced (hex v).data)
    (hC : ∀ c, WritesBalanced (dumpC c)) (hAI : ∀ a, WritesBalanced (dumpAI a))
    (hZ : ∀ z, WritesBalanced (dumpZ z)) (e : RealExpr KIND V C AI Z) :
    WritesBalanced (RealExpr.Dump hex dumpC dumpAI dumpZ e) := by
  induction e with
  | Constant n => exact WritesBalanced_text (hV n)
  | Convert c => exact hC c
  | Parentheses x ih => exact WritesBalanced_Unary (by decide) ih
  | Negate x ih => exact WritesBalanced_Unary (by decide) ih
  | Add x y ihx ihy => exact WritesBalanced_Binary (by decide) ihx ihy
  | Subtract x y ihx ihy => exact WritesBalanced_Binary (by decide) ihx ihy
  | Multiply x y ihx ihy => exact WritesBalanced_Binary (by decide) ihx ihy
  | Divide x y ihx ihy => exact WritesBalanced_Binary (by decide) ihx ihy
  | Power x y ihx ihy => exact WritesBalanced_Binary (by decide) ihx ihy
  | IntPower x y ih => exact WritesBalanced_Binary (by decide) ih (hAI y)
  | RealPart z => exact WritesBalanced_Unary (by decide) (hZ z)
  | AIMAG z => exact WritesBalanced_Unary (by decide) (hZ z)

theorem ComplexExpr_Dump_WritesBalanced {KIND : Nat} {V AI R : Type} {hex : V → String}
    {dumpAI : AI → String → String} {dumpR : R → String → String}
    (hV : ∀ v, Balanced (hex v).data) (hAI : ∀ a, WritesBalanced (dumpAI a))
    (hR : ∀ r, WritesBalanced (dumpR r)) (e : ComplexExpr KIND V AI R) :
    WritesBalanced (ComplexExpr.Dump hex dumpAI dumpR e) := by
  induction e with
  | Constant n => exact WritesBalanced_text (hV n)
  | Parentheses x ih => exact WritesBalanced_Unary (by decide) ih
  | Negate x ih => exact WritesBalanced_Unary (by decide) ih
  | Add x y ihx ihy => exact WritesBalanced_Binary (by decide) ihx ihy
  | Subtract x y ihx ihy => exact WritesBalanced_Binary (by decide) ihx ihy
  | Multiply x y ihx ihy => exact WritesBalanced_Binary (by decide) ihx ihy
  | Divide x y ihx ihy => exact WritesBalanced_Binary (by decide) ihx ihy
  | Power x y ihx ihy => exact WritesBalanced_Binary (by decide) ihx ihy
  | IntPower x y ih => exact WritesBalanced_Binary (by decide) ih (hAI y)
  | CMPLX x y => exact WritesBalanced_Binary (by decide) (hR x) (hR y)

theorem CharacterExpr_Dump_WritesBalanced {KIND : Nat} (e : CharacterExpr KIND)
    (h : e.LiteralsBalanced = true) : WritesBalanced (CharacterExpr.Dump e) := by
  induction e with
  | Constant s =>
    have hs : Balanced s.data := by simpa [CharacterExpr.LiteralsBalanced] using h
    have hq : Balanced quote.data := by decide
    refine ⟨fun o => ?_, ?_⟩
    · show o ++ quote ++ s ++ quote = o ++ ("" ++ quote ++ s ++ quote)
      simp [String.append_assoc]
    · show Balanced ("" ++ quote ++ s ++ quote).data
      simpa using Balanced_append (Balanced_append hq hs) hq
  | Concat x y ihx ihy =>
    simp only [CharacterExpr.LiteralsBalanced, Bool.and_eq_true] at h
    have hx := ihx h.1
    have hy := ihy h.2
    have e : ∀ o, CharacterExpr.Dump (CharacterExpr.Concat x y) o
        = o ++ (CharacterExpr.Dump x "" ++ "//" ++ CharacterExpr.Dump y "") := by
      intro o
      show CharacterExpr.Dump y (CharacterExpr.Dump x o ++ "//") = _
      rw [hy.1, hx.1 o]
      simp [String.append_assoc]
    refine ⟨fun o => by rw [e o, e ""]; simp, ?_⟩
    rw [e ""]
    simpa using Balanced_append (Balanced_append hx.2 (by decide : Balanced "//".data)) hy.2

theorem Comparison_Dump_WritesBalanced {T : Type} {dumpT : T → String → String}
    (c : Comparison T) (hx : WritesBalanced (dumpT c.x)) (hy : WritesBalanced (dumpT c.y)) :
    WritesBalanced (Comparison.Dump dumpT c) := by
  cases c <;> exact WritesBalanced_Binary (by decide) hx hy

theorem ComparisonOfComplex_Dump_WritesBalanced {T : Type} {dumpT : T → String → String}
    (hT : ∀ t, WritesBalanced (dumpT t)) (c : ComparisonOfComplex T) :
    WritesBalanced (ComparisonOfComplex.Dump dumpT c) := by
  cases c <;> exact WritesBalanced_Binary (by decide) (hT _) (hT _)

theorem LogicalExpr_Dump_WritesBalanced {IC RC ZC CC : Type} {dumpIC : IC → String → String}
    {dumpRC : RC → String → String} {dumpZC : ZC → String → String}
    {dumpCC : CC → String → String} (hIC : ∀ c, WritesBalanced (dumpIC c))
    (hRC : ∀ c, WritesBalanced (dumpRC c)) (hZC : ∀ c, WritesBalanced (dumpZC c))
    (hCC : ∀ c, WritesBalanced (dumpCC c)) (e : LogicalExpr IC RC ZC CC) :
    WritesBalanced (LogicalExpr.Dump dumpIC dumpRC dumpZC dumpCC e) := by
  induction e with
  | Constant tf =>
    cases tf
    · exact WritesBalanced_text (by decide : Balanced ".F.".data)
    · exact WritesBalanced_text (by decide : Balanced ".T.".data)
  | Not x ih => exact WritesBalanced_Unary (by decide) ih
  | And x y ihx ihy => exact WritesBalanced_Binary (by decide) ihx ihy
  | Or x y ihx ihy => exact WritesBalanced_Binary (by decide) ihx ihy
  | Eqv x y ihx ihy => exact WritesBalanced_Binary (by decide) ihx ihy
  | Neqv x y ihx ihy => exact WritesBalanced_Binary (by decide) ihx ihy
  | IntegerComparison c => exact hIC c
  | RealComparison c => exact hRC c
  | ComplexComparison c => exact hZC c
  | CharacterComparison c => exact hCC c

/-- C13, as stated, fails: the dump of the character literal `)` is the three characters
quote, `)`, quote, a text with one closing and no opening parenthesis; the dump of the
character wrapper holding that literal is the same text. -/
theorem Dump_character_literal_not_balanced :
    (CharacterExpr.Dump (CharacterExpr.Constant ")" : CharacterExpr 1) "").data
      = [Char.ofNat 34, ')', Char.ofNat 34] ∧
    (CharacterExpr.Dump (CharacterExpr.Constant ")" : CharacterExpr 1) "").data.count '(' = 0 ∧
    (CharacterExpr.Dump (CharacterExpr.Constant ")" : CharacterExpr 1) "").data.count ')' = 1 ∧
    ¬ Balanced (CharacterExpr.Dump (CharacterExpr.Constant ")" : CharacterExpr 1) "").data ∧
    ¬ Balanced (AnyCharacterExpr.Dump
      (KindVariant.mk 1 (by decide) (CharacterExpr.Constant ")")) "").data := by
  refine ⟨by decide, by decide, by decide, by decide, by decide⟩

/-- C13, amended: in every category the `Dump` of every expression tree puts one balanced
text at the end of the stream (as many opening as closing parentheses, no prefix with more
closing than opening ones), provided that the type tags, the texts of the real and complex
constants and the character literals of the tree are balanced texts and that the operands
of other types (`Convert` operands, integer exponents, complex and real operands, character
comparisons inside a logical expression) write balanced texts.  The categories are the
integer, real, complex and character trees, the logical trees, the four comparison
variants and the four precision-erased wrappers. -/
theorem Dump_balanced (V VZ C AI Z R CC : Type) (TypeDump : Category → Nat → String)
    (hexR : V → String) (hexZ : VZ → String) (dumpC : C → String → String)
    (dumpAI : AI → String → String) (dumpZ : Z → String → String)
    (dumpR : R → String → String) (dumpCC : CC → String → String)
    (hTag : ∀ c k, Balanced (TypeDump c k).data)
    (hV : ∀ v, Balanced (hexR v).data) (hVZ : ∀ v, Balanced (hexZ v).data)
    (hC : ∀ c, WritesBalanced (dumpC c)) (hAI : ∀ a, WritesBalanced (dumpAI a))
    (hZ : ∀ z, WritesBalanced (dumpZ z)) (hR : ∀ r, WritesBalanced (dumpR r))
    (hCC : ∀ c, WritesBalanced (dumpCC c)) :
    (∀ (KIND : Nat) (e : IntegerExpr KIND C), WritesBalanced (IntegerExpr.Dump dumpC e)) ∧
    (∀ (KIND : Nat) (e : RealExpr KIND V C AI Z),
      WritesBalanced (RealExpr.Dump hexR dumpC dumpAI dumpZ e)) ∧
    (∀ (KIND : Nat) (e : ComplexExpr KIND VZ AI R),
      WritesBalanced (ComplexExpr.Dump hexZ dumpAI dumpR e)) ∧
    (∀ (KIND : Nat) (e : CharacterExpr KIND), e.LiteralsBalanced = true →
      WritesBalanced (CharacterExpr.Dump e)) ∧
    (∀ e : LogicalExpr (IntegerComparison C) (RealComparison V C AI Z)
        (ComplexComparison VZ AI R) CC,
      WritesBalanced (LogicalExpr.Dump (IntegerComparison.Dump dumpC)
        (RealComparison.Dump hexR dumpC dumpAI dumpZ)
        (ComplexComparison.Dump hexZ dumpAI dumpR) dumpCC e)) ∧
    (∀ u : IntegerComparison C, WritesBalanced (IntegerComparison.Dump dumpC u)) ∧
    (∀ u : RealComparison V C AI Z,
      WritesBalanced (RealComparison.Dump hexR dumpC dumpAI dumpZ u)) ∧
    (∀ u : ComplexComparison VZ AI R,
      WritesBalanced (ComplexComparison.Dump hexZ dumpAI dumpR u)) ∧
    (∀ u : CharacterComparison, u.x.x.LiteralsBalanced = true → u.x.y.LiteralsBalanced = true →
      WritesBalanced (CharacterComparison.Dump u)) ∧
    (∀ u : AnyIntegerExpr C, WritesBalanced (AnyIntegerExpr.Dump TypeDump dumpC u)) ∧
    (∀ u : AnyRealExpr V C AI Z,
      WritesBalanced (AnyRealExpr.Dump TypeDump hexR dumpC dumpAI dumpZ u)) ∧
    (∀ u : AnyCharacterExpr, u.x.LiteralsBalanced = true →
      WritesBalanced (AnyCharacterExpr.Dump u)) ∧
    (∀ u : AnyIntegerOrRealExpr (AnyIntegerExpr C) (AnyRealExpr V C AI Z),
      WritesBalanced (AnyIntegerOrRealExpr.Dump (AnyIntegerExpr.Dump TypeDump dumpC)
        (AnyRealExpr.Dump TypeDump hexR dumpC dumpAI dumpZ) u)) := by
  have hI : ∀ (KIND : Nat) (e : IntegerExpr KIND C), WritesBalanced (IntegerExpr.Dump dumpC e) :=
    fun _ e => IntegerExpr_Dump_WritesBalanced hC e
  have hRe : ∀ (KIND : Nat) (e : RealExpr KIND V C AI Z),
      WritesBalanced (RealExpr.Dump hexR dumpC dumpAI dumpZ e) :=
    fun _ e => RealExpr_Dump_WritesBalanced hV hC hAI hZ e
  have hZe : ∀ (KIND : Nat) (e : ComplexExpr KIND VZ AI R),
      WritesBalanced (ComplexExpr.Dump hexZ dumpAI dumpR e) :=
    fun _ e => ComplexExpr_Dump_WritesBalanced hVZ hAI hR e
  have hIC : ∀ u : IntegerComparison C, WritesBalanced (IntegerComparison.Dump dumpC u) :=
    fun u => Comparison_Dump_WritesBalanced u.x (hI _ _) (hI _ _)
  have hRC : ∀ u : RealComparison V C AI Z,
      WritesBalanced (RealComparison.Dump hexR dumpC dumpAI dumpZ u) :=
    fun u => Comparison_Dump_WritesBalanced u.x (hRe _ _) (hRe _ _)
  have hZC : ∀ u : ComplexComparison VZ AI R,
      WritesBalanced (ComplexComparison.Dump hexZ dumpAI dumpR u) :=
    fun u => ComparisonOfComplex_Dump_WritesBalanced (hZe _) u.x
  have hAIE : ∀ u : AnyIntegerExpr C, WritesBalanced (AnyIntegerExpr.Dump TypeDump dumpC u) :=
    fun u => WritesBalanced_DumpExprWithType (hTag _ _) (hI _ _)
  have hARE : ∀ u : AnyRealExpr V C AI Z,
      WritesBalanced (AnyRealExpr.Dump TypeDump hexR dumpC dumpAI dumpZ u) :=
    fun u => WritesBalanced_DumpExprWithType (hTag _ _) (hRe _ _)
  refine ⟨hI, hRe, hZe, fun _ e he => CharacterExpr_Dump_WritesBalanced e he,
    fun e => LogicalExpr_Dump_WritesBalanced hIC hRC hZC hCC e, hIC, hRC, hZC, ?_, hAIE, hARE,
    fun u hu => CharacterExpr_Dump_WritesBalanced u.x hu, ?_⟩
  · intro u hx hy
    exact Comparison_Dump_WritesBalanced u.x (CharacterExpr_Dump_WritesBalanced _ hx)
      (CharacterExpr_Dump_WritesBalanced _ hy)
  · intro u
    cases u with
    | integer x => exact hAIE x
    | real x => exact hARE x

/-- Instance of the amended C13: natural numbers as constants, rendered in decimal, the
precision in decimal as type tag, and one-valued operand types that write `(x)`. -/
theorem Dump_balanced_witness :
    (∀ (c : Category) (k : Nat), Balanced (sampleTypeDump c k).data) ∧
    (∀ v, Balanced (Nat.repr v).data) ∧
    (∀ v, Balanced (Nat.repr v).data) ∧
    (∀ c, WritesBalanced (sampleOperand c)) ∧
    (∀ a, WritesBalanced (sampleOperand a)) ∧
    (∀ z, WritesBalanced (sampleOperand z)) ∧
    (∀ r, WritesBalanced (sampleOperand r)) ∧
    (∀ c, WritesBalanced (sampleOperand c)) ∧
    ((∀ (KIND : Nat) (e : IntegerExpr KIND Unit),
      WritesBalanced (IntegerExpr.Dump sampleOperand e)) ∧
    (∀ (KIND : Nat) (e : RealExpr KIND Nat Unit Unit Unit),
      WritesBalanced (RealExpr.Dump Nat.repr sampleOperand sampleOperand sampleOperand e)) ∧
    (∀ (KIND : Nat) (e : ComplexExpr KIND Nat Unit Unit),
      WritesBalanced (ComplexExpr.Dump Nat.repr sampleOperand sampleOperand e)) ∧
    (∀ (KIND : Nat) (e : CharacterExpr KIND), e.LiteralsBalanced = true →
      WritesBalanced (CharacterExpr.Dump e)) ∧
    (∀ e : LogicalExpr (IntegerComparison Unit) (RealComparison Nat Unit Unit Unit)
        (ComplexComparison Nat Unit Unit) Unit,
      WritesBalanced (LogicalExpr.Dump (IntegerComparison.Dump sampleOperand)
        (RealComparison.Dump Nat.repr sampleOperand sampleOperand sampleOperand)
        (ComplexComparison.Dump Nat.repr sampleOperand sampleOperand) sampleOperand e)) ∧
    (∀ u : IntegerComparison Unit, WritesBalanced (IntegerComparison.Dump sampleOperand u)) ∧
    (∀ u : RealComparison Nat Unit Unit Unit,
      WritesBalanced (RealComparison.Dump Nat.repr sampleOperand sampleOperand sampleOperand u)) ∧
    (∀ u : ComplexComparison Nat Unit Unit,
      WritesBalanced (ComplexComparison.Dump Nat.repr sampleOperand sampleOperand u)) ∧
    (∀ u : CharacterComparison, u.x.x.LiteralsBalanced = true → u.x.y.LiteralsBalanced = true →
      WritesBalanced (CharacterComparison.Dump u)) ∧
    (∀ u : AnyIntegerExpr Unit,
      WritesBalanced (AnyIntegerExpr.Dump sampleTypeDump sampleOperand u)) ∧
    (∀ u : AnyRealExpr Nat Unit Unit Unit,
      WritesBalanced (AnyRealExpr.Dump sampleTypeDump Nat.repr sampleOperand sampleOperand
        sampleOperand u)) ∧
    (∀ u : AnyCharacterExpr, u.x.LiteralsBalanced = true →
      WritesBalanced (AnyCharacterExpr.Dump u)) ∧
    (∀ u : AnyIntegerOrRealExpr (AnyIntegerExpr Unit) (AnyRealExpr Nat Unit Unit Unit),
      WritesBalanced (AnyIntegerOrRealExpr.Dump (AnyIntegerExpr.Dump sampleTypeDump sampleOperand)
        (AnyRealExpr.Dump sampleTypeDump Nat.repr sampleOperand sampleOperand sampleOperand) u))) :=
  ⟨fun _ k => Balanced_repr k, Balanced_repr, Balanced_repr,
    fun c => WritesBalanced_appendText c (by decide),
    fun c => WritesBalanced_appendText c (by decide),
    fun c => WritesBalanced_appendText c (by decide),
    fun c => WritesBalanced_appendText c (by decide),
    fun c => WritesBalanced_appendText c (by decide),
    Dump_balanced Nat Nat Unit Unit Unit Unit Unit sampleTypeDump Nat.repr Nat.repr
      sampleOperand sampleOperand sampleOperand sampleOperand sampleOperand
      (fun _ k => Balanced_repr k) Balanced_repr Balanced_repr
      (fun c => WritesBalanced_appendText c (by decide))
      (fun c => WritesBalanced_appendText c (by decide))
      (fun c => WritesBalanced_appendText c (by decide))
      (fun c => WritesBalanced_appendText c (by decide))
      (fun c => WritesBalanced_appendText c (by decide))⟩

/-- C15, as stated, fails: the dump of the character wrapper that holds the literal `a` is
just the dump of the wrapped character tree, the three characters quote, `a`, quote, and it
does not begin with a bracketed tag. -/
theorem AnyCharacterExpr_Dump_has_no_tag :
    AnyCharacterExpr.Dump (KindVariant.mk 1 (by decide) (CharacterExpr.Constant "a")) ""
      = CharacterExpr.Dump (CharacterExpr.Constant "a" : CharacterExpr 1) "" ∧
    (AnyCharacterExpr.Dump (KindVariant.mk 1 (by decide) (CharacterExpr.Constant "a")) "").data
      = [Char.ofNat 34, 'a', Char.ofNat 34] ∧
    (AnyCharacterExpr.Dump (KindVariant.mk 1 (by decide)
      (CharacterExpr.Constant "a")) "").data.head? ≠ some '(' := by
  refine ⟨by decide, by decide, by decide⟩

/-- C15, amended: the integer and the real wrapper write `(`, the type tag of the wrapped
tree's declared result type and one space, then the wrapped tree dumps itself, then they
write `)`; the integer-or-real wrapper writes exactly what the integer or real wrapper it
holds writes, so its text begins with the same tag; the character wrapper writes exactly the
dump of the wrapped character tree, without a tag. -/
theorem Any_wrappers_Dump (V C AI Z : Type) (TypeDump : Category → Nat → String)
    (hexR : V → String) (dumpC : C → String → String) (dumpAI : AI → String → String)
    (dumpZ : Z → String → String) (o : String) :
    (∀ u : AnyIntegerExpr C, AnyIntegerExpr.Dump TypeDump dumpC u o
      = IntegerExpr.Dump dumpC u.x (o ++ "(" ++ TypeDump Category.Integer u.kind ++ " ")
          ++ ")") ∧
    (∀ u : AnyRealExpr V C AI Z, AnyRealExpr.Dump TypeDump hexR dumpC dumpAI dumpZ u o
      = RealExpr.Dump hexR dumpC dumpAI dumpZ u.x
          (o ++ "(" ++ TypeDump Category.Real u.kind ++ " ") ++ ")") ∧
    (∀ x : AnyIntegerExpr C,
      AnyIntegerOrRealExpr.Dump (AnyIntegerExpr.Dump TypeDump dumpC)
        (AnyRealExpr.Dump TypeDump hexR dumpC dumpAI dumpZ)
        (AnyIntegerOrRealExpr.integer x : AnyIntegerOrRealExpr _ (AnyRealExpr V C AI Z)) o
      = AnyIntegerExpr.Dump TypeDump dumpC x o) ∧
    (∀ x : AnyRealExpr V C AI Z,
      AnyIntegerOrRealExpr.Dump (AnyIntegerExpr.Dump TypeDump dumpC)
        (AnyRealExpr.Dump TypeDump hexR dumpC dumpAI dumpZ)
        (AnyIntegerOrRealExpr.real x : AnyIntegerOrRealExpr (AnyIntegerExpr C) _) o
      = AnyRealExpr.Dump TypeDump hexR dumpC dumpAI dumpZ x o) ∧
    (∀ u : AnyCharacterExpr, AnyCharacterExpr.Dump u o = CharacterExpr.Dump u.x o) :=
  ⟨fun _ => rfl, fun _ => rfl, fun _ => rfl, fun _ => rfl, fun _ => rfl⟩

/-- C16, as stated, fails: the tokens written for the logical constants, `.T.` and `.F.`,
have three characters each, not two. -/
theorem LogicalExpr_Dump_constant_three_characters :
    LogicalExpr.Dump sampleOperand sampleOperand sampleOperand sampleOperand
      (LogicalExpr.Constant true) "" = ".T." ∧
    LogicalExpr.Dump sampleOperand sampleOperand sampleOperand sampleOperand
      (LogicalExpr.Constant false) "" = ".F." ∧
    (LogicalExpr.Dump sampleOperand sampleOperand sampleOperand sampleOperand
      (LogicalExpr.Constant true) "").length ≠ 2 ∧
    (LogicalExpr.Dump sampleOperand sampleOperand sampleOperand sampleOperand
      (LogicalExpr.Constant false) "").length ≠ 2 := by
  refine ⟨by decide, by decide, by decide, by decide⟩

/-- C16, amended: `LogicalExpr::Dump` renders each logical constant as a fixed token of
exactly three characters, `.T.` for true and the different token `.F.` for false, and
renders the connectives and comparisons with fixed operator text: `Not` as `(`, `.NOT.`,
the operand and `)`; `And`, `Or`, `Eqv`, `Neqv` and the comparisons `LT`, `LE`, `EQ`, `NE`,
`GE`, `GT` as `(`, the left operand, the operator text `.AND.`, `.OR.`, `.EQV.`, `.NEQV.`,
`.LT.`, `.LE.`, `.EQ.`, `.NE.`, `.GE.`, `.GT.`, the right operand and `)`; the eleven
operator texts are pairwise different. -/
theorem LogicalExpr_Dump_tokens (IC RC ZC CC T : Type) (dumpIC : IC → String → String)
    (dumpRC : RC → String → String) (dumpZC : ZC → String → String)
    (dumpCC : CC → String → String) (dumpT : T → String → String) (o : String) :
    (LogicalExpr.Dump dumpIC dumpRC dumpZC dumpCC (LogicalExpr.Constant true) o = o ++ ".T." ∧
      LogicalExpr.Dump dumpIC dumpRC dumpZC dumpCC (LogicalExpr.Constant false) o = o ++ ".F." ∧
      ".T.".length = 3 ∧ ".F.".length = 3 ∧ ".T." ≠ ".F.") ∧
    (∀ x : LogicalExpr IC RC ZC CC,
      LogicalExpr.Dump dumpIC dumpRC dumpZC dumpCC (LogicalExpr.Not x) o
        = LogicalExpr.Dump dumpIC dumpRC dumpZC dumpCC x (o ++ ("(" ++ ".NOT.")) ++ ")") ∧
    (∀ x y : LogicalExpr IC RC ZC CC,
      LogicalExpr.Dump dumpIC dumpRC dumpZC dumpCC (LogicalExpr.And x y) o
        = LogicalExpr.Dump dumpIC dumpRC dumpZC dumpCC y
            (LogicalExpr.Dump dumpIC dumpRC dumpZC dumpCC x (o ++ "(") ++ ".AND.") ++ ")" ∧
      LogicalExpr.Dump dumpIC dumpRC dumpZC dumpCC (LogicalExpr.Or x y) o
        = LogicalExpr.Dump dumpIC dumpRC dumpZC dumpCC y
            (LogicalExpr.Dump dumpIC dumpRC dumpZC dumpCC x (o ++ "(") ++ ".OR.") ++ ")" ∧
      LogicalExpr.Dump dumpIC dumpRC dumpZC dumpCC (LogicalExpr.Eqv x y) o
        = LogicalExpr.Dump dumpIC dumpRC dumpZC dumpCC y
            (LogicalExpr.Dump dumpIC dumpRC dumpZC dumpCC x (o ++ "(") ++ ".EQV.") ++ ")" ∧
      LogicalExpr.Dump dumpIC dumpRC dumpZC dumpCC (LogicalExpr.Neqv x y) o
        = LogicalExpr.Dump dumpIC dumpRC dumpZC dumpCC y
            (LogicalExpr.Dump dumpIC dumpRC dumpZC dumpCC x (o ++ "(") ++ ".NEQV.") ++ ")") ∧
    (∀ x y : T,
      Comparison.Dump dumpT (Comparison.LT x y) o = dumpT y (dumpT x (o ++ "(") ++ ".LT.") ++ ")" ∧
      Comparison.Dump dumpT (Comparison.LE x y) o = dumpT y (dumpT x (o ++ "(") ++ ".LE.") ++ ")" ∧
      Comparison.Dump dumpT (Comparison.EQ x y) o = dumpT y (dumpT x (o ++ "(") ++ ".EQ.") ++ ")" ∧
      Comparison.Dump dumpT (Comparison.NE x y) o = dumpT y (dumpT x (o ++ "(") ++ ".NE.") ++ ")" ∧
      Comparison.Dump dumpT (Comparison.GE x y) o = dumpT y (dumpT x (o ++ "(") ++ ".GE.") ++ ")" ∧
      Comparison.Dump dumpT (Comparison.GT x y) o = dumpT y (dumpT x (o ++ "(") ++ ".GT.") ++ ")" ∧
      ComparisonOfComplex.Dump dumpT (ComparisonOfComplex.EQ x y) o
        = dumpT y (dumpT x (o ++ "(") ++ ".EQ.") ++ ")" ∧
      ComparisonOfComplex.Dump dumpT (ComparisonOfComplex.NE x y) o
        = dumpT y (dumpT x (o ++ "(") ++ ".NE.") ++ ")") ∧
    [".NOT.", ".AND.", ".OR.", ".EQV.", ".NEQV.", ".LT.", ".LE.", ".EQ.", ".NE.", ".GE.",
      ".GT."].Nodup := by
  refine ⟨⟨rfl, rfl, by decide, by decide, by decide⟩, fun x => ?_,
    fun x y => ⟨rfl, rfl, rfl, rfl⟩, fun x y => ⟨rfl, rfl, rfl, rfl, rfl, rfl, rfl, rfl⟩,
    by decide⟩
  show LogicalExpr.Dump dumpIC dumpRC dumpZC dumpCC x (o ++ "(.NOT.") ++ ")" = _
  rfl

/-! ## Folding as wrapped evaluation, and repeated folding -/

namespace IntegerExpr

variable {KIND : Nat} {C : Type}

/-- A tree built from `Constant`, `Negate`, `Add` and `Multiply` alone folds, with a defined
result, to the constant whose signed value is the value of the tree under wrapped
evaluation. -/
theorem Fold_wrappedValue (h : 0 < KIND) (loc : CharBlock) (e : IntegerExpr KIND C)
    (he : OnlyNegateAddMultiply e = true) (m : Option Messages) :
    ∃ (c : Integer (8 * KIND)) (m1 : Option Messages),
      wrappedValue e = some c.ToInt ∧ Fold loc e m = some (Constant c, m1) := by
  have hb : 0 < 8 * KIND := by omega
  induction e generalizing m with
  | Constant c => exact ⟨c, m, rfl, by simp [Fold]⟩
  | Convert x => simp [OnlyNegateAddMultiply] at he
  | Parentheses x _ => simp [OnlyNegateAddMultiply] at he
  | Negate x ih =>
    obtain ⟨c, m1, hv, hf⟩ := ih (by simpa [OnlyNegateAddMultiply] using he) m
    refine ⟨c.Negate.value, _, ?_,
      (Fold_Negate_some loc x m _).2 ⟨_, hf, Or.inl ⟨_, rfl, rfl⟩⟩⟩
    simp only [wrappedValue, hv, Option.map_some', Integer.Negate]
    rw [Integer.ToInt_ofInt hb]
  | Add x y ihx ihy =>
    simp only [OnlyNegateAddMultiply, Bool.and_eq_true] at he
    obtain ⟨a, ma, ha, hfa⟩ := ihx he.1 m
    obtain ⟨b, mb, hb2, hfb⟩ := ihy he.2 ma
    refine ⟨(a.AddSigned b).value, _, ?_,
      (Fold_Add_some loc x y m _).2 ⟨_, _, hfa, hfb, Or.inl ⟨_, _, rfl, rfl, rfl⟩⟩⟩
    simp only [wrappedValue, ha, hb2, Integer.AddSigned]
    rw [Integer.ToInt_ofInt hb]
  | Multiply x y ihx ihy =>
    simp only [OnlyNegateAddMultiply, Bool.and_eq_true] at he
    obtain ⟨a, ma, ha, hfa⟩ := ihx he.1 m
    obtain ⟨b, mb, hb2, hfb⟩ := ihy he.2 ma
    refine ⟨(a.MultiplySigned b).lower, _, ?_,
      (Fold_Multiply_some loc x y m _).2 ⟨_, _, hfa, hfb, Or.inl ⟨_, _, rfl, rfl, rfl⟩⟩⟩
    simp only [wrappedValue, ha, hb2]
    rw [Integer.MultiplySigned_lower, Integer.ToInt_ofInt hb]
  | Subtract x y _ _ => simp [OnlyNegateAddMultiply] at he
  | Divide x y _ _ => simp [OnlyNegateAddMultiply] at he
  | Power x y _ _ => simp [OnlyNegateAddMultiply] at he

/-- A tree built from `Constant`, `Parentheses`, `Negate`, `Add` and `Multiply` that has a
`Parentheses` node has no defined folding. -/
theorem Fold_undefined_of_Parentheses (loc : CharBlock) (e : IntegerExpr KIND C)
    (he : OnlyFoldedOperators e = true) (hp : OnlyNegateAddMultiply e = false)
    (m : Option Messages) : Fold loc e m = none := by
  induction e generalizing m with
  | Constant c => simp [OnlyNegateAddMultiply] at hp
  | Convert x => simp [OnlyFoldedOperators] at he
  | Parentheses x ih =>
    simp only [OnlyFoldedOperators] at he
    apply (Fold_Parentheses_none loc x m).2
    cases hx : OnlyNegateAddMultiply x with
    | false => exact Or.inl (ih he hx m)
    | true =>
      obtain ⟨v, m1, _, hf⟩ := Fold_of_OnlyNegateAddMultiply loc x hx m
      exact Or.inr ⟨_, m1, hf⟩
  | Negate x ih =>
    simp only [OnlyFoldedOperators] at he
    simp only [OnlyNegateAddMultiply] at hp
    simp [Fold, ih he hp m]
  | Add x y ihx ihy =>
    simp only [OnlyFoldedOperators, Bool.and_eq_true] at he
    simp only [OnlyNegateAddMultiply] at hp
    cases hx : OnlyNegateAddMultiply x with
    | false => simp [Fold, ihx he.1 hx m]
    | true =>
      rw [hx, Bool.true_and] at hp
      obtain ⟨v, m1, _, hf⟩ := Fold_of_OnlyNegateAddMultiply loc x hx m
      simp [Fold, hf, ihy he.2 hp m1]
  | Multiply x y ihx ihy =>
    simp only [OnlyFoldedOperators, Bool.and_eq_true] at he
    simp only [OnlyNegateAddMultiply] at hp
    cases hx : OnlyNegateAddMultiply x with
    | false => simp [Fold, ihx he.1 hx m]
    | true =>
      rw [hx, Bool.true_and] at hp
      obtain ⟨v, m1, _, hf⟩ := Fold_of_OnlyNegateAddMultiply loc x hx m
      simp [Fold, hf, ihy he.2 hp m1]
  | Subtract x y _ _ => simp [OnlyFoldedOperators] at he
  | Divide x y _ _ => simp [OnlyFoldedOperators] at he
  | Power x y _ _ => simp [OnlyFoldedOperators] at he

/-- With a sink, a `Fold` that has a defined result only appends, and at most one
diagnostic for each `Negate`, `Add` and `Multiply` node. -/
theorem Fold_appends (loc : CharBlock) (e : IntegerExpr KIND C) (ms : Messages)
    (r : IntegerExpr KIND C × Option Messages) (h : Fold loc e (some ms) = some r) :
    ∃ ds : List Message, r.2 = some (ms ++ ds) ∧ ds.length ≤ countFoldingNodes e := by
  induction e generalizing ms r with
  | Constant c =>
    simp only [Fold, Option.some.injEq] at h
    exact ⟨[], by simp [← h], by simp⟩
  | Convert x =>
    simp only [Fold, Option.some.injEq] at h
    exact ⟨[], by simp [← h], by simp⟩
  | Parentheses x ih =>
    obtain ⟨rx, hx, _, hr⟩ := (Fold_Parentheses_some loc x (some ms) r).1 h
    obtain ⟨ds, h1, h2⟩ := ih ms rx hx
    exact ⟨ds, by rw [hr]; exact h1, by simpa [countFoldingNodes] using h2⟩
  | Negate x ih =>
    obtain ⟨rx, hx, hcase⟩ := (Fold_Negate_some loc x (some ms) r).1 h
    obtain ⟨ds, h1, h2⟩ := ih ms rx hx
    simp only [countFoldingNodes]
    rcases hcase with ⟨c, _, hr⟩ | ⟨_, hr⟩
    · rw [hr]
      simp only [h1, sayIfOverflow_some]
      split
      · exact ⟨ds ++ [Message.mk loc "integer negation overflowed"], by simp, by simp; omega⟩
      · exact ⟨ds, rfl, by omega⟩
    · rw [hr]
      exact ⟨ds, h1, by omega⟩
  | Add x y ihx ihy =>
    obtain ⟨rx, ry, hx, hy, hcase⟩ := (Fold_Add_some loc x y (some ms) r).1 h
    obtain ⟨dx, hx1, hx2⟩ := ihx ms rx hx
    rw [hx1] at hy
    obtain ⟨dy, hy1, hy2⟩ := ihy (ms ++ dx) ry hy
    simp only [countFoldingNodes]
    rcases hcase with ⟨xc, yc, _, _, hr⟩ | ⟨_, hr⟩
    · rw [hr]
      simp only [hy1, sayIfOverflow_some]
      split
      · exact ⟨dx ++ dy ++ [Message.mk loc "integer addition overflowed"], by simp,
          by simp; omega⟩
      · exact ⟨dx ++ dy, by simp, by simp; omega⟩
    · rw [hr]
      exact ⟨dx ++ dy, by simp [hy1], by simp; omega⟩
  | Multiply x y ihx ihy =>
    obtain ⟨rx, ry, hx, hy, hcase⟩ := (Fold_Multiply_some loc x y (some ms) r).1 h
    obtain ⟨dx, hx1, hx2⟩ := ihx ms rx hx
    rw [hx1] at hy
    obtain ⟨dy, hy1, hy2⟩ := ihy (ms ++ dx) ry hy
    simp only [countFoldingNodes]
    rcases hcase with ⟨xc, yc, _, _, hr⟩ | ⟨_, hr⟩
    · rw [hr]
      simp only [hy1, sayIfOverflow_some]
      split
      · exact ⟨dx ++ dy ++ [Message.mk loc "integer multiplication overflowed"], by simp,
          by simp; omega⟩
      · exact ⟨dx ++ dy, by simp, by simp; omega⟩
    · rw [hr]
      exact ⟨dx ++ dy, by simp [hy1], by simp; omega⟩
  | Subtract x y _ _ =>
    simp only [Fold, Option.some.injEq] at h
    exact ⟨[], by simp [← h], by simp⟩
  | Divide x y _ _ =>
    simp only [Fold, Option.some.injEq] at h
    exact ⟨[], by simp [← h], by simp⟩
  | Power x y _ _ =>
    simp only [Fold, Option.some.injEq] at h
    exact ⟨[], by simp [← h], by simp⟩

end IntegerExpr

open IntegerExpr in
/-- C17: the code against the claim that `Fold` rewrites every tree built only from
`Constant`, `Parentheses`, `Negate`, `Add` and `Multiply` nodes to the `Constant` of its
value under wrapped evaluation.  The one-byte tree `Parentheses(Constant 5)` is such a tree
and its wrapped value is 5, yet `Fold` has no defined result on it; and so it is for every
tree of that class that has a `Parentheses` node, since the `Parentheses` case reads the
constant after the assignment has destroyed it.  For every tree built only from `Constant`,
`Negate`, `Add` and `Multiply` nodes the claim holds: `Fold` has a defined result and
rewrites the root to a `Constant` whose signed value equals the value of the tree under
two's-complement wrapped evaluation at the width, whatever the sink is and whether or not
an intermediate operation overflowed; so the one-byte tree
`Negate(Add(Constant 100, Multiply(Constant 20, Constant 10)))`, in which the product and
the sum overflow, folds to the constant `-44`. -/
theorem Fold_wrapped_evaluation_without_Parentheses (KIND : Nat) (C : Type) (loc : CharBlock)
    (m : Option Messages) (T : IntegerExpr KIND C) :
    (OnlyFoldedOperators (Parentheses (Constant (Integer.ofNat (8 * 1) 5))
        : IntegerExpr 1 C) = true ∧
      wrappedValue (Parentheses (Constant (Integer.ofNat (8 * 1) 5)) : IntegerExpr 1 C)
        = some 5 ∧
      Fold loc (Parentheses (Constant (Integer.ofNat (8 * 1) 5)) : IntegerExpr 1 C) m
        = none) ∧
    (OnlyFoldedOperators T = true → OnlyNegateAddMultiply T = false → Fold loc T m = none) ∧
    (0 < KIND → OnlyNegateAddMultiply T = true →
      ∃ (v : Int) (c : Integer (8 * KIND)) (m1 : Option Messages),
        wrappedValue T = some v ∧ Fold loc T m = some (Constant c, m1) ∧ c.ToInt = v) ∧
    (wrappedValue (Negate (Add (Constant (Integer.ofNat (8 * 1) 100))
        (Multiply (Constant (Integer.ofNat (8 * 1) 20)) (Constant (Integer.ofNat (8 * 1) 10))))
        : IntegerExpr 1 C) = some (-44) ∧
      (Fold loc (Negate (Add (Constant (Integer.ofNat (8 * 1) 100))
        (Multiply (Constant (Integer.ofNat (8 * 1) 20)) (Constant (Integer.ofNat (8 * 1) 10))))
        : IntegerExpr 1 C) m).map Prod.fst = some (Constant (Integer.ofInt (8 * 1) (-44))) ∧
      (Integer.ofInt (8 * 1) (-44)).ToInt = -44) := by
  refine ⟨⟨rfl, rfl, by simp [Fold]⟩, fun he hp => Fold_undefined_of_Parentheses loc T he hp m,
    fun h hT => ?_, rfl, (Fold_tree_indep loc _ m none).trans rfl, rfl⟩
  obtain ⟨c, m1, hv, hf⟩ := Fold_wrappedValue h loc T hT m
  exact ⟨c.ToInt, c, m1, hv, hf, rfl⟩

open IntegerExpr in
/-- C18: the code against the claim that, for every tree `T`, folding the already folded
tree `Fold(T)` with a sink emits nothing.  On the one-byte tree `Parentheses(Constant 5)`
the first `Fold` has no defined result, so the program fixes neither a folded tree to fold
again nor the diagnostics of the first fold.  On every tree on which the first `Fold` with a
sink has a defined result, it only appends diagnostics, at most as many as `T` has `Negate`,
`Add` and `Multiply` nodes, and `Fold` with a sink applied to the already folded tree has a
defined result and leaves the tree and the sink as they are: it emits no diagnostic. -/
theorem Fold_again_emits_nothing_where_defined (KIND : Nat) (C : Type) (loc : CharBlock)
    (T : IntegerExpr KIND C) (ms ms1 : Messages) :
    Fold loc (Parentheses (Constant (Integer.ofNat (8 * 1) 5)) : IntegerExpr 1 C) (some ms)
      = none ∧
    ∀ r : IntegerExpr KIND C × Option Messages, Fold loc T (some ms) = some r →
      (∃ ds : List Message, r.2 = some (ms ++ ds) ∧ ds.length ≤ countFoldingNodes T) ∧
      Fold loc r.1 (some ms1) = some (r.1, some ms1) :=
  ⟨by simp [Fold], fun r hr =>
    ⟨Fold_appends loc T ms r hr, Fold_Fold_eq loc loc T (some ms) (some ms1) r hr⟩⟩

end Fortran.evaluate

/-! ## The character buffer -/

namespace Fortran.parser.CharBuffer

theorem mod_of_last_block {cap L B : Nat} (hcap : 0 < cap) (h1 : L * cap < B)
    (h2 : B ≤ L * cap + cap) :
    (B % cap = 0 ∧ B = L * cap + cap) ∨ (B % cap = B - L * cap ∧ B < L * cap + cap) := by
  obtain ⟨r, rfl⟩ : ∃ r, B = L * cap + r := ⟨B - L * cap, by omega⟩
  have hr : (L * cap + r) % cap = r % cap := Nat.mul_add_mod' L cap r
  by_cases hrc : r = cap
  · left
    subst hrc
    exact ⟨by rw [hr]; exact Nat.mod_self _, rfl⟩
  · right
    have hlt : r < cap := by omega
    exact ⟨by rw [hr, Nat.mod_eq_of_lt hlt]; omega, by omega⟩

theorem length_newBlock (cap : Nat) : (newBlock cap).length = cap := by
  simp [newBlock]

theorem length_writeBlock (blk : List Char) (offset : Nat) (src : List Char) :
    (writeBlock blk offset src).length = blk.length := by
  simp only [writeBlock, List.length_take, List.length_append, List.length_drop]
  omega

theorem writeBlock_eq {blk src : List Char} {offset : Nat}
    (h : offset + src.length ≤ blk.length) :
    writeBlock blk offset src = blk.take offset ++ src ++ blk.drop (offset + src.length) := by
  unfold writeBlock
  apply List.take_of_length_le
  simp only [List.length_take, List.length_append, List.length_drop]
  omega

theorem length_flatten_of_blocks {cap : Nat} (l : List (List Char))
    (h : ∀ blk ∈ l, blk.length = cap) : l.flatten.length = l.length * cap := by
  induction l with
  | nil => simp
  | cons a t ih =>
    have ha : a.length = cap := h a (List.mem_cons_self _ _)
    have ht := ih (fun blk hb => h blk (List.mem_cons_of_mem _ hb))
    simp only [List.flatten_cons, List.length_append, List.length_cons, ha, ht]
    rw [Nat.add_mul]
    omega

theorem FreeSpace_of_no_block {cap : Nat} {b : CharBuffer} (h0 : b.blocks_ = []) :
    FreeSpace cap b = FreeSpaceResult.mk (CharBuffer.mk [newBlock cap] 0 b.bytes_ true) 0
      (b.bytes_ % cap) (cap - b.bytes_ % cap) := by
  simp [FreeSpace, LastBlockOffset, h0]

theorem FreeSpace_of_full {cap : Nat} {b : CharBuffer} (h0 : b.blocks_ ≠ [])
    (h1 : b.bytes_ % cap = 0) (h2 : b.lastBlockEmpty_ = false) :
    FreeSpace cap b = FreeSpaceResult.mk
      (CharBuffer.mk
        (b.blocks_.take (b.last_ + 1) ++ newBlock cap :: b.blocks_.drop (b.last_ + 1))
        (b.last_ + 1) b.bytes_ true) (b.last_ + 1) 0 cap := by
  simp [FreeSpace, LastBlockOffset, h0, h1, h2]

theorem FreeSpace_of_room {cap : Nat} {b : CharBuffer} (h0 : b.blocks_ ≠ [])
    (h1 : b.bytes_ % cap ≠ 0 ∨ b.lastBlockEmpty_ = true) :
    FreeSpace cap b = FreeSpaceResult.mk b b.last_ (b.bytes_ % cap) (cap - b.bytes_ % cap) := by
  rcases h1 with h1 | h1 <;> simp [FreeSpace, LastBlockOffset, h0, h1]

/-- What `FreeSpace` does in a state that satisfies the invariant. -/
theorem FreeSpace_spec {cap : Nat} (hcap : 0 < cap) {b : CharBuffer} (hI : Inv cap b) :
    Inv cap (FreeSpace cap b).buffer ∧
    (FreeSpace cap b).buffer.bytes_ = b.bytes_ ∧
    (FreeSpace cap b).buffer.blocks_ ≠ [] ∧
    (FreeSpace cap b).block = (FreeSpace cap b).buffer.last_ ∧
    (FreeSpace cap b).offset = b.bytes_ % cap ∧
    (FreeSpace cap b).n = cap - b.bytes_ % cap ∧
    b.bytes_ = (FreeSpace cap b).buffer.last_ * cap + b.bytes_ % cap ∧
    (((FreeSpace cap b).buffer = b ∧ b.blocks_ ≠ [] ∧ b.bytes_ < b.blocks_.length * cap) ∨
      ((FreeSpace cap b).buffer.blocks_ = b.blocks_ ++ [newBlock cap] ∧
        b.bytes_ = b.blocks_.length * cap ∧
        (FreeSpace cap b).buffer.lastBlockEmpty_ = true)) := by
  obtain ⟨hlen, hnil, hne⟩ := hI
  by_cases h0 : b.blocks_ = []
  · have hb := hnil h0
    rw [FreeSpace_of_no_block h0]
    simp only [hb, Nat.zero_mod]
    refine ⟨⟨?_, by simp, ?_⟩, trivial, by simp, trivial, trivial, by simp, by simp, Or.inr ?_⟩
    · intro blk hblk
      rw [List.mem_singleton.mp hblk]
      exact length_newBlock cap
    · intro _
      exact ⟨rfl, fun _ => by simp, fun h => by simp at h⟩
    · simp [h0]
  · obtain ⟨hlast, hE, hF⟩ := hne h0
    have hlenpos : b.last_ * cap + cap = b.blocks_.length * cap := by
      rw [← hlast, Nat.add_mul]; omega
    by_cases hfull : b.bytes_ % cap = 0 ∧ b.lastBlockEmpty_ = false
    · obtain ⟨hm, hl⟩ := hfull
      obtain ⟨h1, h2⟩ := hF hl
      have hB : b.bytes_ = b.last_ * cap + cap := by
        rcases mod_of_last_block hcap h1 h2 with ⟨_, h⟩ | ⟨h, h3⟩
        · exact h
        · omega
      have hblocks : b.blocks_.take (b.last_ + 1) ++ newBlock cap :: b.blocks_.drop (b.last_ + 1)
          = b.blocks_ ++ [newBlock cap] := by
        rw [List.take_of_length_le (by omega), List.drop_of_length_le (by omega)]
      rw [FreeSpace_of_full h0 hm hl, hblocks]
      refine ⟨⟨?_, by simp, ?_⟩, rfl, by simp, rfl, hm.symm, by simp [hm], ?_, Or.inr ?_⟩
      · intro blk hblk
        rcases List.mem_append.mp hblk with hblk | hblk
        · exact hlen blk hblk
        · rw [List.mem_singleton.mp hblk]
          exact length_newBlock cap
      · intro _
        refine ⟨by simp; omega, fun _ => ?_, fun h => by simp at h⟩
        show b.bytes_ = (b.last_ + 1) * cap
        rw [Nat.add_mul]; omega
      · show b.bytes_ = (b.last_ + 1) * cap + b.bytes_ % cap
        rw [hm, Nat.add_mul]; omega
      · exact ⟨rfl, by omega, rfl⟩
    · have hroom : b.bytes_ % cap ≠ 0 ∨ b.lastBlockEmpty_ = true := by
        by_cases hm : b.bytes_ % cap = 0
        · right
          cases hl : b.lastBlockEmpty_
          · exact absurd ⟨hm, hl⟩ hfull
          · rfl
        · exact Or.inl hm
      rw [FreeSpace_of_room h0 hroom]
      have hpos : b.bytes_ = b.last_ * cap + b.bytes_ % cap ∧
          b.bytes_ < b.last_ * cap + cap := by
        cases hl : b.lastBlockEmpty_
        · obtain ⟨h1, h2⟩ := hF hl
          rcases mod_of_last_block hcap h1 h2 with ⟨hm, _⟩ | ⟨h, h3⟩
          · rcases hroom with hr | hr
            · exact absurd hm hr
            · rw [hl] at hr; cases hr
          · exact ⟨by omega, h3⟩
        · have hB := hE hl
          have hm : b.bytes_ % cap = 0 := by rw [hB]; exact Nat.mul_mod_left _ _
          exact ⟨by omega, by omega⟩
      exact ⟨⟨hlen, hnil, fun _ => ⟨hlast, hE, hF⟩⟩, rfl, h0, rfl, rfl, rfl, hpos.1,
        Or.inl ⟨rfl, h0, by omega⟩⟩

theorem last_block_decomp (l : List (List Char)) (i : Nat) (h : i + 1 = l.length) :
    ∃ pre blk, l = pre ++ [blk] ∧ pre.length = i ∧ l.getD i [] = blk := by
  rcases List.eq_nil_or_concat l with h0 | ⟨pre, blk, hl⟩
  · rw [h0] at h; simp at h
  · rw [List.concat_eq_append] at hl
    subst hl
    have hp : pre.length = i := by simp at h; omega
    refine ⟨pre, blk, rfl, hp, ?_⟩
    rw [← hp]
    simp [List.getD_eq_getElem?_getD]

theorem memcpy_Inv {cap : Nat} {b : CharBuffer} (hI : Inv cap b) (i offset : Nat)
    (src : List Char) : Inv cap (memcpy b i offset src) := by
  obtain ⟨hlen, hnil, hne⟩ := hI
  have hlen2 : (b.blocks_.set i (writeBlock (b.blocks_.getD i []) offset src)).length
      = b.blocks_.length := List.length_set _ _ _
  refine ⟨?_, ?_, ?_⟩
  · intro blk hblk
    by_cases hi : i < b.blocks_.length
    · rcases List.mem_or_eq_of_mem_set hblk with hm | rfl
      · exact hlen blk hm
      · rw [length_writeBlock, List.getD_eq_getElem _ _ hi]
        exact hlen _ (List.getElem_mem _)
    · have hm : b.blocks_.set i (writeBlock (b.blocks_.getD i []) offset src) = b.blocks_ :=
        List.set_eq_of_length_le (by omega)
      have hblk2 : blk ∈ b.blocks_.set i (writeBlock (b.blocks_.getD i []) offset src) := hblk
      rw [hm] at hblk2
      exact hlen blk hblk2
  · intro h0
    apply hnil
    have : b.blocks_.length = 0 := by
      rw [← hlen2]
      show (memcpy b i offset src).blocks_.length = 0
      rw [h0]; rfl
    exact List.length_eq_zero.mp this
  · intro h0
    have hb : b.blocks_ ≠ [] := by
      intro hb
      apply h0
      show b.blocks_.set i _ = []
      rw [hb]; rfl
    obtain ⟨h1, h2, h3⟩ := hne hb
    exact ⟨by show b.last_ + 1 = (b.blocks_.set i _).length; rw [hlen2]; exact h1, h2, h3⟩

theorem Claim_zero (b : CharBuffer) : Claim b 0 = b := by
  simp [Claim]

/-- A `Claim` of at most the size that `FreeSpace` reported keeps the invariant. -/
theorem Claim_spec {cap : Nat} (hcap : 0 < cap) {b : CharBuffer} (hI : Inv cap b) (k : Nat)
    (hk : k ≤ (FreeSpace cap b).n) :
    Inv cap (Claim (FreeSpace cap b).buffer k) ∧
    (Claim (FreeSpace cap b).buffer k).bytes_ = b.bytes_ + k ∧
    (Claim (FreeSpace cap b).buffer k).blocks_ = (FreeSpace cap b).buffer.blocks_ ∧
    (Claim (FreeSpace cap b).buffer k).last_ = (FreeSpace cap b).buffer.last_ := by
  obtain ⟨hI1, hbytes, hne, _, _, hn, hpos, _⟩ := FreeSpace_spec hcap hI
  have hmod : b.bytes_ % cap < cap := Nat.mod_lt _ hcap
  by_cases hk0 : k = 0
  · subst hk0
    rw [Claim_zero]
    exact ⟨hI1, by omega, rfl, rfl⟩
  · have hkpos : k > 0 := by omega
    have hC : Claim (FreeSpace cap b).buffer k
        = CharBuffer.mk (FreeSpace cap b).buffer.blocks_ (FreeSpace cap b).buffer.last_
            ((FreeSpace cap b).buffer.bytes_ + k) false := by
      simp [Claim, hkpos]
    rw [hC]
    obtain ⟨hlen, _, hne1⟩ := hI1
    obtain ⟨hlast, _, _⟩ := hne1 hne
    refine ⟨⟨hlen, fun h0 => absurd h0 hne, fun _ => ⟨hlast, fun h => by simp at h, fun _ => ?_⟩⟩,
      by simp [hbytes], rfl, rfl⟩
    show (FreeSpace cap b).buffer.last_ * cap < (FreeSpace cap b).buffer.bytes_ + k ∧
      (FreeSpace cap b).buffer.bytes_ + k ≤ (FreeSpace cap b).buffer.last_ * cap + cap
    rw [hbytes]
    rw [hn] at hk
    omega

theorem contents_FreeSpace {cap : Nat} (hcap : 0 < cap) {b : CharBuffer} (hI : Inv cap b) :
    contents (FreeSpace cap b).buffer = contents b := by
  obtain ⟨_, hbytes, _, _, _, _, _, hcase⟩ := FreeSpace_spec hcap hI
  rcases hcase with ⟨h, _, _⟩ | ⟨hblocks, hfull, _⟩
  · rw [h]
  · unfold contents
    rw [hblocks, hbytes, List.flatten_append]
    apply List.take_append_of_le_length
    rw [length_flatten_of_blocks _ hI.1]
    omega

/-- One iteration of the loop of `Put`: the bytes `src` go to the free space of the last
block, right behind the claimed bytes. -/
theorem Put_step {cap : Nat} (hcap : 0 < cap) {b : CharBuffer} (hI : Inv cap b)
    (src : List Char) (hsrc : src.length ≤ (FreeSpace cap b).n) :
    Inv cap (memcpy (Claim (FreeSpace cap b).buffer src.length) (FreeSpace cap b).block
      (FreeSpace cap b).offset src) ∧
    (memcpy (Claim (FreeSpace cap b).buffer src.length) (FreeSpace cap b).block
      (FreeSpace cap b).offset src).bytes_ = b.bytes_ + src.length ∧
    contents (memcpy (Claim (FreeSpace cap b).buffer src.length) (FreeSpace cap b).block
      (FreeSpace cap b).offset src) = contents b ++ src := by
  obtain ⟨hIc, hcb, hcbl, hcl⟩ := Claim_spec hcap hI src.length hsrc
  refine ⟨memcpy_Inv hIc _ _ _, hcb, ?_⟩
  obtain ⟨hI1, hbytes, hne, hblock, hoff, hn, hpos, _⟩ := FreeSpace_spec hcap hI
  obtain ⟨hlen, _, hne1⟩ := hI1
  obtain ⟨hlast, _, _⟩ := hne1 hne
  obtain ⟨pre, blk, hdec, hprelen, hget⟩ := last_block_decomp _ _ hlast
  have hblk : blk.length = cap := hlen blk (by rw [hdec]; simp)
  have hpre : pre.flatten.length = pre.length * cap :=
    length_flatten_of_blocks pre (fun x hx => hlen x (by rw [hdec]; simp [hx]))
  have hmod : b.bytes_ % cap < cap := Nat.mod_lt _ hcap
  rw [hn] at hsrc
  generalize b.bytes_ % cap = r at hoff hpos hmod hsrc
  have hfit : r + src.length ≤ blk.length := by omega
  have hB : b.bytes_ = pre.flatten.length + r := by rw [hpre, hprelen]; exact hpos
  have hold : contents b = pre.flatten ++ blk.take r := by
    rw [← contents_FreeSpace hcap hI]
    unfold contents
    rw [hdec, hbytes, hB, List.flatten_append, List.take_append]
    simp
  rw [hold]
  unfold contents memcpy
  simp only [hcb, hcbl, hblock, hoff, hget]
  rw [hdec]
  have hset : (pre ++ [blk]).set (FreeSpace cap b).buffer.last_ (writeBlock blk r src)
      = pre ++ [writeBlock blk r src] := by
    rw [← hprelen]
    simp [List.set_append]
  rw [hset, List.flatten_append, writeBlock_eq hfit]
  have hb : b.bytes_ + src.length = pre.flatten.length + (r + src.length) := by omega
  rw [hb, List.take_append]
  simp only [List.flatten_cons, List.flatten_nil, List.append_nil]
  rw [List.take_left' (by simp; omega)]
  simp

/-- The loop of `Put` ends within as many iterations as bytes are left, and appends the
bytes that are left. -/
theorem PutLoop_spec {cap : Nat} (hcap : 0 < cap) (data : List Char) :
    ∀ (k pos : Nat) (b : CharBuffer), data.length - pos = k → pos ≤ data.length → Inv cap b →
      ∃ b1 : CharBuffer,
        (∀ fuel, k ≤ fuel → PutLoop cap data data.length fuel pos b = some b1) ∧
        Inv cap b1 ∧ b1.bytes_ = b.bytes_ + k ∧ contents b1 = contents b ++ data.drop pos := by
  intro k
  induction k using Nat.strong_induction_on with
  | _ k ih =>
    intro pos b hk hpos hI
    by_cases hlt : pos < data.length
    · obtain ⟨_, _, _, _, _, hn, _, _⟩ := FreeSpace_spec hcap hI
      have hmod : b.bytes_ % cap < cap := Nat.mod_lt _ hcap
      have hchunk : min (data.length - pos) (FreeSpace cap b).n
          = ((data.drop pos).take (min (data.length - pos) (FreeSpace cap b).n)).length := by
        simp
      have hsrc : ((data.drop pos).take (min (data.length - pos) (FreeSpace cap b).n)).length
          ≤ (FreeSpace cap b).n := by
        rw [← hchunk]; exact Nat.min_le_right _ _
      obtain ⟨hI3, hb3, hc3⟩ := Put_step hcap hI _ hsrc
      rw [← hchunk] at hI3 hb3 hc3
      have hc1 : 1 ≤ min (data.length - pos) (FreeSpace cap b).n := by
        rw [hn]; omega
      have hc2 : min (data.length - pos) (FreeSpace cap b).n ≤ data.length - pos :=
        Nat.min_le_left _ _
      obtain ⟨b1, hloop, hI1, hb1, hcont⟩ :=
        ih (data.length - (pos + min (data.length - pos) (FreeSpace cap b).n)) (by omega)
          (pos + min (data.length - pos) (FreeSpace cap b).n) _ rfl (by omega) hI3
      refine ⟨b1, ?_, hI1, by rw [hb1, hb3]; omega, ?_⟩
      · intro fuel hfuel
        obtain ⟨f, rfl⟩ : ∃ f, fuel = f + 1 := ⟨fuel - 1, by omega⟩
        simp only [PutLoop, hlt, if_true]
        exact hloop f (by omega)
      · rw [hcont, hc3, List.append_assoc]
        congr 1
        rw [← List.drop_drop, List.take_append_drop]
    · have hk0 : k = 0 := by omega
      have hdrop : data.drop pos = [] := List.drop_of_length_le (by omega)
      refine ⟨b, ?_, hI, by omega, by rw [hdrop]; simp⟩
      intro fuel _
      cases fuel <;> simp [PutLoop, hlt]

theorem Inv_empty (cap : Nat) : Inv cap empty :=
  ⟨fun _ h => by simp [empty] at h, fun _ => rfl, fun h => absurd rfl h⟩

/-- Every reachable state satisfies the invariant. -/
theorem Inv_of_Reachable {cap : Nat} (hcap : 0 < cap) {b : CharBuffer}
    (h : Reachable cap b) : Inv cap b := by
  induction h with
  | empty => exact Inv_empty cap
  | freeSpace _ ih => exact (FreeSpace_spec hcap ih).1
  | claim k _ hk ih => exact (Claim_spec hcap ih k hk).1
  | write src _ _ ih => exact memcpy_Inv (FreeSpace_spec hcap ih).1 _ _ _
  | put data _ hput ih =>
    obtain ⟨b2, hloop, hI2, _, _⟩ := PutLoop_spec hcap data data.length 0 _ (by omega)
      (by omega) ih
    have := hloop data.length (le_refl _)
    unfold Put at hput
    rw [this] at hput
    cases hput
    exact hI2

theorem length_contents {cap : Nat} {b : CharBuffer} (hI : Inv cap b) :
    (contents b).length = b.bytes_ := by
  unfold contents
  rw [List.length_take, length_flatten_of_blocks _ hI.1]
  apply Nat.min_eq_left
  by_cases h0 : b.blocks_ = []
  · rw [hI.2.1 h0]; exact Nat.zero_le _
  · obtain ⟨hlast, hE, hF⟩ := hI.2.2 h0
    rw [← hlast, Nat.add_mul]
    cases hl : b.lastBlockEmpty_
    · have := (hF hl).2; omega
    · have := hE hl; omega

/-- C19: in every reachable state of a `CharBuffer` with a positive block capacity, and
for every byte sequence `data` of length `n`, `Put(data, n)` terminates (within `n`
iterations of its loop, and with the same result for any larger bound), increases `bytes_`
by exactly `n`, and makes the contents of the buffer the old contents followed by `data`:
the bytes stored before are unchanged and the bytes of `data` follow them in order, across
block boundaries too; `Put` with `n = 0` changes nothing. -/
theorem Put_appends_data (capacity : Nat) (hcap : 0 < capacity) (b : CharBuffer)
    (hb : Reachable capacity b) (data : List Char) :
    (∃ b1 : CharBuffer,
      Put capacity b data data.length = some b1 ∧
      (∀ fuel, data.length ≤ fuel → PutLoop capacity data data.length fuel 0 b = some b1) ∧
      b1.bytes_ = b.bytes_ + data.length ∧
      contents b1 = contents b ++ data ∧
      (contents b1).take b.bytes_ = contents b ∧
      (contents b1).drop b.bytes_ = data) ∧
    Put capacity b [] 0 = some b := by
  have hI := Inv_of_Reachable hcap hb
  obtain ⟨b1, hloop, _, hbytes, hcont⟩ :=
    PutLoop_spec hcap data data.length 0 b (by omega) (by omega) hI
  have hlen := length_contents hI
  simp only [List.drop_zero] at hcont
  refine ⟨⟨b1, hloop data.length (le_refl _), hloop, hbytes, hcont, ?_, ?_⟩, rfl⟩
  · rw [hcont, ← hlen, List.take_left]
  · rw [hcont, ← hlen, List.drop_left]

/-- Instance of C19 with blocks of four bytes: after `Put` of `hell` and a `FreeSpace`,
the `Put` of the seven bytes `o world` spans two block boundaries. -/
theorem Put_appends_data_witness :
    0 < 4 ∧
    Reachable 4 (FreeSpace 4 sampleFull).buffer ∧
    ((∃ b1 : CharBuffer,
      Put 4 (FreeSpace 4 sampleFull).buffer "o world".data "o world".data.length = some b1 ∧
      (∀ fuel, "o world".data.length ≤ fuel →
        PutLoop 4 "o world".data "o world".data.length fuel 0 (FreeSpace 4 sampleFull).buffer
          = some b1) ∧
      b1.bytes_ = (FreeSpace 4 sampleFull).buffer.bytes_ + "o world".data.length ∧
      contents b1 = contents (FreeSpace 4 sampleFull).buffer ++ "o world".data ∧
      (contents b1).take (FreeSpace 4 sampleFull).buffer.bytes_
        = contents (FreeSpace 4 sampleFull).buffer ∧
      (contents b1).drop (FreeSpace 4 sampleFull).buffer.bytes_ = "o world".data) ∧
    Put 4 (FreeSpace 4 sampleFull).buffer [] 0 = some (FreeSpace 4 sampleFull).buffer) :=
  ⟨by decide,
    Reachable.freeSpace (Reachable.put ['h', 'e', 'l', 'l'] Reachable.empty (by decide)),
    Put_appends_data 4 (by decide) (FreeSpace 4 sampleFull).buffer
      (Reachable.freeSpace (Reachable.put ['h', 'e', 'l', 'l'] Reachable.empty (by decide)))
      "o world".data⟩

/-- C20: in every reachable state of a `CharBuffer` with a positive block capacity,
`FreeSpace` reports a free size `n` with `1 <= n <= capacity`, equal to the capacity minus
`bytes_ mod capacity`; the position it returns is in the last block, which exists and has
`capacity` bytes, at the offset `bytes_ mod capacity`, the reported bytes end with the
block, and the position is the one right behind the claimed bytes, so it overlaps none of
them; a new block is appended exactly when the buffer has no block or the last block has
been filled completely, and otherwise the buffer stays as it is; the claimed bytes and the
contents are unchanged; a second `FreeSpace`, also after a `Claim(0)`, returns the same
position and size and allocates nothing; `Claim(0)` leaves the state unchanged. -/
theorem FreeSpace_safe (capacity : Nat) (hcap : 0 < capacity) (b : CharBuffer)
    (hb : Reachable capacity b) :
    (1 ≤ (FreeSpace capacity b).n ∧ (FreeSpace capacity b).n ≤ capacity ∧
      (FreeSpace capacity b).n = capacity - b.bytes_ % capacity) ∧
    ((FreeSpace capacity b).block = (FreeSpace capacity b).buffer.last_ ∧
      (FreeSpace capacity b).block + 1 = (FreeSpace capacity b).buffer.blocks_.length ∧
      ((FreeSpace capacity b).buffer.blocks_.getD (FreeSpace capacity b).block []).length
        = capacity ∧
      (FreeSpace capacity b).offset = b.bytes_ % capacity ∧
      (FreeSpace capacity b).offset + (FreeSpace capacity b).n = capacity) ∧
    (FreeSpace capacity b).block * capacity + (FreeSpace capacity b).offset = b.bytes_ ∧
    (((FreeSpace capacity b).buffer.blocks_ = b.blocks_ ++ [newBlock capacity] ↔
        (b.blocks_ = [] ∨ (b.blocks_ ≠ [] ∧ b.bytes_ = b.blocks_.length * capacity))) ∧
      ((FreeSpace capacity b).buffer.blocks_ = b.blocks_ ++ [newBlock capacity] ∨
        (FreeSpace capacity b).buffer = b)) ∧
    ((FreeSpace capacity b).buffer.bytes_ = b.bytes_ ∧
      contents (FreeSpace capacity b).buffer = contents b) ∧
    (FreeSpace capacity (FreeSpace capacity b).buffer = FreeSpace capacity b ∧
      FreeSpace capacity (Claim (FreeSpace capacity b).buffer 0) = FreeSpace capacity b) ∧
    Claim b 0 = b := by
  have hI := Inv_of_Reachable hcap hb
  obtain ⟨hI1, hbytes, hne, hblock, hoff, hn, hpos, hcase⟩ := FreeSpace_spec hcap hI
  have hmod : b.bytes_ % capacity < capacity := Nat.mod_lt _ hcap
  obtain ⟨hlen1, _, hne1⟩ := hI1
  obtain ⟨hlast, _, _⟩ := hne1 hne
  have htwice : FreeSpace capacity (FreeSpace capacity b).buffer = FreeSpace capacity b := by
    rcases hcase with ⟨h, _, _⟩ | ⟨_, _, hl⟩
    · rw [h]
    · rw [FreeSpace_of_room hne (Or.inr hl), hbytes]
      cases hr : FreeSpace capacity b with
      | mk buffer block offset n =>
        rw [hr] at hblock hoff hn
        simp only at hblock hoff hn
        rw [hblock, hoff, hn]
  refine ⟨⟨by omega, by omega, hn⟩, ⟨hblock, by rw [hblock]; exact hlast, ?_, hoff, by omega⟩,
    by rw [hblock, hoff]; exact hpos.symm, ⟨?_, ?_⟩, ⟨hbytes, contents_FreeSpace hcap hI⟩,
    ⟨htwice, by rw [Claim_zero]; exact htwice⟩, Claim_zero b⟩
  · rw [hblock, List.getD_eq_getElem _ _ (by omega)]
    exact hlen1 _ (List.getElem_mem _)
  · constructor
    · intro happ
      rcases hcase with ⟨h, h0, _⟩ | ⟨_, hfull, _⟩
      · rw [h] at happ
        have := congrArg List.length happ
        simp at this
      · by_cases h0 : b.blocks_ = []
        · exact Or.inl h0
        · exact Or.inr ⟨h0, hfull⟩
    · intro hfull
      rcases hcase with ⟨_, h0, hlt⟩ | ⟨happ, _, _⟩
      · rcases hfull with h | ⟨_, h⟩
        · exact absurd h h0
        · omega
      · exact happ
  · rcases hcase with ⟨h, _, _⟩ | ⟨happ, _, _⟩
    · exact Or.inr h
    · exact Or.inl happ

/-- Instance of C20 with blocks of four bytes, in the state after `Put` of `hell`: the one
block is full, and `FreeSpace` appends a second block. -/
theorem FreeSpace_safe_witness :
    0 < 4 ∧
    Reachable 4 sampleFull ∧
    ((1 ≤ (FreeSpace 4 sampleFull).n ∧ (FreeSpace 4 sampleFull).n ≤ 4 ∧
      (FreeSpace 4 sampleFull).n = 4 - sampleFull.bytes_ % 4) ∧
    ((FreeSpace 4 sampleFull).block = (FreeSpace 4 sampleFull).buffer.last_ ∧
      (FreeSpace 4 sampleFull).block + 1 = (FreeSpace 4 sampleFull).buffer.blocks_.length ∧
      ((FreeSpace 4 sampleFull).buffer.blocks_.getD (FreeSpace 4 sampleFull).block []).length
        = 4 ∧
      (FreeSpace 4 sampleFull).offset = sampleFull.bytes_ % 4 ∧
      (FreeSpace 4 sampleFull).offset + (FreeSpace 4 sampleFull).n = 4) ∧
    (FreeSpace 4 sampleFull).block * 4 + (FreeSpace 4 sampleFull).offset = sampleFull.bytes_ ∧
    (((FreeSpace 4 sampleFull).buffer.blocks_ = sampleFull.blocks_ ++ [newBlock 4] ↔
        (sampleFull.blocks_ = [] ∨
          (sampleFull.blocks_ ≠ [] ∧ sampleFull.bytes_ = sampleFull.blocks_.length * 4))) ∧
      ((FreeSpace 4 sampleFull).buffer.blocks_ = sampleFull.blocks_ ++ [newBlock 4] ∨
        (FreeSpace 4 sampleFull).buffer = sampleFull)) ∧
    ((FreeSpace 4 sampleFull).buffer.bytes_ = sampleFull.bytes_ ∧
      contents (FreeSpace 4 sampleFull).buffer = contents sampleFull) ∧
    (FreeSpace 4 (FreeSpace 4 sampleFull).buffer = FreeSpace 4 sampleFull ∧
      FreeSpace 4 (Claim (FreeSpace 4 sampleFull).buffer 0) = FreeSpace 4 sampleFull) ∧
    Claim sampleFull 0 = sampleFull) :=
  ⟨by decide, Reachable.put ['h', 'e', 'l', 'l'] Reachable.empty (by decide),
    FreeSpace_safe 4 (by decide) sampleFull
      (Reachable.put ['h', 'e', 'l', 'l'] Reachable.empty (by decide))⟩

end Fortran.parser.CharBuffer
